import Mathlib

/-!
NetScan: nearest-centroid packet classifier

Shallow embedding of `src/NetScan/utils.c`, `src/NetScan/model.c` and
`src/NetScan/main.c`.

Conventions of the embedding.

* Arrays are lists; an `int` is an `Int`; loop counters that only count
  upwards from zero are `Nat`.
* What the C library and the platform contribute (`fopen`, `atof`, `sqrt`,
  what `malloc(0)` returns, the indeterminate contents of fresh `malloc`
  memory) is collected in `Env`.
* A file is the list of its bytes. read_csv reads it through its buffer of
  1024 bytes (`fgets_loop`) and uses what it read as a C string, which ends at
  the first NUL byte (`cstr`).
* Text written to `stderr` is recorded as a list of `Msg`.
* A C `double` has two models.
  - `F64`, the doubles of IEEE 754 binary64: NaN, the two infinities and the
    finite binary64 numbers, with operations that round to nearest, ties to
    even, overflow to an infinity and underflow gradually. Every arithmetic
    operation of the C source is one binary64 operation (no fused
    multiply-add, no excess precision), as in the code gcc produces for
    x86-64. The sign of zero is not represented: no comparison and no label of
    the program depends on it. The functions of the program that compute with
    doubles are embedded with this arithmetic in the namespace `B64`.
  - `Dbl α`, a finite value in an ordered field `α`, with exact arithmetic, or
    NaN. The functions embedded with it serve the properties that rounding
    does not touch: the control flow of `train_model` and `classify_packet_c`,
    the division by a row count of 0, the midpoint of two centroids.
  read_csv does no arithmetic and is embedded once, for values of any type.
-/

namespace NetScan

/-- A C `double`: a finite value with exact arithmetic, or NaN. -/
inductive Dbl (α : Type) where
  | nan : Dbl α
  | fin (x : α) : Dbl α
deriving DecidableEq, Repr

namespace Dbl

variable {α : Type} [LinearOrderedField α]

/-- Addition `x + y`; NaN propagates. -/
def add : Dbl α → Dbl α → Dbl α
  | fin x, fin y => fin (x + y)
  | _, _ => nan

/-- Subtraction `x - y`; NaN propagates. -/
def sub : Dbl α → Dbl α → Dbl α
  | fin x, fin y => fin (x - y)
  | _, _ => nan

/-- Multiplication `x * y`; NaN propagates. -/
def mul : Dbl α → Dbl α → Dbl α
  | fin x, fin y => fin (x * y)
  | _, _ => nan

/-- Division `x / n` of a double by an `int` converted to double. The program
only divides sums taken over `n` rows, which are `0.0` when `n = 0`, so the
only division by zero it performs is `0.0 / 0`, which is NaN. -/
def divInt : Dbl α → Int → Dbl α
  | fin x, n => if n = 0 then nan else fin (x / (n : α))
  | nan, _ => nan

/-- The call `sqrt(x)`, given the square root `f` on non-negative numbers:
NaN for a negative or NaN argument. -/
def sqrt (f : α → α) : Dbl α → Dbl α
  | fin x => if x < 0 then nan else fin (f x)
  | nan => nan

/-- The comparison `x < y`: false as soon as one side is NaN. -/
def lt : Dbl α → Dbl α → Bool
  | fin x, fin y => decide (x < y)
  | _, _ => false

/-- The array read `xs[i]`. Reads past the end of the list stand for reads
outside the C array and give NaN. -/
def rd (xs : List (Dbl α)) (i : Nat) : Dbl α := xs.getD i nan

/-- The matrix read `data[i][j]`. -/
def rd2 (data : List (List (Dbl α))) (i j : Nat) : Dbl α := rd (data.getD i []) j

end Dbl

open Dbl

variable {α : Type} [LinearOrderedField α]

deriving instance DecidableEq for Except

/-! ## The C library and the platform -/

/-- A line of text written to `stderr`. -/
inductive Msg where
  /-- read_csv: `perror("Error opening CSV file")`. -/
  | open_failed
  /-- train_model: "Error reading safe dataset". -/
  | reading_safe
  /-- train_model: "Error reading bad dataset". -/
  | reading_bad
  /-- train_model: "Datasets have different number of features". -/
  | different_features
  /-- train_model: "Memory allocation error in model training". -/
  | alloc_model
  /-- train_model: "Memory allocation error for stddev". -/
  | alloc_stddev
  /-- classify_packet_c: "Error training the model.". -/
  | training
  /-- classify_packet_c: "Feature mismatch: model expects %d, but got %d.". -/
  | feature_mismatch (expected got : Int)
deriving DecidableEq, Repr

/-- What the program takes from the C library and from the platform.

* `fopen path` is the content of the file when it can be opened for reading
  (one `Char` per byte), `none` when it cannot; the content does not change
  during a call.
* `atof` and `sqrt` are the library functions of these names.
* `malloc_zero_null` tells whether `malloc(0)` returns `NULL`, which the C
  standard leaves to the implementation. Allocations of a positive size
  succeed.
* `garbage k i j` is the indeterminate value found in cell `(i, j)` of the
  `k`-th block that a call of `train_model` obtains from `malloc`. -/
structure Env (α : Type) where
  fopen : String → Option (List Char)
  atof : List Char → Dbl α
  sqrt : α → α
  malloc_zero_null : Bool
  garbage : Nat → Nat → Nat → Dbl α

/-- The `isspace` of ctype.h in the "C" locale: space, `\t`, `\n`, `\v`, `\f`, `\r`. -/
def isspace (c : Char) : Bool :=
  c = ' ' || c = '\t' || c = '\n' || c = Char.ofNat 11 || c = Char.ofNat 12 || c = '\r'

/-- The C string held by a buffer: its content up to the first NUL byte. -/
def cstr (buf : List Char) : List Char := buf.takeWhile fun c => c ≠ Char.ofNat 0

/-- The characters `fgets` stores when at most `k` more fit: it stops after a
newline, at the end of the file, or when `k` characters are stored. The
second component is the unread rest of the stream. -/
def fgets_aux : Nat → List Char → List Char × List Char
  | 0, s => ([], s)
  | _ + 1, [] => ([], [])
  | k + 1, c :: cs =>
    if c = '\n' then ([c], cs)
    else ((c :: (fgets_aux k cs).1), (fgets_aux k cs).2)

/-- The call `fgets(line, size, fp)`: `none` for the `NULL` returned at the end
of the file, else the characters stored in `line` and the rest of the stream. -/
def fgets (size : Nat) (stream : List Char) : Option (List Char × List Char) :=
  if stream = [] then none else some (fgets_aux (size - 1) stream)

/-- The successive values of `line` in `while (fgets(line, sizeof(line), fp))`
with `char line[1024]`, as C strings; `fuel` bounds the number of iterations. -/
def fgets_loop_aux : Nat → List Char → List (List Char)
  | 0, _ => []
  | fuel + 1, stream =>
    match fgets 1024 stream with
    | none => []
    | some (buf, rest) => cstr buf :: fgets_loop_aux fuel rest

/-- The values of `line` over a whole file. Every call of `fgets` that does not
return `NULL` consumes a character, so `content.length` iterations reach the
end of the file. -/
def fgets_loop (content : List Char) : List (List Char) :=
  fgets_loop_aux content.length content

/-- One call of `strtok` with delimiter "," on the text that is left: leading
commas are skipped; `none` when nothing is left, else the token and the text
after the comma that ended it. -/
def strtok (s : List Char) : Option (List Char × List Char) :=
  match s.dropWhile fun c => c = ',' with
  | [] => none
  | c :: cs =>
    some ((c :: cs).takeWhile (fun c => c ≠ ','), ((c :: cs).dropWhile fun c => c ≠ ',').drop 1)

/-- The tokens returned by `strtok(s, ",")` and the following calls
`strtok(NULL, ",")` until `NULL`; `fuel` bounds the number of calls. -/
def strtok_all_aux : Nat → List Char → List (List Char)
  | 0, _ => []
  | fuel + 1, s =>
    match strtok s with
    | none => []
    | some (token, rest) => token :: strtok_all_aux fuel rest

/-- The tokens of a string. Every token takes at least one character, so
`s.length` calls find them all. -/
def strtok_all (s : List Char) : List (List Char) := strtok_all_aux s.length s

/-- The number written by a string of decimal digits. -/
def digits_val (ds : List Char) : Nat := ds.foldl (fun n d => 10 * n + (d.toNat - 48)) 0

/-- The exponent part of a decimal floating constant at the head of `s`: `e` or
`E`, an optional sign and at least one digit; 0 when there is none. -/
def atof_exponent (s : List Char) : Int :=
  if s.head? = some 'e' ∨ s.head? = some 'E' then
    let t := s.drop 1
    let u := if t.head? = some '-' ∨ t.head? = some '+' then t.drop 1 else t
    if t.head? = some '-' then -(digits_val (u.takeWhile Char.isDigit) : Int)
    else (digits_val (u.takeWhile Char.isDigit) : Int)
  else 0

/-- Modelled from the C standard: `atof` on decimal notation. Leading white
space is skipped, then an optional sign, digits with an optional fraction and
an optional exponent are read, and what follows is ignored; the result is 0
when no digit is found. The value is the number written, without rounding;
`atof64` below rounds it to binary64 and also reads the hexadecimal, infinity
and NaN spellings. -/
def atof_dec (s : List Char) : Dbl α :=
  let s1 := s.dropWhile isspace
  let s2 := if s1.head? = some '-' ∨ s1.head? = some '+' then s1.drop 1 else s1
  let ip := s2.takeWhile Char.isDigit
  let s3 := s2.dropWhile Char.isDigit
  let fp := if s3.head? = some '.' then (s3.drop 1).takeWhile Char.isDigit else []
  let s4 := if s3.head? = some '.' then (s3.drop 1).dropWhile Char.isDigit else s3
  if ip = [] ∧ fp = [] then fin 0
  else
    let mant : α := (digits_val (ip ++ fp) : α) / (10 : α) ^ fp.length
    let e := atof_exponent s4
    let v : α := if e < 0 then mant / (10 : α) ^ (-e).toNat else mant * (10 : α) ^ e.toNat
    fin (if s1.head? = some '-' then -v else v)

/-! ## utils.c -/

/-- The flag `only_whitespace` computed by the inner loop of read_csv over
`line[i] != 0`. -/
def only_whitespace : List Char → Bool
  | [] => true
  | c :: cs => if !isspace c then false else only_whitespace cs

/-- The first pass of read_csv over the lines returned by `fgets`, from the
current `row_count` and `col_count` to their final values. The tokens of a
line are counted only while `col_count` is still 0. -/
def first_pass : List (List Char) → Nat → Nat → Nat × Nat
  | [], row_count, col_count => (row_count, col_count)
  | line :: rest, row_count, col_count =>
    if only_whitespace line then first_pass rest row_count col_count
    else
      first_pass rest (row_count + 1)
        (if col_count = 0 then col_count + (strtok_all line).length else col_count)

/-- The inner loop of the second pass, `while (token && current_col < col_count)`,
over the tokens that are left, writing `atof(token)` into the current row. -/
def fill_row (atof : List Char → Dbl α) (col_count : Nat) :
    List (List Char) → Nat → List (Dbl α) → List (Dbl α)
  | [], _, row => row
  | token :: rest, current_col, row =>
    if current_col < col_count then
      fill_row atof col_count rest (current_col + 1) (row.set current_col (atof token))
    else row

/-- The second pass of read_csv over the lines returned by `fgets` after
`rewind`, from the current `current_row` and matrix to the final matrix. -/
def second_pass (atof : List Char → Dbl α) (col_count : Nat) :
    List (List Char) → Nat → List (List (Dbl α)) → List (List (Dbl α))
  | [], _, matrix => matrix
  | line :: rest, current_row, matrix =>
    if only_whitespace line then second_pass atof col_count rest current_row matrix
    else
      second_pass atof col_count rest (current_row + 1)
        (matrix.set current_row
          (fill_row atof col_count (strtok_all line) 0 (matrix.getD current_row [])))

/-- What read_csv stores through `data`, `rows` and `cols` when it returns 0. -/
structure Csv (α : Type) where
  data : List (List (Dbl α))
  rows : Int
  cols : Int
deriving DecidableEq

/-- utils.c `read_csv`. The result is `Except.error (-1)` for `return -1` and
`Except.ok` of the three outputs for `return 0`, together with the text written
to `stderr`. `uninit i j` is the indeterminate initial value of `matrix[i][j]`.
The two `malloc` failures modelled are those of a zero-size request: the
matrix when `row_count` is 0, a row when `col_count` is 0. -/
def read_csv (E : Env α) (uninit : Nat → Nat → Dbl α) (filename : String) :
    Except Int (Csv α) × List Msg :=
  match E.fopen filename with
  | none => (Except.error (-1), [Msg.open_failed])
  | some content =>
    let lines := fgets_loop content
    let row_count := (first_pass lines 0 0).1
    let col_count := (first_pass lines 0 0).2
    if row_count = 0 ∧ E.malloc_zero_null = true then (Except.error (-1), [])
    else if 0 < row_count ∧ col_count = 0 ∧ E.malloc_zero_null = true then
      (Except.error (-1), [])
    else
      let matrix := (List.range row_count).map fun i =>
        (List.range col_count).map fun j => uninit i j
      (Except.ok ⟨second_pass E.atof col_count lines 0 matrix, row_count, col_count⟩, [])

/-- utils.c `compute_statistics`, from the initial contents of the buffers
`mean` and `stddev` to their final contents. The five loops of the function
are the five folds, in the same order. The function returns `void`. -/
def compute_statistics (sqrt : α → α) (data : List (List (Dbl α))) (rows cols : Int)
    (mean stddev : List (Dbl α)) : List (Dbl α) × List (Dbl α) :=
  let init := (List.range cols.toNat).foldl
    (fun (p : List (Dbl α) × List (Dbl α)) j => (p.1.set j (fin 0), p.2.set j (fin 0)))
    (mean, stddev)
  let sums := (List.range rows.toNat).foldl
    (fun mean i => (List.range cols.toNat).foldl
      (fun mean j => mean.set j (Dbl.add (rd mean j) (rd2 data i j))) mean)
    init.1
  let means := (List.range cols.toNat).foldl
    (fun mean j => mean.set j (Dbl.divInt (rd mean j) rows)) sums
  let sqsums := (List.range rows.toNat).foldl
    (fun stddev i => (List.range cols.toNat).foldl
      (fun stddev j =>
        let diff := Dbl.sub (rd2 data i j) (rd means j)
        stddev.set j (Dbl.add (rd stddev j) (Dbl.mul diff diff))) stddev)
    init.2
  let stddevs := (List.range cols.toNat).foldl
    (fun stddev j => stddev.set j (Dbl.sqrt sqrt (Dbl.divInt (rd stddev j) rows))) sqsums
  (means, stddevs)

/-! ## model.c -/

/-- The struct `Model` of model.h. -/
structure Model (α : Type) where
  num_features : Int
  safe_mean : List (Dbl α)
  bad_mean : List (Dbl α)
deriving DecidableEq

/-- model.c `euclidean_distance`: the loop adds `diff * diff` for
`i = 0 .. n-1` to `sum`, and the result is `sqrt(sum)`. -/
def euclidean_distance (sqrt : α → α) (v1 v2 : List (Dbl α)) (n : Int) : Dbl α :=
  let sum := (List.range n.toNat).foldl
    (fun sum i =>
      let diff := Dbl.sub (rd v1 i) (rd v2 i)
      Dbl.add sum (Dbl.mul diff diff))
    (fin 0)
  Dbl.sqrt sqrt sum

/-- model.c `classify_packet`: 1 when the distance to the safe mean is
strictly smaller than the distance to the bad mean, else 0. -/
def classify_packet (sqrt : α → α) (model : Model α) (features : List (Dbl α)) : Int :=
  let dist_safe := euclidean_distance sqrt features model.safe_mean model.num_features
  let dist_bad := euclidean_distance sqrt features model.bad_mean model.num_features
  if Dbl.lt dist_safe dist_bad then 1 else 0

/-- The block of `n` doubles returned by `malloc`, with the indeterminate
contents `g`. -/
def fresh (g : Nat → Dbl α) (n : Int) : List (Dbl α) := (List.range n.toNat).map g

/-- model.c `train_model`. The result is `Except.error (-1)` for `return -1` and
`Except.ok` of the model for `return 0`, together with the text written to
`stderr`. The four blocks of `safe_cols` doubles fail to be allocated only when
`safe_cols` is 0 and `malloc(0)` returns `NULL`. -/
def train_model (E : Env α) (safe_csv bad_csv : String) : Except Int (Model α) × List Msg :=
  match read_csv E (E.garbage 0) safe_csv with
  | (Except.error _, log) => (Except.error (-1), log ++ [Msg.reading_safe])
  | (Except.ok safe, log) =>
    match read_csv E (E.garbage 1) bad_csv with
    | (Except.error _, log2) => (Except.error (-1), log ++ log2 ++ [Msg.reading_bad])
    | (Except.ok bad, log2) =>
      if safe.cols ≠ bad.cols then
        (Except.error (-1), log ++ log2 ++ [Msg.different_features])
      else if safe.cols = 0 ∧ E.malloc_zero_null = true then
        (Except.error (-1), log ++ log2 ++ [Msg.alloc_model])
      else
        let safe_stat := compute_statistics E.sqrt safe.data safe.rows safe.cols
          (fresh (E.garbage 2 0) safe.cols) (fresh (E.garbage 4 0) safe.cols)
        let bad_stat := compute_statistics E.sqrt bad.data bad.rows bad.cols
          (fresh (E.garbage 3 0) safe.cols) (fresh (E.garbage 5 0) safe.cols)
        (Except.ok ⟨safe.cols, safe_stat.1, bad_stat.1⟩, log ++ log2)

/-! ## main.c -/

/-- main.c `classify_packet_c`: the returned `int` and the text written to
`stderr`. `features` is the array behind the pointer of that name. -/
def classify_packet_c (E : Env α) (safe_csv bad_csv : String) (features : List (Dbl α))
    (feature_count : Int) : Int × List Msg :=
  match train_model E safe_csv bad_csv with
  | (Except.error _, log) => (0, log ++ [Msg.training])
  | (Except.ok model, log) =>
    if model.num_features ≠ feature_count then
      (0, log ++ [Msg.feature_mismatch model.num_features feature_count])
    else (classify_packet E.sqrt model features, log)

/-! ## Notions of the specification -/

/-- The lines of a text, each with the newline that ends it; only the last line
can lack one. -/
def file_lines : List Char → List (List Char)
  | [] => []
  | c :: cs =>
    if c = '\n' then [c] :: file_lines cs
    else
      match file_lines cs with
      | [] => [[c]]
      | l :: ls => (c :: l) :: ls

/-- A line is blank when it consists solely of white space. -/
def blank (l : List Char) : Bool := l.all isspace

/-- The non-blank lines of a text, in file order. -/
def data_lines (content : List Char) : List (List Char) :=
  (file_lines content).filter fun l => !blank l

/-- The tokens of a line: the non-empty pieces between its commas. -/
def line_tokens (l : List Char) : List (List Char) :=
  (l.splitOn ',').filter fun t => t ≠ []

/-! ## Sample environment -/

/-- A square root on the rationals, rounded down to a multiple of `1 / x.den`;
it is exact on the squares of rationals. -/
def sqrt_floor (x : ℚ) : ℚ := (Nat.sqrt (x.num.toNat * x.den) : ℚ) / (x.den : ℚ)

/-- A line of 1023 digits, a comma, a digit and a newline. -/
def long_line : List Char := List.replicate 1023 '1' ++ ",2\n".toList

/-- A line with a NUL byte after its second field. -/
def nul_line : List Char := ['1', ',', '2', Char.ofNat 0, ',', '3', '\n']

/-- A file system with a few files. -/
def sample_files (path : String) : Option (List Char) :=
  if path = "safe.csv" then some "0,0\n0,0\n".toList
  else if path = "bad.csv" then some "10,10\n10,10\n".toList
  else if path = "spaced.csv" then some "0,0\n \n0,0\n".toList
  else if path = "rows.csv" then some "1,2\n\n3,4.5\n".toList
  else if path = "three.csv" then some "1,2,3\n".toList
  else if path = "ragged.csv" then some "1,2\n3\n4,5,6\n".toList
  else if path = "long.csv" then some long_line
  else if path = "nul.csv" then some nul_line
  else if path = "blank.csv" then some " \n\t\n".toList
  else if path = "empty.csv" then some []
  else none

/-- An environment over the rationals: the files of `sample_files`, decimal
`atof`, a `malloc(0)` that does not return `NULL`, and 777 in every cell of
fresh memory. -/
def sample_env : Env ℚ :=
  ⟨sample_files, atof_dec, sqrt_floor, false, fun _ _ _ => Dbl.fin 777⟩

/-! ## Statistics of the specification -/

/-- The arithmetic average of column `j` of the `rows` first rows of `a`. -/
def col_mean (a : Nat → Nat → α) (rows j : Nat) : α :=
  (∑ i in Finset.range rows, a i j) / (rows : α)

/-- The population variance of column `j` of the `rows` first rows of `a`: the
sum of the squared deviations from the average, divided by the number of
rows. -/
def col_var (a : Nat → Nat → α) (rows j : Nat) : α :=
  (∑ i in Finset.range rows, (a i j - col_mean a rows j) ^ 2) / (rows : α)

/-- The entries of a matrix of numbers given by its rows; 0 outside. -/
def entries (m : List (List α)) (i j : Nat) : α := (m.getD i []).getD j 0

/-- The point `(x, y)` of the Euclidean plane. -/
def vec2 (x y : ℝ) : EuclideanSpace ℝ (Fin 2) := (![x, y] : Fin 2 → ℝ)

/-! ## More sample files -/

/-- A line of 1026 characters with three tokens: 2, then 1021 digits, then 4. -/
def overlong_line : List Char := "2,".toList ++ List.replicate 1021 '3' ++ ",4\n".toList

/-! ## binary64 arithmetic

Modelled from IEEE 754: the doubles of the platform and their operations in
the default rounding mode, to nearest with ties to even. -/

/-- A binary64 number that is not NaN: a finite value or an infinity. The
finite binary64 numbers are the rationals `m * 2 ^ e` with `|m| < 2 ^ 53` and
`-1074 ≤ e ≤ 971`; every operation below returns one of them, an infinity or
NaN. The sign of zero is not represented. -/
inductive Num64 where
  | ninf : Num64
  | val (q : ℚ) : Num64
  | pinf : Num64
deriving DecidableEq, Repr

/-- A binary64 `double`: NaN or a number, finite or infinite. -/
abbrev F64 : Type := Dbl Num64

namespace B64

open Num64

/-- The power of two `2 ^ k`. -/
def pow2 (k : Int) : ℚ :=
  if 0 ≤ k then ((2 ^ k.toNat : Nat) : ℚ) else 1 / ((2 ^ (-k).toNat : Nat) : ℚ)

/-- The halvings of `n` that are left before 1 is reached, at most `fuel`. -/
def log2_aux : Nat → Nat → Nat
  | 0, _ => 0
  | fuel + 1, n => if 2 ≤ n then log2_aux fuel (n / 2) + 1 else 0

/-- The binary logarithm of `n ≥ 1`, rounded down. -/
def log2 (n : Nat) : Nat := log2_aux n n

/-- The exponent of a positive rational: the `k` with `2 ^ k ≤ a < 2 ^ (k + 1)`. -/
def ilog2 (a : ℚ) : Int :=
  let k : Int := (log2 a.num.natAbs : Int) - (log2 a.den : Int)
  if pow2 k ≤ a then k else k - 1

/-- Rounding to the nearest integer, ties to even. -/
def rne (t : ℚ) : Int :=
  if t - ⌊t⌋ < 1 / 2 then ⌊t⌋
  else if 1 / 2 < t - ⌊t⌋ then ⌊t⌋ + 1
  else if ⌊t⌋ % 2 = 0 then ⌊t⌋ else ⌊t⌋ + 1

/-- The exponent of the last place of the binary64 numbers of the binade of
`a > 0`: 52 below the exponent of `a`, and -1074 for the subnormal numbers. -/
def ulp_exp (a : ℚ) : Int := max (ilog2 a) (-1022) - 52

/-- Rounding of a rational to binary64, to nearest, ties to even: the result of
an IEEE 754 operation whose exact result is `q`. A magnitude that rounds to
`2 ^ 1024` or more overflows to an infinity. -/
def round64 (q : ℚ) : Num64 :=
  if q = 0 then val 0
  else
    let r : ℚ := (rne (|q| / pow2 (ulp_exp |q|)) : ℚ) * pow2 (ulp_exp |q|)
    if pow2 1024 ≤ r then (if q < 0 then ninf else pinf)
    else val (if q < 0 then -r else r)

/-- The integer square root, found bit by bit from bit `k - 1` downwards: `r`
is the part found so far. -/
def isqrt_aux : Nat → Nat → Nat → Nat
  | 0, _, r => r
  | k + 1, n, r => if (r + 2 ^ k) ^ 2 ≤ n then isqrt_aux k n (r + 2 ^ k) else isqrt_aux k n r

/-- The integer square root of `n`: the largest `r` with `r ^ 2 ≤ n`. -/
def isqrt (n : Nat) : Nat := isqrt_aux (log2 n / 2 + 1) n 0

/-- The exponent of the last place of the square root of `a > 0`. -/
def sqrt_exp (a : ℚ) : Int := max (ilog2 a / 2) (-1022) - 52

/-- The integer nearest to the square root of `x ≥ 0`, ties to even: the
integer part of the root is `f = isqrt ⌊x⌋`, and the root is compared with the
midpoint `f + 1/2` by comparing `x` with its square. -/
def sqrt_rne (x : ℚ) : Nat :=
  if x < ((isqrt ⌊x⌋.toNat : ℚ) + 1 / 2) ^ 2 then isqrt ⌊x⌋.toNat
  else if ((isqrt ⌊x⌋.toNat : ℚ) + 1 / 2) ^ 2 < x then isqrt ⌊x⌋.toNat + 1
  else if isqrt ⌊x⌋.toNat % 2 = 0 then isqrt ⌊x⌋.toNat else isqrt ⌊x⌋.toNat + 1

/-- The correctly rounded square root of a rational `a`: the binary64 number
nearest to the real square root, ties to even. -/
def sqrt_round (a : ℚ) : ℚ :=
  if a ≤ 0 then 0 else (sqrt_rne (a / pow2 (2 * sqrt_exp a)) : ℚ) * pow2 (sqrt_exp a)

/-- The order of the binary64 numbers. -/
def num_lt : Num64 → Num64 → Bool
  | ninf, ninf => false
  | ninf, _ => true
  | val _, ninf => false
  | val a, val b => decide (a < b)
  | val _, pinf => true
  | pinf, _ => false

/-- The sign of a number is negative. -/
def num_neg : Num64 → Bool
  | ninf => true
  | val a => decide (a < 0)
  | pinf => false

/-- The sum `x + y` of two doubles: the exact sum rounded; infinity minus
infinity is NaN, and NaN propagates. -/
def add : F64 → F64 → F64
  | fin (val a), fin (val b) => fin (round64 (a + b))
  | fin pinf, fin ninf => nan
  | fin ninf, fin pinf => nan
  | fin pinf, fin _ => fin pinf
  | fin _, fin pinf => fin pinf
  | fin ninf, fin _ => fin ninf
  | fin _, fin ninf => fin ninf
  | _, _ => nan

/-- The difference `x - y` of two doubles: the exact difference rounded;
infinity minus infinity is NaN, and NaN propagates. -/
def sub : F64 → F64 → F64
  | fin (val a), fin (val b) => fin (round64 (a - b))
  | fin pinf, fin pinf => nan
  | fin ninf, fin ninf => nan
  | fin pinf, fin _ => fin pinf
  | fin _, fin ninf => fin pinf
  | fin ninf, fin _ => fin ninf
  | fin _, fin pinf => fin ninf
  | _, _ => nan

/-- The infinity of the sign of a product or quotient of two numbers of the
given signs. -/
def inf_of_sign (negative : Bool) : Num64 := if negative then ninf else pinf

/-- The product `x * y` of two doubles: the exact product rounded; zero times
an infinity is NaN, and NaN propagates. -/
def mul : F64 → F64 → F64
  | fin (val a), fin (val b) => fin (round64 (a * b))
  | fin (val a), fin y => if a = 0 then nan else fin (inf_of_sign (xor (decide (a < 0)) (num_neg y)))
  | fin x, fin (val b) => if b = 0 then nan else fin (inf_of_sign (xor (num_neg x) (decide (b < 0))))
  | fin x, fin y => fin (inf_of_sign (xor (num_neg x) (num_neg y)))
  | _, _ => nan

/-- The quotient `x / n` of a double by an `int`, which is converted to a
double without rounding. A zero divided by zero is NaN, another number divided
by zero is an infinity. -/
def divInt : F64 → Int → F64
  | nan, _ => nan
  | fin (val a), n =>
    if n = 0 then (if a = 0 then nan else fin (inf_of_sign (decide (a < 0))))
    else fin (round64 (a / (n : ℚ)))
  | fin x, n => fin (inf_of_sign (xor (num_neg x) (decide (n < 0))))

/-- The correctly rounded square root on the numbers that are not negative. -/
def sqrt64 : Num64 → Num64
  | pinf => pinf
  | val a => val (sqrt_round a)
  | ninf => ninf

/-- The call `sqrt(x)`, given the square root `f` on the numbers that are not
negative: NaN for a negative or NaN argument. -/
def sqrt (f : Num64 → Num64) : F64 → F64
  | fin x => if num_neg x then nan else fin (f x)
  | nan => nan

/-- The comparison `x < y`: false as soon as one side is NaN. -/
def lt : F64 → F64 → Bool
  | fin x, fin y => num_lt x y
  | _, _ => false

end B64

/-! ## The program in binary64 arithmetic -/

namespace B64

/-- utils.c `compute_statistics` in binary64 arithmetic, from the initial
contents of the buffers `mean` and `stddev` to their final contents. The five
loops of the function are the five folds, in the same order; `mean[j] /= rows`
divides by the `int` converted to `double`. -/
def compute_statistics (sqrt : Num64 → Num64) (data : List (List F64)) (rows cols : Int)
    (mean stddev : List F64) : List F64 × List F64 :=
  let init := (List.range cols.toNat).foldl
    (fun (p : List F64 × List F64) j => (p.1.set j (fin (Num64.val 0)), p.2.set j (fin (Num64.val 0))))
    (mean, stddev)
  let sums := (List.range rows.toNat).foldl
    (fun mean i => (List.range cols.toNat).foldl
      (fun mean j => mean.set j (B64.add (rd mean j) (rd2 data i j))) mean)
    init.1
  let means := (List.range cols.toNat).foldl
    (fun mean j => mean.set j (B64.divInt (rd mean j) rows)) sums
  let sqsums := (List.range rows.toNat).foldl
    (fun stddev i => (List.range cols.toNat).foldl
      (fun stddev j =>
        let diff := B64.sub (rd2 data i j) (rd means j)
        stddev.set j (B64.add (rd stddev j) (B64.mul diff diff))) stddev)
    init.2
  let stddevs := (List.range cols.toNat).foldl
    (fun stddev j => stddev.set j (B64.sqrt sqrt (B64.divInt (rd stddev j) rows))) sqsums
  (means, stddevs)

/-- model.c `euclidean_distance` in binary64 arithmetic: the loop adds
`diff * diff` for `i = 0 .. n-1` to `sum`, which starts at 0.0, and the result
is `sqrt(sum)`. -/
def euclidean_distance (sqrt : Num64 → Num64) (v1 v2 : List F64) (n : Int) : F64 :=
  let sum := (List.range n.toNat).foldl
    (fun sum i =>
      let diff := B64.sub (rd v1 i) (rd v2 i)
      B64.add sum (B64.mul diff diff))
    (fin (Num64.val 0))
  B64.sqrt sqrt sum

/-- model.c `classify_packet` in binary64 arithmetic: 1 when the computed
distance to the safe mean is strictly smaller than the computed distance to the
bad mean, else 0. -/
def classify_packet (sqrt : Num64 → Num64) (model : Model Num64) (features : List F64) : Int :=
  let dist_safe := B64.euclidean_distance sqrt features model.safe_mean model.num_features
  let dist_bad := B64.euclidean_distance sqrt features model.bad_mean model.num_features
  if B64.lt dist_safe dist_bad then 1 else 0

end B64

namespace B64

/-- model.c `train_model` in binary64 arithmetic; the files are read by the
read_csv of the embedding above, whose `atof` here returns binary64 doubles. -/
def train_model (E : Env Num64) (safe_csv bad_csv : String) :
    Except Int (Model Num64) × List Msg :=
  match read_csv E (E.garbage 0) safe_csv with
  | (Except.error _, log) => (Except.error (-1), log ++ [Msg.reading_safe])
  | (Except.ok safe, log) =>
    match read_csv E (E.garbage 1) bad_csv with
    | (Except.error _, log2) => (Except.error (-1), log ++ log2 ++ [Msg.reading_bad])
    | (Except.ok bad, log2) =>
      if safe.cols ≠ bad.cols then
        (Except.error (-1), log ++ log2 ++ [Msg.different_features])
      else if safe.cols = 0 ∧ E.malloc_zero_null = true then
        (Except.error (-1), log ++ log2 ++ [Msg.alloc_model])
      else
        let safe_stat := B64.compute_statistics E.sqrt safe.data safe.rows safe.cols
          (fresh (E.garbage 2 0) safe.cols) (fresh (E.garbage 4 0) safe.cols)
        let bad_stat := B64.compute_statistics E.sqrt bad.data bad.rows bad.cols
          (fresh (E.garbage 3 0) safe.cols) (fresh (E.garbage 5 0) safe.cols)
        (Except.ok ⟨safe.cols, safe_stat.1, bad_stat.1⟩, log ++ log2)

/-- main.c `classify_packet_c` in binary64 arithmetic. -/
def classify_packet_c (E : Env Num64) (safe_csv bad_csv : String) (features : List F64)
    (feature_count : Int) : Int × List Msg :=
  match B64.train_model E safe_csv bad_csv with
  | (Except.error _, log) => (0, log ++ [Msg.training])
  | (Except.ok model, log) =>
    if model.num_features ≠ feature_count then
      (0, log ++ [Msg.feature_mismatch model.num_features feature_count])
    else (B64.classify_packet E.sqrt model features, log)

end B64

/-! ## atof in binary64 -/

/-- A hexadecimal digit. -/
def is_hex (c : Char) : Bool :=
  c.isDigit || (decide ('a' ≤ c) && decide (c ≤ 'f')) || (decide ('A' ≤ c) && decide (c ≤ 'F'))

/-- The value of a hexadecimal digit. -/
def hex_val (c : Char) : Nat :=
  if c.isDigit then c.toNat - 48 else if 'a' ≤ c then c.toNat - 87 else c.toNat - 55

/-- The number written by a string of hexadecimal digits. -/
def hex_digits_val (ds : List Char) : Nat := ds.foldl (fun n d => 16 * n + hex_val d) 0

/-- The binary exponent part of a hexadecimal floating constant at the head of
`s`: `p` or `P`, an optional sign and at least one decimal digit; 0 when there
is none. -/
def atof_bin_exponent (s : List Char) : Int :=
  if s.head? = some 'p' ∨ s.head? = some 'P' then
    let t := s.drop 1
    let u := if t.head? = some '-' ∨ t.head? = some '+' then t.drop 1 else t
    if t.head? = some '-' then -(digits_val (u.takeWhile Char.isDigit) : Int)
    else (digits_val (u.takeWhile Char.isDigit) : Int)
  else 0

/-- The number written by the hexadecimal digits, optional fraction and
optional binary exponent that follow a prefix `0x`; `none` when no digit
follows the prefix. -/
def atof_hex (s : List Char) : Option ℚ :=
  let ip := s.takeWhile is_hex
  let s3 := s.dropWhile is_hex
  let fp := if s3.head? = some '.' then (s3.drop 1).takeWhile is_hex else []
  let s4 := if s3.head? = some '.' then (s3.drop 1).dropWhile is_hex else s3
  if ip = [] ∧ fp = [] then none
  else some ((hex_digits_val (ip ++ fp) : ℚ) / (16 : ℚ) ^ fp.length * B64.pow2 (atof_bin_exponent s4))

/-- Modelled from the C standard and IEEE 754: `atof(s)`, which is
`strtod(s, NULL)`. Leading white space is skipped and an optional sign is read;
then `nan` and `inf` (in any case, whatever follows) give NaN and the infinity
of that sign, a hexadecimal constant after `0x` or a decimal constant gives the
binary64 number nearest to the number written, an infinity when this number is
too large, and 0 is returned when no number is found. What follows the number
is ignored. -/
def atof64 (s : List Char) : F64 :=
  let s1 := s.dropWhile isspace
  let s2 := if s1.head? = some '-' ∨ s1.head? = some '+' then s1.drop 1 else s1
  let low := s2.map Char.toLower
  if low.take 3 = "nan".toList then nan
  else if low.take 3 = "inf".toList then
    fin (if s1.head? = some '-' then Num64.ninf else Num64.pinf)
  else
    match (if low.take 2 = "0x".toList then atof_hex (s2.drop 2) else none) with
    | some q => fin (B64.round64 (if s1.head? = some '-' then -q else q))
    | none =>
      match (atof_dec s : Dbl ℚ) with
      | fin q => fin (B64.round64 q)
      | nan => nan

/-! ## Notions of the specification in binary64 arithmetic -/

/-- The sum of a list of doubles as a loop `s += x` computes it: from 0.0, in
the order of the list, every addition rounded to binary64. -/
def fl_sum (xs : List F64) : F64 := xs.foldl B64.add (fin (Num64.val 0))

/-- The computed square `(a - b) * (a - b)` of a difference: the difference is
rounded, then its square is. -/
def fl_sqdiff (a b : F64) : F64 := B64.mul (B64.sub a b) (B64.sub a b)

/-- The computed sum of the squared differences of the coordinates of two
vectors. -/
def fl_sumsq (x y : List F64) : F64 := fl_sum (List.zipWith fl_sqdiff x y)

/-- The computed distance of two vectors: the square root of the computed sum
of the squared differences. -/
def fl_dist (sqrt : Num64 → Num64) (x y : List F64) : F64 := B64.sqrt sqrt (fl_sumsq x y)

/-- Column `j` of a dataset given by its rows. -/
def column (data : List (List F64)) (j : Nat) : List F64 := data.map fun row => rd row j

/-- The double with the finite value `q`. -/
def dbl (q : ℚ) : F64 := fin (Num64.val q)

/-! ## Sample environment in binary64 -/

/-- A line of 300 fields `1.5`, 1200 characters with its newline. -/
def wide_line : List Char :=
  (List.replicate 299 "1.5,".toList).flatten ++ "1.5\n".toList

/-- A file system with a few files. -/
def b64_files (path : String) : Option (List Char) :=
  if path = "safe.csv" then some "0,0\n0,0\n".toList
  else if path = "bad.csv" then some "10,10\n10,10\n".toList
  else if path = "pairs.csv" then some "1,2\n3,4\n".toList
  else if path = "tenths.csv" then some "0.1\n0.1\n0.1\n".toList
  else if path = "wide.csv" then some (wide_line ++ wide_line)
  else if path = "header.csv" then some (wide_line ++ "1,2\n".toList)
  else if path = "extra.csv" then some "1,2\n3,4,5\n6,7\n".toList
  else if path = "overlong.csv" then some ("1\n".toList ++ overlong_line)
  else none

/-- An environment in binary64: the files of `b64_files`, the `atof` and the
`sqrt` of binary64, a `malloc(0)` that does not return `NULL`, and 777 in every
cell of fresh memory. -/
def b64_env : Env Num64 :=
  ⟨b64_files, atof64, B64.sqrt64, false, fun _ _ _ => fin (Num64.val 777)⟩

/-- The double nearest to the number `q`: what the C constant that writes `q`
denotes. -/
def nearest (q : ℚ) : F64 := fin (B64.round64 q)

/-- A double is positive when it is the positive infinity or a finite number
that is at least `2 ^ -1074`, the smallest positive binary64 number. -/
def positive64 (x : F64) : Prop :=
  x = fin Num64.pinf ∨ ∃ t : ℚ, x = dbl t ∧ B64.pow2 (-1074) ≤ t

/-- The double with the integer value `z`. -/
def dbz (z : Int) : F64 := dbl (z : ℚ)

/-- The square of the Euclidean distance of two vectors of integers: the sum
of the squared differences of their coordinates. -/
def sq_dist (x y : List Int) : Int := (List.zipWith (fun a b => (a - b) ^ 2) x y).sum

/-- The inner product of two vectors of integers. -/
def dot (x y : List Int) : Int := (List.zipWith (fun a b => a * b) x y).sum

/-! # Theorems -/

/-! ## Distances -/

/-- The value of `classify_packet` is 0 or 1. -/
theorem classify_packet_zero_or_one (sqrt : α → α) (model : Model α) (features : List (Dbl α)) :
    classify_packet sqrt model features = 1 ∨ classify_packet sqrt model features = 0 := by
  unfold classify_packet
  simp only []
  split
  · exact Or.inl rfl
  · exact Or.inr rfl

/-- C2. `classify_packet_c` returns 1 exactly when training succeeds,
`feature_count` equals the `num_features` of the trained model and
`classify_packet` returns 1 on that model; in every other case it returns 0. -/
theorem classify_packet_c_safe_iff (E : Env α) (safe_csv bad_csv : String)
    (features : List (Dbl α)) (feature_count : Int) :
    ((classify_packet_c E safe_csv bad_csv features feature_count).1 = 1 ↔
      ∃ model, (train_model E safe_csv bad_csv).1 = Except.ok model ∧
        model.num_features = feature_count ∧ classify_packet E.sqrt model features = 1) ∧
    ((classify_packet_c E safe_csv bad_csv features feature_count).1 = 1 ∨
      (classify_packet_c E safe_csv bad_csv features feature_count).1 = 0) := by
  unfold classify_packet_c
  rcases h : train_model E safe_csv bad_csv with ⟨r, log⟩
  cases r with
  | error e => simp
  | ok model =>
    by_cases hn : model.num_features = feature_count
    · simp [hn, classify_packet_zero_or_one]
    · simp [hn]

/-- C3. When both datasets load and their column counts differ, `train_model`
returns -1, after writing that the datasets have different numbers of
features, and produces no model. -/
theorem train_model_cols_differ (E : Env α) (safe_csv bad_csv : String) (safe bad : Csv α)
    (log1 log2 : List Msg)
    (hsafe : read_csv E (E.garbage 0) safe_csv = (Except.ok safe, log1))
    (hbad : read_csv E (E.garbage 1) bad_csv = (Except.ok bad, log2))
    (hcols : safe.cols ≠ bad.cols) :
    train_model E safe_csv bad_csv
      = (Except.error (-1), log1 ++ log2 ++ [Msg.different_features]) := by
  simp [train_model, hsafe, hbad, hcols]

/-- C4. When training succeeds and the length of the feature vector, passed as
`feature_count`, differs from `num_features`, `classify_packet_c` returns 0 and
what it writes to `stderr` is the feature-mismatch message: the result is that
of the mismatch branch, whatever the features and the centroids are. -/
theorem classify_packet_c_mismatch (E : Env α) (safe_csv bad_csv : String) (model : Model α)
    (log : List Msg) (features : List (Dbl α))
    (htrain : train_model E safe_csv bad_csv = (Except.ok model, log))
    (hlen : (features.length : Int) ≠ model.num_features) :
    classify_packet_c E safe_csv bad_csv features features.length
      = (0, log ++ [Msg.feature_mismatch model.num_features features.length]) := by
  simp [classify_packet_c, htrain, Ne.symm hlen]

/-- Witness of C3: a two-column safe file and a three-column bad file. -/
theorem train_model_cols_differ_witness :
    train_model sample_env "safe.csv" "three.csv"
      = (Except.error (-1), [Msg.different_features]) :=
  train_model_cols_differ sample_env "safe.csv" "three.csv"
    ⟨[[fin 0, fin 0], [fin 0, fin 0]], 2, 2⟩ ⟨[[fin 1, fin 2, fin 3]], 1, 3⟩ [] []
    (by decide!) (by decide!) (by decide)

/-- Witness of C4: a model with two features and a feature vector of length 1. -/
theorem classify_packet_c_mismatch_witness :
    classify_packet_c sample_env "safe.csv" "bad.csv" [fin 1] 1
      = (0, [Msg.feature_mismatch 2 1]) :=
  classify_packet_c_mismatch sample_env "safe.csv" "bad.csv"
    ⟨2, [fin 0, fin 0], [fin 10, fin 10]⟩ [] [fin 1] (by decide!) (by decide)

section csv

omit [LinearOrderedField α]

/-! ## Reading lines -/

/-- What `fgets` stores and what it leaves make up the stream. -/
theorem fgets_aux_append (k : Nat) (s : List Char) :
    (fgets_aux k s).1 ++ (fgets_aux k s).2 = s := by
  induction k generalizing s with
  | zero => simp [fgets_aux]
  | succ k ih =>
    cases s with
    | nil => simp [fgets_aux]
    | cons c cs =>
      by_cases hc : c = '\n'
      · simp [fgets_aux, hc]
      · simp [fgets_aux, hc, ih cs]

/-- A call of `fgets` with room for a character consumes one. -/
theorem fgets_aux_rest_length (k : Nat) (s : List Char) (hs : s ≠ []) :
    (fgets_aux (k + 1) s).2.length < s.length := by
  cases s with
  | nil => exact absurd rfl hs
  | cons c cs =>
    by_cases hc : c = '\n'
    · simp [fgets_aux, hc]
    · have h := congrArg List.length (fgets_aux_append k cs)
      simp only [List.length_append] at h
      simp only [fgets_aux, hc, if_false, List.length_cons]
      omega

/-- A line that ends the file and fits the buffer is read whole. -/
theorem fgets_aux_last (k : Nat) (l : List Char) (hnl : '\n' ∉ l) (hk : l.length ≤ k) :
    fgets_aux k l = (l, []) := by
  induction k generalizing l with
  | zero =>
    have : l = [] := List.length_eq_zero.mp (by omega)
    simp [this, fgets_aux]
  | succ k ih =>
    cases l with
    | nil => simp [fgets_aux]
    | cons c cs =>
      have hc : c ≠ '\n' := fun h => hnl (by simp [h])
      have hcs : '\n' ∉ cs := fun h => hnl (by simp [h])
      simp only [List.length_cons] at hk
      simp [fgets_aux, hc, ih cs hcs (by omega)]

/-- A line that fits the buffer is read up to and including its newline. -/
theorem fgets_aux_line (k : Nat) (body rest : List Char) (hnl : '\n' ∉ body)
    (hk : body.length + 1 ≤ k) :
    fgets_aux k (body ++ '\n' :: rest) = (body ++ ['\n'], rest) := by
  induction k generalizing body with
  | zero => omega
  | succ k ih =>
    cases body with
    | nil => simp [fgets_aux]
    | cons c cs =>
      have hc : c ≠ '\n' := fun h => hnl (by simp [h])
      have hcs : '\n' ∉ cs := fun h => hnl (by simp [h])
      simp only [List.length_cons] at hk
      simp [fgets_aux, hc, ih cs hcs (by omega)]

/-- A line longer than the buffer is cut after `k` characters. -/
theorem fgets_aux_long (k : Nat) (body rest : List Char) (hnl : '\n' ∉ body)
    (hk : k ≤ body.length) :
    fgets_aux k (body ++ rest) = (body.take k, body.drop k ++ rest) := by
  induction k generalizing body with
  | zero => simp [fgets_aux]
  | succ k ih =>
    cases body with
    | nil => simp at hk
    | cons c cs =>
      have hc : c ≠ '\n' := fun h => hnl (by simp [h])
      have hcs : '\n' ∉ cs := fun h => hnl (by simp [h])
      simp only [List.length_cons] at hk
      simp [fgets_aux, hc, ih cs hcs (by omega)]

/-- More fuel than the length of the stream does not change the lines read. -/
theorem fgets_loop_aux_fuel (n : Nat) : ∀ (s : List Char) (fuel : Nat), s.length ≤ n →
    s.length ≤ fuel → fgets_loop_aux fuel s = fgets_loop s := by
  induction n with
  | zero =>
    intro s fuel hn _
    have hs : s = [] := List.length_eq_zero.mp (by omega)
    subst hs
    cases fuel <;> simp [fgets_loop, fgets_loop_aux, fgets]
  | succ n ih =>
    intro s fuel hn hf
    cases s with
    | nil => cases fuel <;> simp [fgets_loop, fgets_loop_aux, fgets]
    | cons c cs =>
      have hlt : (fgets_aux (1024 - 1) (c :: cs)).2.length < (c :: cs).length :=
        fgets_aux_rest_length 1022 (c :: cs) (by simp)
      simp only [List.length_cons] at hn hf hlt
      cases fuel with
      | zero => omega
      | succ fuel =>
        simp only [fgets_loop, fgets_loop_aux, fgets, List.length_cons]
        simp only [reduceCtorEq, if_false]
        rw [ih _ fuel (by omega) (by omega), ih _ cs.length (by omega) (by omega)]

theorem fgets_loop_nil : fgets_loop [] = [] := by
  simp [fgets_loop, fgets_loop_aux]

/-- One iteration of the reading loop. -/
theorem fgets_loop_step (s : List Char) (hs : s ≠ []) :
    fgets_loop s = cstr (fgets_aux 1023 s).1 :: fgets_loop (fgets_aux 1023 s).2 := by
  cases s with
  | nil => exact absurd rfl hs
  | cons c cs =>
    have hlt : (fgets_aux (1024 - 1) (c :: cs)).2.length < (c :: cs).length :=
      fgets_aux_rest_length 1022 (c :: cs) (by simp)
    simp only [List.length_cons] at hlt
    simp only [fgets_loop, fgets_loop_aux, fgets, List.length_cons]
    simp only [reduceCtorEq, if_false]
    rw [fgets_loop_aux_fuel cs.length _ cs.length (by omega) (by omega)]
    rfl

/-- A text that is a line without its newline is cut into lines the same way
whatever follows the newline. -/
theorem fgets_loop_line (n : Nat) : ∀ (body rest : List Char), body.length ≤ n → '\n' ∉ body →
    fgets_loop (body ++ '\n' :: rest) = fgets_loop (body ++ ['\n']) ++ fgets_loop rest := by
  induction n using Nat.strong_induction_on with
  | _ n ih =>
    intro body rest hn hnl
    by_cases hfit : body.length + 1 ≤ 1023
    · rw [fgets_loop_step (body ++ '\n' :: rest) (by simp),
        fgets_loop_step (body ++ ['\n']) (by simp),
        fgets_aux_line 1023 body rest hnl hfit, fgets_aux_line 1023 body [] hnl hfit]
      simp [fgets_loop_nil]
    · have hk : 1023 ≤ body.length := by omega
      rw [fgets_loop_step (body ++ '\n' :: rest) (by simp),
        fgets_loop_step (body ++ ['\n']) (by simp),
        fgets_aux_long 1023 body ('\n' :: rest) hnl hk, fgets_aux_long 1023 body ['\n'] hnl hk]
      simp only [List.cons_append]
      rw [ih (body.length - 1023) (by omega) (body.drop 1023) rest (by simp)
        (fun h => hnl (List.mem_of_mem_drop h))]

/-- Every character of a line read by the loop is a character of the text. -/
theorem mem_of_mem_fgets_loop (n : Nat) : ∀ (s : List Char), s.length ≤ n →
    ∀ l ∈ fgets_loop s, ∀ c ∈ l, c ∈ s := by
  induction n with
  | zero =>
    intro s hn l hl
    have hs : s = [] := List.length_eq_zero.mp (by omega)
    simp [hs, fgets_loop_nil] at hl
  | succ n ih =>
    intro s hn l hl c hc
    by_cases hs : s = []
    · simp [hs, fgets_loop_nil] at hl
    · rw [fgets_loop_step s hs] at hl
      have happ := fgets_aux_append 1023 s
      have hlt : (fgets_aux 1023 s).2.length < s.length := fgets_aux_rest_length 1022 s hs
      rcases List.mem_cons.mp hl with h | h
      · subst h
        have : c ∈ (fgets_aux 1023 s).1 := (List.takeWhile_sublist _).subset hc
        rw [← happ]
        exact List.mem_append_left _ this
      · have : c ∈ (fgets_aux 1023 s).2 := ih _ (by omega) l h c hc
        rw [← happ]
        exact List.mem_append_right _ this

/-- A character either does not occur in a text or has a first occurrence. -/
theorem first_occurrence (c : Char) (a : List Char) :
    c ∉ a ∨ ∃ body rest, a = body ++ c :: rest ∧ c ∉ body := by
  induction a with
  | nil => exact Or.inl (by simp)
  | cons x xs ih =>
    by_cases hx : x = c
    · exact Or.inr ⟨[], xs, by simp [hx], by simp⟩
    · rcases ih with h | ⟨body, rest, h, hb⟩
      · exact Or.inl (by simp [h, Ne.symm hx])
      · exact Or.inr ⟨x :: body, rest, by simp [h], by simp [hb, Ne.symm hx]⟩

/-- The loop reads a text that ends with a newline independently of what
follows it. -/
theorem fgets_loop_append_newline (n : Nat) : ∀ (a b : List Char), a.length ≤ n →
    fgets_loop (a ++ '\n' :: b) = fgets_loop (a ++ ['\n']) ++ fgets_loop b := by
  induction n using Nat.strong_induction_on with
  | _ n ih =>
    intro a b hn
    rcases first_occurrence '\n' a with hnl | ⟨body, rest, ha, hnl⟩
    · exact fgets_loop_line a.length a b le_rfl hnl
    · subst ha
      simp only [List.length_append, List.length_cons] at hn
      simp only [List.append_assoc, List.cons_append]
      rw [fgets_loop_line _ body (rest ++ '\n' :: b) le_rfl hnl,
        fgets_loop_line _ body (rest ++ ['\n']) le_rfl hnl,
        ih rest.length (by omega) rest b le_rfl]
      simp

/-! ## Tokens -/

/-- On a text without comma, `strtok` returns the whole text. -/
theorem strtok_no_comma (c : Char) (cs : List Char) (h : ',' ∉ c :: cs) :
    strtok (c :: cs) = some (c :: cs, []) := by
  have hc : c ≠ ',' := fun e => h (by simp [e])
  have hall : ∀ a ∈ c :: cs, (fun x : Char => decide (x ≠ ',')) a = true := by
    intro a ha
    have : a ≠ ',' := fun e => h (e ▸ ha)
    simpa using this
  have h1 : (c :: cs).takeWhile (fun x => decide (x ≠ ',')) = c :: cs :=
    List.takeWhile_eq_self_iff.mpr hall
  have h2 : (c :: cs).dropWhile (fun x => decide (x ≠ ',')) = [] :=
    List.dropWhile_eq_nil_iff.mpr hall
  have h0 : (c :: cs).dropWhile (fun x => decide (x = ',')) = c :: cs := by
    simp [hc]
  unfold strtok
  rw [h0]
  simp only []
  rw [h1, h2]
  rfl

/-- A leading comma is skipped by `strtok`. -/
theorem strtok_comma (s : List Char) : strtok (',' :: s) = strtok s := by
  simp [strtok]

/-- On a text that starts with a non-empty comma-free piece followed by a
comma, `strtok` returns the piece and leaves what follows the comma. -/
theorem strtok_piece (c : Char) (cs rest : List Char) (h : ',' ∉ c :: cs) :
    strtok (c :: cs ++ ',' :: rest) = some (c :: cs, rest) := by
  have hc : c ≠ ',' := fun e => h (by simp [e])
  have hall : ∀ a ∈ c :: cs, (fun x : Char => decide (x ≠ ',')) a = true := by
    intro a ha
    have : a ≠ ',' := fun e => h (e ▸ ha)
    simpa using this
  have h1 : (c :: cs ++ ',' :: rest).takeWhile (fun x => decide (x ≠ ',')) = c :: cs := by
    rw [List.takeWhile_append_of_pos hall]
    simp
  have h2 : (c :: cs ++ ',' :: rest).dropWhile (fun x => decide (x ≠ ',')) = ',' :: rest := by
    rw [List.dropWhile_append_of_pos hall]
    simp
  have h0 : (c :: cs ++ ',' :: rest).dropWhile (fun x => decide (x = ','))
      = c :: (cs ++ ',' :: rest) := by
    simp [hc]
  unfold strtok
  rw [h0]
  simp only []
  rw [show c :: (cs ++ ',' :: rest) = c :: cs ++ ',' :: rest from rfl, h1, h2]
  rfl

/-- A call of `strtok` that returns a token consumes a character. -/
theorem strtok_rest_length (s token rest : List Char) (h : strtok s = some (token, rest)) :
    rest.length < s.length := by
  induction s with
  | nil => simp [strtok] at h
  | cons x xs ih =>
    by_cases hx : x = ','
    · subst hx
      rw [strtok_comma] at h
      have := ih h
      simp only [List.length_cons]
      omega
    · rcases first_occurrence ',' (x :: xs) with hno | ⟨body, more, hb, hnb⟩
      · rw [strtok_no_comma x xs hno] at h
        simp only [Option.some.injEq, Prod.mk.injEq] at h
        simp [← h.2]
      · cases body with
        | nil =>
          simp only [List.nil_append, List.cons.injEq] at hb
          exact absurd hb.1 hx
        | cons b bs =>
          rw [hb, strtok_piece b bs more hnb] at h
          simp only [Option.some.injEq, Prod.mk.injEq] at h
          rw [hb, ← h.2]
          simp only [List.length_append, List.length_cons]
          omega

/-- More fuel than the length of the text does not change the tokens. -/
theorem strtok_all_aux_fuel (n : Nat) : ∀ (s : List Char) (fuel : Nat), s.length ≤ n →
    s.length ≤ fuel → strtok_all_aux fuel s = strtok_all s := by
  induction n with
  | zero =>
    intro s fuel hn _
    have hs : s = [] := List.length_eq_zero.mp (by omega)
    subst hs
    cases fuel <;> simp [strtok_all, strtok_all_aux, strtok]
  | succ n ih =>
    intro s fuel hn hf
    cases s with
    | nil => cases fuel <;> simp [strtok_all, strtok_all_aux, strtok]
    | cons c cs =>
      simp only [List.length_cons] at hn hf
      cases fuel with
      | zero => omega
      | succ fuel =>
        simp only [strtok_all, strtok_all_aux, List.length_cons]
        cases h : strtok (c :: cs) with
        | none => rfl
        | some tr =>
          obtain ⟨token, rest⟩ := tr
          have hlt := strtok_rest_length _ _ _ h
          simp only [List.length_cons] at hlt
          simp only []
          rw [ih rest fuel (by omega) (by omega), ih rest cs.length (by omega) (by omega)]

/-- One call of `strtok` in the token loop. -/
theorem strtok_all_step (s : List Char) :
    strtok_all s = match strtok s with
      | none => []
      | some (token, rest) => token :: strtok_all rest := by
  cases s with
  | nil => simp [strtok_all, strtok_all_aux, strtok]
  | cons c cs =>
    simp only [strtok_all, strtok_all_aux, List.length_cons]
    cases h : strtok (c :: cs) with
    | none => rfl
    | some tr =>
      obtain ⟨token, rest⟩ := tr
      have hlt := strtok_rest_length _ _ _ h
      simp only [List.length_cons] at hlt
      simp only []
      rw [strtok_all_aux_fuel cs.length rest cs.length (by omega) (by omega)]
      rfl

/-- The tokens found by `strtok` are the non-empty pieces between the commas. -/
theorem strtok_all_eq_line_tokens (n : Nat) : ∀ s : List Char, s.length ≤ n →
    strtok_all s = line_tokens s := by
  induction n using Nat.strong_induction_on with
  | _ n ih =>
    intro s hn
    rcases first_occurrence ',' s with hno | ⟨body, rest, hs, hnb⟩
    · cases s with
      | nil => simp [strtok_all_step, strtok, line_tokens, List.splitOn, List.splitOnP_nil]
      | cons c cs =>
        have hsingle : (c :: cs).splitOnP (fun x => x == ',') = [c :: cs] :=
          List.splitOnP_eq_single _ _ (fun x hx hp => by
            have e : x = ',' := by simpa using hp
            exact hno (e ▸ hx))
        rw [strtok_all_step, strtok_no_comma c cs hno]
        simp [line_tokens, List.splitOn, hsingle, strtok_all_step, strtok]
    · subst hs
      have hfirst : (body ++ ',' :: rest).splitOnP (fun x => x == ',')
          = body :: rest.splitOnP (fun x => x == ',') :=
        List.splitOnP_first _ _ (fun x hx hp => by
          have e : x = ',' := by simpa using hp
          exact hnb (e ▸ hx)) ',' (by simp) rest
      simp only [List.length_append, List.length_cons] at hn
      have hrest := ih rest.length (by omega) rest le_rfl
      cases body with
      | nil =>
        simp only [List.nil_append] at hfirst ⊢
        rw [strtok_all_step, strtok_comma, ← strtok_all_step, hrest]
        unfold line_tokens List.splitOn
        rw [hfirst]
        simp
      | cons b bs =>
        rw [strtok_all_step, strtok_piece b bs rest hnb]
        simp only []
        rw [hrest]
        unfold line_tokens List.splitOn
        rw [hfirst]
        simp

/-! ## The two passes of read_csv -/

/-- The flag `only_whitespace` tells whether the line is blank. -/
theorem only_whitespace_eq_blank (l : List Char) : only_whitespace l = blank l := by
  induction l with
  | nil => rfl
  | cons c cs ih =>
    cases hc : isspace c <;> simp [only_whitespace, blank, hc, ih]

/-- A C string without NUL byte is the whole buffer. -/
theorem cstr_eq_self (l : List Char) (h : Char.ofNat 0 ∉ l) : cstr l = l := by
  refine List.takeWhile_eq_self_iff.mpr fun x hx => ?_
  have : x ≠ Char.ofNat 0 := fun e => h (e ▸ hx)
  simpa using this

/-- The first pass only sees the lines that are not blank. -/
theorem first_pass_filter (ls : List (List Char)) : ∀ (r c : Nat),
    first_pass ls r c = first_pass (ls.filter fun l => !only_whitespace l) r c := by
  induction ls with
  | nil => intro r c; rfl
  | cons l ls ih =>
    intro r c
    cases h : only_whitespace l
    · simp [first_pass, h, ih]
    · simp [first_pass, h, ih]

/-- The second pass only sees the lines that are not blank. -/
theorem second_pass_filter (atof : List Char → Dbl α) (cols : Nat) (ls : List (List Char)) :
    ∀ (r : Nat) (m : List (List (Dbl α))),
    second_pass atof cols ls r m
      = second_pass atof cols (ls.filter fun l => !only_whitespace l) r m := by
  induction ls with
  | nil => intro r m; rfl
  | cons l ls ih =>
    intro r m
    cases h : only_whitespace l
    · simp [second_pass, h, ih]
    · simp [second_pass, h, ih]

/-- Once the column count is positive the first pass only counts rows. -/
theorem first_pass_counted (ls : List (List Char))
    (hls : ∀ l ∈ ls, only_whitespace l = false) : ∀ (r c : Nat), 0 < c →
    first_pass ls r c = (r + ls.length, c) := by
  induction ls with
  | nil => intro r c _; rfl
  | cons l ls ih =>
    intro r c hc
    have hl : only_whitespace l = false := hls l (by simp)
    have hc0 : c ≠ 0 := by omega
    simp only [first_pass, hl, Bool.false_eq_true, if_false, hc0]
    rw [ih (fun x hx => hls x (by simp [hx])) (r + 1) c hc]
    simp only [List.length_cons]
    congr 1
    omega

/-- The inner loop of the second pass writes the values of the tokens over the
cells that are left in the row, as far as there are tokens and cells. -/
theorem fill_row_spec (atof : List Char → Dbl α) (toks : List (List Char)) :
    ∀ (done todo : List (Dbl α)),
    fill_row atof (done.length + todo.length) toks done.length (done ++ todo)
      = done ++ (toks.take todo.length).map atof ++ todo.drop toks.length := by
  induction toks with
  | nil => intro done todo; simp [fill_row]
  | cons tok rest ih =>
    intro done todo
    cases todo with
    | nil => simp [fill_row]
    | cons t ts =>
      have hlt : done.length < done.length + (t :: ts).length := by simp
      have hset : (done ++ t :: ts).set done.length (atof tok) = (done ++ [atof tok]) ++ ts := by
        simp
      have hlen : done.length + (t :: ts).length = (done ++ [atof tok]).length + ts.length := by
        simp only [List.length_append, List.length_cons, List.length_nil]
        omega
      have hk : done.length + 1 = (done ++ [atof tok]).length := by simp
      rw [fill_row, if_pos hlt, hset, hlen, hk, ih (done ++ [atof tok]) ts]
      simp

/-- The second pass on lines that are not blank fills one row per line. -/
theorem second_pass_rows (atof : List Char → Dbl α) (cols : Nat) (ls : List (List Char))
    (hls : ∀ l ∈ ls, only_whitespace l = false) :
    ∀ (pre mid post : List (List (Dbl α))), mid.length = ls.length →
    second_pass atof cols ls pre.length (pre ++ mid ++ post)
      = pre ++ List.zipWith (fun l row => fill_row atof cols (strtok_all l) 0 row) ls mid
          ++ post := by
  induction ls with
  | nil =>
    intro pre mid post hmid
    have : mid = [] := List.length_eq_zero.mp (by simpa using hmid)
    simp [second_pass, this]
  | cons l ls ih =>
    intro pre mid post hmid
    have hl : only_whitespace l = false := hls l (by simp)
    cases mid with
    | nil => simp at hmid
    | cons row mid =>
      simp only [List.length_cons, Nat.add_right_cancel_iff] at hmid
      have hget : (pre ++ row :: mid ++ post).getD pre.length [] = row := by
        rw [List.getD_eq_getElem?_getD, List.append_assoc,
          List.getElem?_append_right (Nat.le_refl _)]
        simp
      have hset : ∀ x, (pre ++ row :: mid ++ post).set pre.length x
          = (pre ++ [x]) ++ mid ++ post := by
        intro x
        simp
      have hk : pre.length + 1 = (pre ++ [fill_row atof cols (strtok_all l) 0 row]).length := by
        simp
      rw [second_pass]
      simp only [hl, Bool.false_eq_true, if_false]
      rw [hget, hset, hk, ih (fun x hx => hls x (by simp [hx])) _ mid post hmid]
      simp

/-! ## Lines of the file and lines read -/

/-- The text of a non-empty last line without newline is one line. -/
theorem file_lines_last (body : List Char) (hne : body ≠ []) (hnl : '\n' ∉ body) :
    file_lines body = [body] := by
  induction body with
  | nil => exact absurd rfl hne
  | cons c cs ih =>
    have hc : c ≠ '\n' := fun e => hnl (by simp [e])
    have hcs : '\n' ∉ cs := fun h => hnl (by simp [h])
    cases cs with
    | nil => simp [file_lines, hc]
    | cons d ds =>
      have h := ih (by simp) hcs
      rw [file_lines, if_neg hc, h]

/-- The first line of a text ends with its first newline. -/
theorem file_lines_line (body rest : List Char) (hnl : '\n' ∉ body) :
    file_lines (body ++ '\n' :: rest) = (body ++ ['\n']) :: file_lines rest := by
  induction body with
  | nil => simp [file_lines]
  | cons c cs ih =>
    have hc : c ≠ '\n' := fun e => hnl (by simp [e])
    have hcs : '\n' ∉ cs := fun h => hnl (by simp [h])
    simp [file_lines, hc, ih hcs]

/-- A line that fits the buffer and ends with a newline is read in one call. -/
theorem fgets_loop_short_line (body rest : List Char) (hnl : '\n' ∉ body)
    (hfit : (body ++ ['\n']).length ≤ 1023) :
    fgets_loop (body ++ '\n' :: rest) = cstr (body ++ ['\n']) :: fgets_loop rest := by
  simp only [List.length_append, List.length_cons, List.length_nil] at hfit
  rw [fgets_loop_step _ (by simp), fgets_aux_line 1023 body rest hnl (by omega)]

/-- A last line that fits the buffer is read in one call. -/
theorem fgets_loop_short_last (body : List Char) (hne : body ≠ []) (hnl : '\n' ∉ body)
    (hfit : body.length ≤ 1023) :
    fgets_loop body = [cstr body] := by
  rw [fgets_loop_step _ hne, fgets_aux_last 1023 body hnl hfit]
  simp [fgets_loop_nil]

/-- Blank text is read as blank lines only. -/
theorem fgets_loop_blank (s : List Char) (hs : blank s = true) :
    (fgets_loop s).filter (fun l => !only_whitespace l) = [] := by
  refine List.filter_eq_nil_iff.mpr fun l hl => ?_
  have hall : ∀ c ∈ l, isspace c = true := fun c hc =>
    (List.all_eq_true.mp hs) c (mem_of_mem_fgets_loop s.length s le_rfl l hl c hc)
  have : blank l = true := List.all_eq_true.mpr hall
  simp [only_whitespace_eq_blank, this]

/-- When every non-blank line of the file fits the buffer and has no NUL byte,
the non-blank lines that the loop reads are the non-blank lines of the file. -/
theorem data_lines_read (n : Nat) : ∀ content : List Char, content.length ≤ n →
    (∀ l ∈ data_lines content, l.length ≤ 1023 ∧ Char.ofNat 0 ∉ l) →
    (fgets_loop content).filter (fun l => !only_whitespace l) = data_lines content := by
  induction n using Nat.strong_induction_on with
  | _ n ih =>
    intro content hn hfit
    rcases first_occurrence '\n' content with hnl | ⟨body, rest, hc, hnl⟩
    · by_cases hne : content = []
      · simp [hne, fgets_loop_nil, data_lines, file_lines]
      · by_cases hb : blank content = true
        · have hlines : data_lines content = [] := by
            simp [data_lines, file_lines_last content hne hnl, hb]
          rw [hlines]
          exact fgets_loop_blank content hb
        · have hlines : data_lines content = [content] := by
            simp [data_lines, file_lines_last content hne hnl, hb]
          have hl := hfit content (by simp [hlines])
          rw [hlines, fgets_loop_short_last content hne hnl hl.1, cstr_eq_self _ hl.2]
          simp [only_whitespace_eq_blank, hb]
    · subst hc
      simp only [List.length_append, List.length_cons] at hn
      by_cases hb : blank (body ++ ['\n']) = true
      · have hlines : data_lines (body ++ '\n' :: rest) = data_lines rest := by
          simp [data_lines, file_lines_line body rest hnl, hb]
        have hrest := ih rest.length (by omega) rest le_rfl
          (fun l hl => hfit l (by simp [hlines, hl]))
        rw [hlines, fgets_loop_line body.length body rest le_rfl hnl, List.filter_append,
          fgets_loop_blank _ hb, hrest]
        simp
      · have hlines : data_lines (body ++ '\n' :: rest)
            = (body ++ ['\n']) :: data_lines rest := by
          simp [data_lines, file_lines_line body rest hnl, hb]
        have hl := hfit (body ++ ['\n']) (by simp [hlines])
        have hrest := ih rest.length (by omega) rest le_rfl
          (fun l hl => hfit l (by simp [hlines, hl]))
        rw [hlines, fgets_loop_short_line body rest hnl hl.1, cstr_eq_self _ hl.2]
        simp only [List.filter_cons, only_whitespace_eq_blank, hb]
        simpa [only_whitespace_eq_blank] using hrest

/-! ## read_csv -/

/-- When the first non-blank line read has `c ≥ 1` tokens, read_csv returns 0:
`rows` counts the non-blank lines read, `cols` is `c`, and row `i` is the fresh
row `i` after the inner loop of the second pass has run over the tokens of the
`i`-th non-blank line. -/
theorem read_csv_of_lines (E : Env α) (uninit : Nat → Nat → Dbl α) (filename : String)
    (content first : List Char) (more : List (List Char)) (c : Nat)
    (hopen : E.fopen filename = some content)
    (hlines : (fgets_loop content).filter (fun l => !only_whitespace l) = first :: more)
    (hc : (strtok_all first).length = c) (hpos : 0 < c) :
    read_csv E uninit filename
      = (Except.ok
          ⟨List.zipWith
            (fun l i => fill_row E.atof c (strtok_all l) 0 ((List.range c).map fun j => uninit i j))
            (first :: more) (List.range (more.length + 1)),
           ((more.length + 1 : Nat) : Int), (c : Int)⟩, []) := by
  have hmem : ∀ l ∈ first :: more, only_whitespace l = false := by
    intro l hl
    rw [← hlines] at hl
    simpa using (List.mem_filter.mp hl).2
  have hfirst : only_whitespace first = false := hmem first (by simp)
  have hmore : ∀ l ∈ more, only_whitespace l = false := fun l hl => hmem l (by simp [hl])
  have hpass : first_pass (fgets_loop content) 0 0 = (more.length + 1, c) := by
    rw [first_pass_filter, hlines, first_pass]
    simp only [hfirst, Bool.false_eq_true, if_false, if_true, hc, Nat.zero_add]
    rw [first_pass_counted more hmore 1 c hpos]
    simp [Nat.add_comm]
  have hc0 : c ≠ 0 := by omega
  have hsecond := second_pass_rows E.atof c (first :: more) hmem []
    ((List.range (more.length + 1)).map fun i => (List.range c).map fun j => uninit i j) []
    (by simp)
  simp only [List.nil_append, List.append_nil, List.length_nil] at hsecond
  simp only [read_csv, hopen, hpass, hc0, Nat.succ_ne_zero, false_and, and_false, if_false]
  rw [second_pass_filter, hlines, hsecond, List.zipWith_map_right]

/-- A line whose pieces between commas are all non-empty has these pieces as
tokens. -/
theorem strtok_all_eq_splitOn (l : List Char) (h : ∀ f ∈ l.splitOn ',', f ≠ []) :
    strtok_all l = l.splitOn ',' := by
  rw [strtok_all_eq_line_tokens l.length l le_rfl, line_tokens]
  exact List.filter_eq_self.mpr fun f hf => by simpa using h f hf

/-- With as many tokens as cells, the inner loop of the second pass replaces
the row by the values of the tokens. -/
theorem fill_row_full (atof : List Char → Dbl α) (toks : List (List Char)) (row : List (Dbl α))
    (h : row.length = toks.length) :
    fill_row atof toks.length toks 0 row = toks.map atof := by
  have := fill_row_spec atof toks [] row
  simp only [List.length_nil, Nat.zero_add, List.nil_append] at this
  rw [← h, this, h]
  simp [← h]

/-- A `zipWith` whose function ignores its second argument is a `map`. -/
theorem zipWith_eq_map {β γ δ : Type} (f : β → γ → δ) (g : β → δ) (ls : List β)
    (h : ∀ l ∈ ls, ∀ i, f l i = g l) : ∀ is : List γ, is.length = ls.length →
    List.zipWith f ls is = ls.map g := by
  induction ls with
  | nil => intro is _; simp
  | cons l ls ih =>
    intro is hlen
    cases is with
    | nil => simp at hlen
    | cons i is =>
      simp only [List.length_cons, Nat.add_right_cancel_iff] at hlen
      simp [h l (by simp) i, ih (fun x hx => h x (by simp [hx])) is hlen]

/-- On lines that fit the line buffer, read_csv loads a well-formed file as
it is written. For a file that has a non-blank line, whose non-blank lines each
fit the line buffer (at most 1023 characters, newline included) and hold no NUL
byte, and in which every non-blank line splits on commas into exactly `c ≥ 1`
non-empty fields: read_csv returns 0, `cols` is `c`, `rows` is the number of
non-blank lines, and row `i` of the matrix holds the `atof` values of the
fields of the `i`-th non-blank line, in file order. A line is taken with the
newline that ends it, so the newline belongs to its last field, as in the text
handed to `atof`. -/
theorem read_csv_well_formed (E : Env α) (uninit : Nat → Nat → Dbl α) (filename : String)
    (content : List Char) (c : Nat)
    (hopen : E.fopen filename = some content)
    (hdata : data_lines content ≠ [])
    (hfit : ∀ l ∈ data_lines content, l.length ≤ 1023 ∧ Char.ofNat 0 ∉ l)
    (hfields : ∀ l ∈ data_lines content,
      (l.splitOn ',').length = c ∧ ∀ f ∈ l.splitOn ',', f ≠ [])
    (hc : 1 ≤ c) :
    read_csv E uninit filename
      = (Except.ok
          ⟨(data_lines content).map (fun l => (l.splitOn ',').map E.atof),
           ((data_lines content).length : Int), (c : Int)⟩, []) := by
  have hread := data_lines_read content.length content le_rfl hfit
  cases hd : data_lines content with
  | nil => exact absurd hd hdata
  | cons first more =>
    rw [hd] at hread hfields
    have htok : ∀ l ∈ first :: more, strtok_all l = l.splitOn ',' := fun l hl =>
      strtok_all_eq_splitOn l (hfields l hl).2
    have hlen : ∀ l ∈ first :: more, (strtok_all l).length = c := fun l hl => by
      rw [htok l hl]
      exact (hfields l hl).1
    rw [read_csv_of_lines E uninit filename content first more c hopen hread
      (hlen first (by simp)) (by omega)]
    have hrow : ∀ l ∈ first :: more, ∀ i : Nat,
        fill_row E.atof c (strtok_all l) 0 ((List.range c).map fun j => uninit i j)
          = (l.splitOn ',').map E.atof := by
      intro l hl i
      have h := fill_row_full E.atof (strtok_all l) ((List.range c).map fun j => uninit i j)
        (by simp [hlen l hl])
      rw [hlen l hl] at h
      rw [h, htok l hl]
    have hrows := zipWith_eq_map
      (fun l i => fill_row E.atof c (strtok_all l) 0 ((List.range c).map fun j => uninit i j))
      (fun l => (l.splitOn ',').map E.atof) (first :: more) hrow
      (List.range (more.length + 1)) (by simp)
    rw [hrows]
    simp

/-- C8, amended. For a file whose non-blank lines each fit the line buffer and
hold no NUL byte, and whose first non-blank line has `c ≥ 1` tokens, read_csv
returns 0 with `rows` the number of non-blank lines and `cols = c`, whatever the
numbers of tokens of the other lines are: it reports no format error. -/
theorem read_csv_ragged (E : Env α) (uninit : Nat → Nat → Dbl α) (filename : String)
    (content first : List Char) (more : List (List Char)) (c : Nat)
    (hopen : E.fopen filename = some content)
    (hdata : data_lines content = first :: more)
    (hfit : ∀ l ∈ data_lines content, l.length ≤ 1023 ∧ Char.ofNat 0 ∉ l)
    (hfirst : (line_tokens first).length = c)
    (hc : 1 ≤ c) :
    ∃ data, read_csv E uninit filename
      = (Except.ok ⟨data, ((more.length + 1 : Nat) : Int), (c : Int)⟩, []) := by
  have hread := data_lines_read content.length content le_rfl hfit
  rw [hdata] at hread
  rw [← strtok_all_eq_line_tokens first.length first le_rfl] at hfirst
  exact ⟨_, read_csv_of_lines E uninit filename content first more c hopen hread hfirst
    (by omega)⟩

/-- C9, amended. For a file that holds white space only (or nothing), read_csv
returns -1 where `malloc(0)` returns `NULL`, and otherwise returns 0 with zero
rows, zero columns and an empty matrix. -/
theorem read_csv_no_data (E : Env α) (uninit : Nat → Nat → Dbl α) (filename : String)
    (content : List Char)
    (hopen : E.fopen filename = some content)
    (hblank : ∀ ch ∈ content, isspace ch = true) :
    read_csv E uninit filename
      = if E.malloc_zero_null = true then (Except.error (-1), [])
        else (Except.ok ⟨[], 0, 0⟩, []) := by
  have hb : blank content = true := List.all_eq_true.mpr hblank
  have hnone := fgets_loop_blank content hb
  have hpass : first_pass (fgets_loop content) 0 0 = (0, 0) := by
    rw [first_pass_filter, hnone]
    rfl
  have hsecond : second_pass E.atof 0 (fgets_loop content) 0 [] = [] := by
    rw [second_pass_filter, hnone]
    rfl
  simp only [read_csv, hopen, hpass, true_and]
  by_cases hm : E.malloc_zero_null = true
  · simp [hm]
  · simp [hm, hsecond]

/-- C7. Inserting white-space-only lines into a file changes nothing in what
read_csv returns. The file `a ++ b` is cut between two lines (`a` is empty or
ends with a newline) and `w`, which is white space only, is put in between as
whole lines (`w` ends with a newline unless it comes last). -/
theorem read_csv_blank_lines (E : Env α) (uninit : Nat → Nat → Dbl α) (file file2 : String)
    (a w b : List Char)
    (hopen : E.fopen file = some (a ++ b))
    (hopen2 : E.fopen file2 = some (a ++ w ++ b))
    (ha : a = [] ∨ ∃ a0, a = a0 ++ ['\n'])
    (hw : ∀ ch ∈ w, isspace ch = true)
    (hwb : b = [] ∨ ∃ w0, w = w0 ++ ['\n']) :
    read_csv E uninit file2 = read_csv E uninit file := by
  have hblank : blank w = true := List.all_eq_true.mpr hw
  have hwread : (fgets_loop (w ++ b)).filter (fun l => !only_whitespace l)
      = (fgets_loop b).filter (fun l => !only_whitespace l) := by
    rcases hwb with hb | ⟨w0, hw0⟩
    · subst hb
      simp [fgets_loop_blank w hblank, fgets_loop_nil]
    · have := fgets_loop_blank w hblank
      have e : w0 ++ ['\n'] ++ b = w0 ++ '\n' :: b := by simp
      rw [hw0] at this ⊢
      rw [e, fgets_loop_append_newline w0.length w0 b le_rfl, List.filter_append, this]
      simp
  have hread : (fgets_loop (a ++ w ++ b)).filter (fun l => !only_whitespace l)
      = (fgets_loop (a ++ b)).filter (fun l => !only_whitespace l) := by
    rcases ha with ha | ⟨a0, ha0⟩
    · subst ha
      simpa using hwread
    · subst ha0
      have e1 : a0 ++ ['\n'] ++ w ++ b = a0 ++ '\n' :: (w ++ b) := by simp
      have e2 : a0 ++ ['\n'] ++ b = a0 ++ '\n' :: b := by simp
      rw [e1, e2, fgets_loop_append_newline a0.length a0 (w ++ b) le_rfl,
        fgets_loop_append_newline a0.length a0 b le_rfl, List.filter_append,
        List.filter_append, hwread]
  simp only [read_csv, hopen, hopen2]
  rw [first_pass_filter (fgets_loop (a ++ w ++ b)), hread,
    ← first_pass_filter (fgets_loop (a ++ b))]
  simp only [second_pass_filter E.atof _ (fgets_loop (a ++ w ++ b)), hread]
  simp only [← second_pass_filter E.atof _ (fgets_loop (a ++ b))]

/-- A text without token consists of commas. -/
theorem commas_of_strtok_all_nil (l : List Char) (h : strtok_all l = []) :
    ∀ ch ∈ l, ch = ',' := by
  rw [strtok_all_step] at h
  cases hd : l.dropWhile (fun c => decide (c = ',')) with
  | nil =>
    intro ch hch
    simpa using List.dropWhile_eq_nil_iff.mp hd ch hch
  | cons x xs =>
    simp [strtok, hd] at h

/-- When the first non-blank line of the file fits the buffer and has no NUL
byte, it is the first non-blank line read; it is also the last one read when
it has no newline. -/
theorem first_data_line_read (n : Nat) : ∀ (content first : List Char), content.length ≤ n →
    (file_lines content).find? (fun l => !blank l) = some first →
    first.length ≤ 1023 → Char.ofNat 0 ∉ first →
    ∃ more, (fgets_loop content).filter (fun l => !only_whitespace l) = first :: more ∧
      ('\n' ∉ first → more = []) := by
  induction n using Nat.strong_induction_on with
  | _ n ih =>
    intro content first hn hfind hfit hnul
    rcases first_occurrence '\n' content with hnl | ⟨body, rest, hc, hnl⟩
    · by_cases hne : content = []
      · simp [hne, file_lines] at hfind
      · rw [file_lines_last content hne hnl] at hfind
        by_cases hb : blank content = true
        · simp [hb] at hfind
        · simp only [List.find?_cons, hb, Bool.not_false, Option.some.injEq] at hfind
          subst hfind
          refine ⟨[], ?_, fun _ => rfl⟩
          rw [fgets_loop_short_last content hne hnl hfit, cstr_eq_self _ hnul]
          simp [only_whitespace_eq_blank, hb]
    · subst hc
      simp only [List.length_append, List.length_cons] at hn
      rw [file_lines_line body rest hnl] at hfind
      by_cases hb : blank (body ++ ['\n']) = true
      · simp only [List.find?_cons, hb, Bool.not_true] at hfind
        obtain ⟨more, hmore, hlast⟩ := ih rest.length (by omega) rest first le_rfl hfind hfit hnul
        refine ⟨more, ?_, hlast⟩
        rw [fgets_loop_line body.length body rest le_rfl hnl, List.filter_append,
          fgets_loop_blank _ hb, hmore]
        simp
      · simp only [List.find?_cons, hb, Bool.not_false, Option.some.injEq] at hfind
        subst hfind
        refine ⟨(fgets_loop rest).filter (fun l => !only_whitespace l), ?_, fun h => ?_⟩
        · rw [fgets_loop_short_line body rest hnl hfit, cstr_eq_self _ hnul]
          simp [only_whitespace_eq_blank, hb]
        · exact absurd (by simp) h

/-- On a first line that fits the line buffer, the column count is the number
of its tokens. When the first non-blank line of the file fits the line buffer
(at most 1023 characters, newline included) and holds no NUL byte, read_csv
returns 0 and `cols` is the number of tokens of that line, whatever the other
lines are. A line made of commas only has no token: then `cols` is 0, and the
call succeeds where `malloc(0)` does not return `NULL`. -/
theorem read_csv_cols_first_line (E : Env α) (uninit : Nat → Nat → Dbl α) (filename : String)
    (content first : List Char)
    (hopen : E.fopen filename = some content)
    (hfirst : (file_lines content).find? (fun l => !blank l) = some first)
    (hfit : first.length ≤ 1023) (hnul : Char.ofNat 0 ∉ first)
    (hplat : E.malloc_zero_null = false ∨ 0 < (line_tokens first).length) :
    ∃ r, (read_csv E uninit filename).1 = Except.ok r ∧
      r.cols = ((line_tokens first).length : Int) := by
  obtain ⟨more, hread, hlast⟩ :=
    first_data_line_read content.length content first le_rfl hfirst hfit hnul
  have htok := strtok_all_eq_line_tokens first.length first le_rfl
  by_cases hpos : 0 < (line_tokens first).length
  · rw [read_csv_of_lines E uninit filename content first more _ hopen hread
      (by rw [htok]) hpos]
    exact ⟨_, rfl, rfl⟩
  · have hzero : line_tokens first = [] := List.length_eq_zero.mp (by omega)
    have hm : E.malloc_zero_null = false := by
      rcases hplat with h | h
      · exact h
      · exact absurd h hpos
    have hnl : '\n' ∉ first := fun hmem => by
      have := commas_of_strtok_all_nil first (by rw [htok, hzero]) _ hmem
      simp at this
    have hmore := hlast hnl
    subst hmore
    have hblank : only_whitespace first = false := by
      have : first ∈ (fgets_loop content).filter (fun l => !only_whitespace l) := by
        rw [hread]
        simp
      simpa using (List.mem_filter.mp this).2
    have hpass : first_pass (fgets_loop content) 0 0 = (1, 0) := by
      rw [first_pass_filter, hread]
      simp [first_pass, hblank, htok, hzero]
    simp only [read_csv, hopen, hpass, hm]
    simp [hzero]

/-! ## Loops of compute_statistics -/

/-- A loop `for (j = 0; j < k; j++) m[j] = g(m[j])` maps `g` over the first `k`
entries of the array. -/
theorem set_loop (g : Dbl α → Dbl α) (m : List (Dbl α)) (k : Nat) :
    (List.range k).foldl (fun m j => m.set j (g (rd m j))) m
      = (m.take k).map g ++ m.drop k := by
  induction k with
  | zero => simp
  | succ k ih =>
    rw [List.range_succ, List.foldl_append, ih]
    simp only [List.foldl_cons, List.foldl_nil]
    by_cases hk : k < m.length
    · have hlen : ((m.take k).map g).length = k := by simp [Nat.le_of_lt hk]
      have hdrop : m.drop k = m[k] :: m.drop (k + 1) := by
        rw [List.drop_eq_getElem_cons hk]
      have hrd : rd ((m.take k).map g ++ m.drop k) k = m[k] := by
        rw [rd, List.getD_eq_getElem?_getD, List.getElem?_append_right (by omega), hlen]
        simp [List.getElem?_eq_getElem hk]
      have hset : ∀ x y : Dbl α, ((m.take k).map g ++ y :: m.drop (k + 1)).set k x
          = (m.take k).map g ++ x :: m.drop (k + 1) := by
        intro x y
        rw [List.set_append_right _ _ (by omega), hlen]
        simp
      rw [hrd, hdrop, hset, List.take_succ, List.getElem?_eq_getElem hk]
      simp only [Option.toList_some, List.map_append, List.map_cons, List.map_nil,
        List.append_assoc, List.singleton_append]
    · have hk2 : m.length ≤ k := by omega
      rw [List.set_eq_of_length_le (by simp; omega)]
      simp [List.take_of_length_le, List.drop_eq_nil_of_le, hk2, Nat.le_succ_of_le hk2]

/-- The loop that clears both arrays clears each of them. -/
theorem init_loop (a b : Dbl α) (k : Nat) (mean stddev : List (Dbl α)) :
    (List.range k).foldl
      (fun (p : List (Dbl α) × List (Dbl α)) j => (p.1.set j a, p.2.set j b)) (mean, stddev)
      = ((mean.take k).map (fun _ => a) ++ mean.drop k,
         (stddev.take k).map (fun _ => b) ++ stddev.drop k) := by
  have hpair : ∀ k : Nat, (List.range k).foldl
      (fun (p : List (Dbl α) × List (Dbl α)) j => (p.1.set j a, p.2.set j b)) (mean, stddev)
      = ((List.range k).foldl (fun m j => m.set j ((fun _ => a) (rd m j))) mean,
         (List.range k).foldl (fun m j => m.set j ((fun _ => b) (rd m j))) stddev) := by
    intro k
    induction k with
    | zero => simp
    | succ k ih => rw [List.range_succ, List.foldl_append, ih]; simp
  rw [hpair, set_loop (fun _ => a), set_loop (fun _ => b)]

end csv

/-! ## compute_statistics without rows -/

/-- C10, amended. compute_statistics returns nothing and does not guard the
division: when the row count is 0 it stores NaN, the result of `0.0 / 0`, in
each of the first `cols` entries of `mean` and of `stddev`, and leaves the rest
of the two buffers as they were. -/
theorem compute_statistics_zero_rows (sqrt : α → α) (data : List (List (Dbl α))) (cols : Nat)
    (mean stddev : List (Dbl α))
    (hmean : cols ≤ mean.length) (hstd : cols ≤ stddev.length) :
    compute_statistics sqrt data 0 cols mean stddev
      = (List.replicate cols nan ++ mean.drop cols, List.replicate cols nan ++ stddev.drop cols) := by
  have htake : ∀ (m : List (Dbl α)) (g : Dbl α → Dbl α) (a : Dbl α), cols ≤ m.length →
      (((m.take cols).map (fun _ => a) ++ m.drop cols).take cols).map g
        ++ ((m.take cols).map (fun _ => a) ++ m.drop cols).drop cols
      = List.replicate cols (g a) ++ m.drop cols := by
    intro m g a hm
    have hlen : ((m.take cols).map (fun _ => a)).length = cols := by simp [hm]
    rw [List.take_append_eq_append_take, List.drop_append_eq_append_drop, hlen]
    simp [List.take_of_length_le, List.drop_eq_nil_of_le, hlen, hm, List.map_const']
  have h1 := set_loop (fun x : Dbl α => Dbl.divInt x 0)
    ((mean.take cols).map (fun _ => fin 0) ++ mean.drop cols) cols
  have h2 := set_loop (fun x : Dbl α => Dbl.sqrt sqrt (Dbl.divInt x 0))
    ((stddev.take cols).map (fun _ => fin 0) ++ stddev.drop cols) cols
  simp only [] at h1 h2
  simp only [compute_statistics, Int.toNat_ofNat, Int.toNat_zero, List.range_zero,
    List.foldl_nil, init_loop]
  rw [h1, h2, htake mean _ _ hmean, htake stddev _ _ hstd]
  simp [Dbl.divInt, Dbl.sqrt]

/-! ## Concrete files -/

/-- An instance of `read_csv_well_formed`: a file with a blank line between two
rows. -/
theorem read_csv_well_formed_witness :
    read_csv sample_env (sample_env.garbage 0) "rows.csv"
      = (Except.ok ⟨[[fin 1, fin 2], [fin 3, fin (9 / 2)]], 2, 2⟩, []) :=
  (read_csv_well_formed sample_env (sample_env.garbage 0) "rows.csv" "1,2\n\n3,4.5\n".toList 2
    (by decide!) (by decide!) (by decide!) (by decide!) (by decide)).trans (by decide!)

/-- An instance of `read_csv_cols_first_line`: the column count of
"three.csv". -/
theorem read_csv_cols_first_line_witness :
    ∃ r, (read_csv sample_env (sample_env.garbage 0) "three.csv").1 = Except.ok r ∧
      r.cols = ((line_tokens "1,2,3\n".toList).length : Int) :=
  read_csv_cols_first_line sample_env (sample_env.garbage 0) "three.csv" "1,2,3\n".toList
    "1,2,3\n".toList (by decide!) (by decide!) (by decide!) (by decide!) (Or.inl rfl)

/-- Witness of C7: "spaced.csv" is "safe.csv" with a blank line between its
two rows. -/
theorem read_csv_blank_lines_witness :
    read_csv sample_env (sample_env.garbage 0) "spaced.csv"
      = read_csv sample_env (sample_env.garbage 0) "safe.csv" :=
  read_csv_blank_lines sample_env (sample_env.garbage 0) "safe.csv" "spaced.csv"
    "0,0\n".toList " \n".toList "0,0\n".toList (by decide!) (by decide!)
    (Or.inr ⟨"0,0".toList, by decide!⟩) (by decide!) (Or.inr ⟨" ".toList, by decide!⟩)

/-- Witness of C8, amended: "ragged.csv" has lines of two, one and three
tokens. -/
theorem read_csv_ragged_witness :
    ∃ data, read_csv sample_env (sample_env.garbage 0) "ragged.csv"
      = (Except.ok ⟨data, ((2 + 1 : Nat) : Int), ((2 : Nat) : Int)⟩, []) :=
  read_csv_ragged sample_env (sample_env.garbage 0) "ragged.csv" "1,2\n3\n4,5,6\n".toList
    "1,2\n".toList ["3\n".toList, "4,5,6\n".toList] 2
    (by decide!) (by decide!) (by decide!) (by decide!) (by decide)

/-- Counterexample to C8. The lines of "ragged.csv" have two, one and three
tokens, and read_csv returns 0 with three rows of two columns: the second row
keeps what the fresh memory held in its second cell, the third row holds the
first two values of its line. -/
theorem read_csv_ragged_counterexample :
    (data_lines "1,2\n3\n4,5,6\n".toList).map (fun l => (line_tokens l).length) = [2, 1, 3] ∧
    read_csv sample_env (sample_env.garbage 0) "ragged.csv"
      = (Except.ok ⟨[[fin 1, fin 2], [fin 3, fin 777], [fin 4, fin 5]], 3, 2⟩, []) := by
  decide!

/-- Witness of C9, amended: "blank.csv" holds white space only. -/
theorem read_csv_no_data_witness :
    read_csv sample_env (sample_env.garbage 0) "blank.csv" = (Except.ok ⟨[], 0, 0⟩, []) :=
  (read_csv_no_data sample_env (sample_env.garbage 0) "blank.csv" " \n\t\n".toList
    (by decide!) (by decide!)).trans (by decide!)

/-- Counterexample to C9. On the empty file, with a `malloc(0)` that does not
return `NULL`, read_csv returns 0 with zero rows and zero columns. -/
theorem read_csv_no_data_counterexample :
    sample_env.fopen "empty.csv" = some [] ∧
    read_csv sample_env (sample_env.garbage 0) "empty.csv" = (Except.ok ⟨[], 0, 0⟩, []) := by
  decide!

/-- Witness of C10, amended: two columns, buffers of three entries. -/
theorem compute_statistics_zero_rows_witness :
    compute_statistics sqrt_floor [] 0 (2 : Nat) [fin 1, fin 2, fin 3] [fin 4, fin 5, fin 6]
      = ([nan, nan, fin 3], [nan, nan, fin 6]) :=
  (compute_statistics_zero_rows sqrt_floor [] 2 [fin 1, fin 2, fin 3] [fin 4, fin 5, fin 6]
    (by decide) (by decide)).trans (by decide!)

/-- Counterexample to C10. With no row and one column, compute_statistics
returns normally, the entry of `mean` and the entry of `stddev` being NaN. -/
theorem compute_statistics_zero_rows_counterexample :
    compute_statistics sqrt_floor [] 0 1 [fin 7] [fin 7] = ([nan], [nan]) := by
  decide!

/-! ## Loops over tabulated arrays -/

section loops

omit [LinearOrderedField α]

/-- Reading entry `j` of an array whose first `n` entries are tabulated by `f`. -/
theorem rd_tab (f : Nat → Dbl α) (tail : List (Dbl α)) (n j : Nat) (hj : j < n) :
    rd ((List.range n).map f ++ tail) j = f j := by
  rw [rd, List.getD_eq_getElem?_getD, List.getElem?_append_left (by simpa using hj)]
  simp [hj]

/-- A loop `for (j = 0; j < k; j++) m[j] = g(j, m[j])` over an array whose first
`n ≥ k` entries are tabulated by `f`. -/
theorem tab_loop (g : Nat → Dbl α → Dbl α) (f : Nat → Dbl α) (tail : List (Dbl α))
    (n k : Nat) (hk : k ≤ n) :
    (List.range k).foldl (fun m j => m.set j (g j (rd m j))) ((List.range n).map f ++ tail)
      = (List.range n).map (fun j => if j < k then g j (f j) else f j) ++ tail := by
  induction k with
  | zero => simp
  | succ k ih =>
    rw [List.range_succ, List.foldl_append, ih (by omega)]
    simp only [List.foldl_cons, List.foldl_nil]
    rw [rd_tab _ tail n k (by omega)]
    simp only [Nat.lt_irrefl, if_false]
    rw [List.set_append_left _ _ (by simp; omega)]
    congr 1
    refine List.ext_getElem? fun i => ?_
    rw [List.getElem?_set]
    by_cases hik : k = i
    · subst hik
      have hlt : k < n := by omega
      simp [hlt]
    · by_cases hin : i < n
      · have h1 : (i < k + 1) = (i < k) := by
          apply propext
          omega
        simp [hik, hin, h1]
      · have hnone : (List.range n)[i]? = none := by simp; omega
        simp [hik, hnone]

/-- The loop over all `n` tabulated entries. -/
theorem tab_loop_full (g : Nat → Dbl α → Dbl α) (f : Nat → Dbl α) (tail : List (Dbl α))
    (n : Nat) :
    (List.range n).foldl (fun m j => m.set j (g j (rd m j))) ((List.range n).map f ++ tail)
      = (List.range n).map (fun j => g j (f j)) ++ tail := by
  rw [tab_loop g f tail n n le_rfl]
  congr 1
  refine List.map_congr_left fun j hj => ?_
  simp [List.mem_range.mp hj]

/-- An array of at least `n` entries whose first `n` entries are cleared. -/
theorem cleared_eq_tab (a : Dbl α) (m : List (Dbl α)) (n : Nat) (h : n ≤ m.length) :
    (m.take n).map (fun _ => a) ++ m.drop n = (List.range n).map (fun _ => a) ++ m.drop n := by
  congr 1
  rw [List.map_const', List.map_const']
  simp [h]

end loops

/-! ## Centroids, midpoint and decision boundary -/

section csv2

omit [LinearOrderedField α]

/-- On lines that fit the line buffer, the tokens beyond the column count are
ignored. For a file whose non-blank lines each fit the line buffer and hold no
NUL byte, and whose first non-blank line has `c ≥ 1` tokens, read_csv returns 0
and writes nothing to `stderr`, the matrix has one row per non-blank line, and
the row of every non-blank line that has `c` tokens or more holds the `atof`
values of exactly the first `c` tokens of that line, whatever the other lines
are. -/
theorem read_csv_extra_tokens (E : Env α) (uninit : Nat → Nat → Dbl α) (filename : String)
    (content first : List Char) (more : List (List Char)) (c : Nat)
    (hopen : E.fopen filename = some content)
    (hdata : data_lines content = first :: more)
    (hfit : ∀ l ∈ data_lines content, l.length ≤ 1023 ∧ Char.ofNat 0 ∉ l)
    (hfirst : (line_tokens first).length = c)
    (hc : 1 ≤ c) :
    ∃ data, read_csv E uninit filename
        = (Except.ok ⟨data, ((more.length + 1 : Nat) : Int), (c : Int)⟩, []) ∧
      data.length = more.length + 1 ∧
      ∀ (i : Nat) (l : List Char), (first :: more)[i]? = some l →
        c ≤ (line_tokens l).length →
        data[i]? = some (((line_tokens l).take c).map E.atof) := by
  have hread := data_lines_read content.length content le_rfl hfit
  rw [hdata] at hread
  rw [← strtok_all_eq_line_tokens first.length first le_rfl] at hfirst
  refine ⟨_, read_csv_of_lines E uninit filename content first more c hopen hread hfirst
    (by omega), by simp, ?_⟩
  intro i l hl hlen
  have hi : i < more.length + 1 := by
    have := (List.getElem?_eq_some_iff.mp hl).1
    simpa using this
  have hrow := fill_row_spec E.atof (line_tokens l) [] ((List.range c).map fun j => uninit i j)
  simp only [List.length_nil, Nat.zero_add, List.nil_append, List.length_map,
    List.length_range] at hrow
  rw [List.getElem?_zipWith, hl, List.getElem?_range hi]
  simp only [Option.map_some', Option.bind_some]
  rw [strtok_all_eq_line_tokens l.length l le_rfl, hrow, List.drop_eq_nil_of_le (by simpa using hlen)]
  simp

end csv2

/-- An instance of `read_csv_extra_tokens`: the second line of "extra.csv" has
three tokens. -/
theorem read_csv_extra_tokens_witness :
    ∃ data, read_csv b64_env (b64_env.garbage 0) "extra.csv"
        = (Except.ok ⟨data, ((2 + 1 : Nat) : Int), ((2 : Nat) : Int)⟩, []) ∧
      data.length = 2 + 1 ∧
      ∀ (i : Nat) (l : List Char),
        ("1,2\n".toList :: ["3,4,5\n".toList, "6,7\n".toList])[i]? = some l →
        2 ≤ (line_tokens l).length →
        data[i]? = some (((line_tokens l).take 2).map b64_env.atof) :=
  read_csv_extra_tokens b64_env (b64_env.garbage 0) "extra.csv" "1,2\n3,4,5\n6,7\n".toList
    "1,2\n".toList ["3,4,5\n".toList, "6,7\n".toList] 2
    (by decide!) (by decide!) (by decide!) (by decide!) (by decide)

omit [LinearOrderedField α] in
/-- C20. Every line that the loop of read_csv reads through its buffer of 1024
bytes and that is not blank makes a row, and the column count is the number of
tokens of the first of them. So for the file "long.csv", which consists of the
single non-blank line `long_line` of 1026 characters, the loop reads two lines,
the first 1023 characters and the rest, none of them blank; read_csv reports 2
rows, and 1 column, the number of tokens of the first of the two, where the
whole line has 2 tokens. -/
theorem read_csv_long_line :
    (∀ (E : Env α) (uninit : Nat → Nat → Dbl α) (filename : String)
        (content first : List Char) (more : List (List Char)),
      E.fopen filename = some content →
      (fgets_loop content).filter (fun l => !only_whitespace l) = first :: more →
      0 < (strtok_all first).length →
      ∃ data, read_csv E uninit filename
          = (Except.ok ⟨data, ((more.length + 1 : Nat) : Int),
              ((strtok_all first).length : Int)⟩, []) ∧
        data.length = more.length + 1) ∧
    ∃ content, sample_env.fopen "long.csv" = some content ∧
      file_lines content = [content] ∧ blank content = false ∧ 1023 < content.length ∧
      fgets_loop content = [content.take 1023, content.drop 1023] ∧
      only_whitespace (content.take 1023) = false ∧
      only_whitespace (content.drop 1023) = false ∧
      (strtok_all (content.take 1023)).length = 1 ∧
      (line_tokens content).length = 2 ∧
      (read_csv sample_env (sample_env.garbage 0) "long.csv").1.map (fun r => (r.rows, r.cols))
        = Except.ok (2, 1) :=
  ⟨fun E uninit filename content first more hopen hlines hpos =>
    ⟨_, read_csv_of_lines E uninit filename content first more _ hopen hlines rfl hpos,
      by simp⟩,
   long_line, by decide!⟩

/-! ## End to end -/

omit [LinearOrderedField α] in
/-- The matrix read from a file of two lines of two fields. -/
theorem read_csv_two_by_two (E : Env α) (uninit : Nat → Nat → Dbl α) (filename : String)
    (content l1 l2 t11 t12 t21 t22 : List Char)
    (hopen : E.fopen filename = some content)
    (hlines : (fgets_loop content).filter (fun l => !only_whitespace l) = [l1, l2])
    (h1 : strtok_all l1 = [t11, t12]) (h2 : strtok_all l2 = [t21, t22]) :
    read_csv E uninit filename
      = (Except.ok ⟨[[E.atof t11, E.atof t12], [E.atof t21, E.atof t22]],
          ((2 : Nat) : Int), ((2 : Nat) : Int)⟩, []) := by
  rw [read_csv_of_lines E uninit filename content l1 [l2] 2 hopen hlines (by rw [h1]; rfl)
    (by decide)]
  simp [h1, h2, fill_row, List.range_succ]

omit [LinearOrderedField α] in
/-- The distance of two points of the plane. -/
theorem dist_vec2 (a b c d : ℝ) :
    dist (vec2 a b) (vec2 c d) = Real.sqrt ((a - c) ^ 2 + (b - d) ^ 2) := by
  rw [EuclideanSpace.dist_eq, Fin.sum_univ_two]
  simp [vec2, Real.dist_eq, sq_abs]

/-! ## Powers of two, logarithms and square roots -/

namespace B64

/-- The function `pow2` is the power of two with an integer exponent. -/
theorem pow2_eq (k : Int) : pow2 k = (2 : ℚ) ^ k := by
  unfold pow2
  split
  · rename_i h
    obtain ⟨n, rfl⟩ := Int.eq_ofNat_of_zero_le h
    simp
  · rename_i h
    obtain ⟨n, hn⟩ : ∃ n : Nat, k = -(n : Int) := ⟨(-k).toNat, by omega⟩
    subst hn
    simp

theorem pow2_pos (k : Int) : 0 < pow2 k := by
  rw [pow2_eq]
  positivity

theorem pow2_add (j k : Int) : pow2 (j + k) = pow2 j * pow2 k := by
  simp only [pow2_eq]
  exact zpow_add₀ (by norm_num) j k

theorem pow2_le (j k : Int) (h : j ≤ k) : pow2 j ≤ pow2 k := by
  simp only [pow2_eq]
  exact zpow_le_zpow_right₀ (by norm_num) h

theorem pow2_lt (j k : Int) (h : j < k) : pow2 j < pow2 k := by
  simp only [pow2_eq]
  exact zpow_lt_zpow_right₀ (by norm_num) h

theorem pow2_nat (n : Nat) : pow2 (n : Int) = ((2 ^ n : Nat) : ℚ) := by
  simp [pow2]

/-- The logarithm found with enough fuel. -/
theorem log2_aux_spec : ∀ (fuel n : Nat), 1 ≤ n → n ≤ fuel →
    2 ^ log2_aux fuel n ≤ n ∧ n < 2 ^ (log2_aux fuel n + 1) := by
  intro fuel
  induction fuel with
  | zero => intro n h1 h2; omega
  | succ fuel ih =>
    intro n h1 h2
    unfold log2_aux
    by_cases h : 2 ≤ n
    · simp only [h, if_true]
      obtain ⟨ha, hb⟩ := ih (n / 2) (by omega) (by omega)
      rw [pow_succ, pow_succ]
      generalize 2 ^ log2_aux fuel (n / 2) = p at ha hb
      rw [pow_succ] at hb
      omega
    · simp only [h, if_false]
      simp
      omega

/-- For `n ≥ 1`, `log2 n` is the exponent of the largest power of two below or
equal to `n`. -/
theorem log2_spec (n : Nat) (h : 1 ≤ n) : 2 ^ log2 n ≤ n ∧ n < 2 ^ (log2 n + 1) :=
  log2_aux_spec n n h le_rfl

/-- The quotient of two positive integers lies within a factor 2 of the
quotient of the powers of two below them. -/
theorem quotient_bounds (N D ln ld : Nat) (hD : 1 ≤ D)
    (n1 : 2 ^ ln ≤ N) (n2 : N < 2 ^ (ln + 1)) (d1 : 2 ^ ld ≤ D) (d2 : D < 2 ^ (ld + 1)) :
    pow2 ((ln : Int) - (ld : Int) - 1) ≤ (N : ℚ) / (D : ℚ) ∧
    (N : ℚ) / (D : ℚ) < pow2 ((ln : Int) - (ld : Int) + 1) := by
  have hDpos : (0 : ℚ) < (D : ℚ) := by exact_mod_cast hD
  have n1q : ((2 : ℚ) ^ ln) ≤ (N : ℚ) := by exact_mod_cast n1
  have n2q : (N : ℚ) < ((2 : ℚ) ^ (ln + 1)) := by exact_mod_cast n2
  have d1q : ((2 : ℚ) ^ ld) ≤ (D : ℚ) := by exact_mod_cast d1
  have d2q : (D : ℚ) < ((2 : ℚ) ^ (ld + 1)) := by exact_mod_cast d2
  have hp : ∀ n : Nat, (0 : ℚ) < 2 ^ n := fun n => by positivity
  constructor
  · rw [pow2_eq, sub_sub, zpow_sub₀ (by norm_num)]
    have e : ((ld : Int) + 1) = ((ld + 1 : Nat) : Int) := by push_cast; ring
    rw [e, zpow_natCast, zpow_natCast, div_le_div_iff₀ (hp _) hDpos]
    calc (2 : ℚ) ^ ln * (D : ℚ)
        ≤ (N : ℚ) * (D : ℚ) := mul_le_mul_of_nonneg_right n1q hDpos.le
      _ ≤ (N : ℚ) * 2 ^ (ld + 1) := mul_le_mul_of_nonneg_left d2q.le (by positivity)
  · rw [pow2_eq, sub_add_eq_add_sub, zpow_sub₀ (by norm_num)]
    have e : ((ln : Int) + 1) = ((ln + 1 : Nat) : Int) := by push_cast; ring
    rw [e, zpow_natCast, zpow_natCast, div_lt_div_iff₀ hDpos (hp _)]
    calc (N : ℚ) * 2 ^ ld
        < 2 ^ (ln + 1) * 2 ^ ld := mul_lt_mul_of_pos_right n2q (hp _)
      _ ≤ 2 ^ (ln + 1) * (D : ℚ) := mul_le_mul_of_nonneg_left d1q (by positivity)

/-- For `a > 0`, `ilog2 a` is the exponent of the binade of `a`. -/
theorem ilog2_spec (a : ℚ) (ha : 0 < a) : pow2 (ilog2 a) ≤ a ∧ a < pow2 (ilog2 a + 1) := by
  have hnum : 0 < a.num := Rat.num_pos.mpr ha
  have hN : 1 ≤ a.num.natAbs := by omega
  have hD : 1 ≤ a.den := a.den_pos
  obtain ⟨n1, n2⟩ := log2_spec a.num.natAbs hN
  obtain ⟨d1, d2⟩ := log2_spec a.den hD
  have hval : (a.num.natAbs : ℚ) / (a.den : ℚ) = a := by
    have h1 : ((a.num.natAbs : Int) : ℚ) = (a.num : ℚ) := by
      rw [Int.natAbs_of_nonneg hnum.le]
    rw [← Int.cast_natCast a.num.natAbs, h1]
    exact Rat.num_div_den a
  obtain ⟨hlow, hhigh⟩ := quotient_bounds a.num.natAbs a.den _ _ hD n1 n2 d1 d2
  rw [hval] at hlow hhigh
  unfold ilog2
  simp only []
  split
  · rename_i h
    exact ⟨h, hhigh⟩
  · rename_i h
    refine ⟨hlow, ?_⟩
    rw [sub_add_cancel]
    exact not_le.mp h

/-- The exponent of the binade is monotone. -/
theorem ilog2_mono (a b : ℚ) (ha : 0 < a) (hab : a ≤ b) : ilog2 a ≤ ilog2 b := by
  by_contra h
  have h1 := (ilog2_spec a ha).1
  have h2 := (ilog2_spec b (lt_of_lt_of_le ha hab)).2
  have h3 := pow2_le (ilog2 b + 1) (ilog2 a) (by omega)
  linarith

/-- What the bitwise search returns when the root lies in `[r, r + 2 ^ k)`. -/
theorem isqrt_aux_spec : ∀ (k n r : Nat), r ^ 2 ≤ n → n < (r + 2 ^ k) ^ 2 →
    isqrt_aux k n r ^ 2 ≤ n ∧ n < (isqrt_aux k n r + 1) ^ 2 := by
  intro k
  induction k with
  | zero =>
    intro n r h1 h2
    simpa [isqrt_aux] using And.intro h1 h2
  | succ k ih =>
    intro n r h1 h2
    unfold isqrt_aux
    by_cases h : (r + 2 ^ k) ^ 2 ≤ n
    · simp only [h, if_true]
      refine ih n (r + 2 ^ k) h ?_
      have e : r + 2 ^ k + 2 ^ k = r + 2 ^ (k + 1) := by rw [pow_succ]; omega
      rw [e]
      exact h2
    · simp only [h, if_false]
      exact ih n r h1 (not_le.mp h)

/-- The integer square root: `isqrt n` is the largest `r` with `r ^ 2 ≤ n`. -/
theorem isqrt_spec (n : Nat) : isqrt n ^ 2 ≤ n ∧ n < (isqrt n + 1) ^ 2 := by
  unfold isqrt
  refine isqrt_aux_spec _ n 0 (by simp) ?_
  rw [Nat.zero_add, ← pow_mul]
  by_cases h : 1 ≤ n
  · refine lt_of_lt_of_le (log2_spec n h).2 (Nat.pow_le_pow_right (by norm_num) ?_)
    omega
  · have : n = 0 := by omega
    subst this
    positivity

theorem isqrt_mono (m n : Nat) (h : m ≤ n) : isqrt m ≤ isqrt n := by
  by_contra hlt
  have h1 := (isqrt_spec m).1
  have h2 := (isqrt_spec n).2
  have h3 : (isqrt n + 1) ^ 2 ≤ isqrt m ^ 2 := Nat.pow_le_pow_left (by omega) 2
  omega

theorem isqrt_lt (n b : Nat) (h : n < b ^ 2) : isqrt n < b := by
  by_contra hlt
  have h1 := (isqrt_spec n).1
  have h3 : b ^ 2 ≤ isqrt n ^ 2 := Nat.pow_le_pow_left (by omega) 2
  omega

theorem le_isqrt (n b : Nat) (h : b ^ 2 ≤ n) : b ≤ isqrt n := by
  by_contra hlt
  have h2 := (isqrt_spec n).2
  have h3 : (isqrt n + 1) ^ 2 ≤ b ^ 2 := Nat.pow_le_pow_left (by omega) 2
  omega

end B64

namespace B64

/-- The rounded root lies between the integer part of the root and its
successor. -/
theorem sqrt_rne_bounds (x : ℚ) :
    isqrt ⌊x⌋.toNat ≤ sqrt_rne x ∧ sqrt_rne x ≤ isqrt ⌊x⌋.toNat + 1 := by
  unfold sqrt_rne
  split
  · omega
  · split
    · omega
    · split <;> omega

/-- The rounding of the square root to an integer is monotone. -/
theorem sqrt_rne_mono (x y : ℚ) (hxy : x ≤ y) : sqrt_rne x ≤ sqrt_rne y := by
  have hf : isqrt ⌊x⌋.toNat ≤ isqrt ⌊y⌋.toNat :=
    isqrt_mono _ _ (Int.toNat_le_toNat (Int.floor_le_floor hxy))
  rcases Nat.lt_or_ge (isqrt ⌊x⌋.toNat) (isqrt ⌊y⌋.toNat) with hlt | hge
  · have h1 := (sqrt_rne_bounds x).2
    have h2 := (sqrt_rne_bounds y).1
    omega
  · have heq : isqrt ⌊x⌋.toNat = isqrt ⌊y⌋.toNat := le_antisymm hf hge
    unfold sqrt_rne
    rw [heq]
    by_cases h1 : y < ((isqrt ⌊y⌋.toNat : ℚ) + 1 / 2) ^ 2
    · have h2 : x < ((isqrt ⌊y⌋.toNat : ℚ) + 1 / 2) ^ 2 := lt_of_le_of_lt hxy h1
      simp only [h1, h2, if_true, le_refl]
    · by_cases h2 : x < ((isqrt ⌊y⌋.toNat : ℚ) + 1 / 2) ^ 2
      · simp only [h1, h2, if_true, if_false]
        split
        · omega
        · split <;> omega
      · by_cases h3 : ((isqrt ⌊y⌋.toNat : ℚ) + 1 / 2) ^ 2 < y
        · simp only [h1, h2, h3, if_true, if_false]
          split
          · omega
          · split <;> omega
        · have h4 : ¬ ((isqrt ⌊y⌋.toNat : ℚ) + 1 / 2) ^ 2 < x := fun h =>
            h3 (lt_of_lt_of_le h hxy)
          simp only [h1, h2, h3, h4, if_false, le_refl]

/-- Below `2 ^ 106` the rounded root is at most `2 ^ 53`. -/
theorem sqrt_rne_le (x : ℚ) (hx : x < pow2 106) : sqrt_rne x ≤ 2 ^ 53 := by
  have h1 := (sqrt_rne_bounds x).2
  have h2 : isqrt ⌊x⌋.toNat < 2 ^ 53 := by
    apply isqrt_lt
    rw [← pow_mul]
    by_cases h0 : 0 ≤ ⌊x⌋
    · have h3 : (⌊x⌋ : ℚ) < pow2 106 := lt_of_le_of_lt (Int.floor_le x) hx
      have h4 : pow2 106 = (((2 ^ 106 : Nat) : Int) : ℚ) := by
        rw [show (106 : Int) = ((106 : Nat) : Int) from rfl, pow2_nat]
        simp
      rw [h4, Int.cast_lt] at h3
      omega
    · have : ⌊x⌋.toNat = 0 := by omega
      rw [this]
      positivity
  omega

/-- From `2 ^ 104` on the rounded root is at least `2 ^ 52`. -/
theorem le_sqrt_rne (x : ℚ) (hx : pow2 104 ≤ x) : 2 ^ 52 ≤ sqrt_rne x := by
  have h1 := (sqrt_rne_bounds x).1
  have h2 : 2 ^ 52 ≤ isqrt ⌊x⌋.toNat := by
    apply le_isqrt
    rw [← pow_mul]
    have h4 : pow2 104 = (((2 ^ 104 : Nat) : Int) : ℚ) := by
      rw [show (104 : Int) = ((104 : Nat) : Int) from rfl, pow2_nat]
      simp
    rw [h4] at hx
    have h3 : ((2 ^ 104 : Nat) : Int) ≤ ⌊x⌋ := Int.le_floor.mpr hx
    omega
  omega

/-- The exponent of the last place of the root is monotone. -/
theorem sqrt_exp_mono (a b : ℚ) (ha : 0 < a) (hab : a ≤ b) : sqrt_exp a ≤ sqrt_exp b := by
  have h := ilog2_mono a b ha hab
  unfold sqrt_exp
  omega

/-- The scaled argument of the root is below `2 ^ 106`. -/
theorem sqrt_arg_lt (a : ℚ) (ha : 0 < a) : a / pow2 (2 * sqrt_exp a) < pow2 106 := by
  have h1 := (ilog2_spec a ha).2
  rw [div_lt_iff₀ (pow2_pos _), ← pow2_add]
  refine lt_of_lt_of_le h1 (pow2_le _ _ ?_)
  unfold sqrt_exp
  omega

/-- In the normal range the scaled argument of the root is at least `2 ^ 104`. -/
theorem le_sqrt_arg (a : ℚ) (ha : 0 < a) (he : -1074 < sqrt_exp a) :
    pow2 104 ≤ a / pow2 (2 * sqrt_exp a) := by
  have h1 := (ilog2_spec a ha).1
  rw [le_div_iff₀ (pow2_pos _), ← pow2_add]
  refine le_trans (pow2_le _ _ ?_) h1
  unfold sqrt_exp at he ⊢
  omega

theorem sqrt_round_nonneg (a : ℚ) : 0 ≤ sqrt_round a := by
  unfold sqrt_round
  split
  · exact le_refl 0
  · exact mul_nonneg (by positivity) (pow2_pos _).le

/-- The correctly rounded square root is monotone. -/
theorem sqrt_round_mono (a b : ℚ) (hab : a ≤ b) : sqrt_round a ≤ sqrt_round b := by
  by_cases ha : a ≤ 0
  · have : sqrt_round a = 0 := by simp [sqrt_round, ha]
    rw [this]
    exact sqrt_round_nonneg b
  · have hapos : 0 < a := not_le.mp ha
    have hbpos : 0 < b := lt_of_lt_of_le hapos hab
    have hb : ¬ b ≤ 0 := not_le.mpr hbpos
    have he := sqrt_exp_mono a b hapos hab
    simp only [sqrt_round, ha, hb, if_false]
    rcases lt_or_eq_of_le he with hlt | heq
    · have h1 : (sqrt_rne (a / pow2 (2 * sqrt_exp a)) : ℚ) ≤ pow2 53 := by
        have := sqrt_rne_le _ (sqrt_arg_lt a hapos)
        rw [show (53 : Int) = ((53 : Nat) : Int) from rfl, pow2_nat]
        exact_mod_cast this
      have hnorm : -1074 < sqrt_exp b := by
        have : -1074 ≤ sqrt_exp a := by unfold sqrt_exp; omega
        omega
      have h2 : pow2 52 ≤ (sqrt_rne (b / pow2 (2 * sqrt_exp b)) : ℚ) := by
        have := le_sqrt_rne _ (le_sqrt_arg b hbpos hnorm)
        rw [show (52 : Int) = ((52 : Nat) : Int) from rfl, pow2_nat]
        exact_mod_cast this
      calc (sqrt_rne (a / pow2 (2 * sqrt_exp a)) : ℚ) * pow2 (sqrt_exp a)
          ≤ pow2 53 * pow2 (sqrt_exp a) := mul_le_mul_of_nonneg_right h1 (pow2_pos _).le
        _ = pow2 (53 + sqrt_exp a) := (pow2_add _ _).symm
        _ ≤ pow2 (52 + sqrt_exp b) := pow2_le _ _ (by omega)
        _ = pow2 52 * pow2 (sqrt_exp b) := pow2_add _ _
        _ ≤ (sqrt_rne (b / pow2 (2 * sqrt_exp b)) : ℚ) * pow2 (sqrt_exp b) :=
          mul_le_mul_of_nonneg_right h2 (pow2_pos _).le
    · rw [heq]
      refine mul_le_mul_of_nonneg_right ?_ (pow2_pos _).le
      have : a / pow2 (2 * sqrt_exp b) ≤ b / pow2 (2 * sqrt_exp b) :=
        div_le_div_of_nonneg_right hab (pow2_pos _).le
      exact_mod_cast sqrt_rne_mono _ _ this

/-- The square root of zero is zero. -/
theorem sqrt_round_zero : sqrt_round 0 = 0 := by
  simp [sqrt_round]

end B64

/-! ## Comparisons and square roots of doubles -/

namespace B64

/-- No double is smaller than itself. -/
theorem lt_self (x : F64) : B64.lt x x = false := by
  cases x with
  | nan => rfl
  | fin u => cases u <;> simp [B64.lt, num_lt]

/-- The rounded square roots compare as their arguments do, or are equal. -/
theorem lt_of_sqrt_lt_sqrt (x y : F64)
    (h : B64.lt (B64.sqrt sqrt64 x) (B64.sqrt sqrt64 y) = true) : B64.lt x y = true := by
  cases x with
  | nan => simp [B64.sqrt, B64.lt] at h
  | fin u =>
    cases y with
    | nan => simp [B64.sqrt, B64.lt] at h
    | fin v =>
      cases u with
      | ninf => simp [B64.sqrt, B64.lt, num_neg] at h
      | pinf =>
        cases v with
        | ninf => simp [B64.sqrt, B64.lt, num_neg] at h
        | pinf => simp [B64.sqrt, B64.lt, num_neg, sqrt64, num_lt] at h
        | val b =>
          by_cases hb : b < 0
          · simp [B64.sqrt, B64.lt, num_neg, hb] at h
          · simp [B64.sqrt, B64.lt, num_neg, hb, sqrt64, num_lt] at h
      | val a =>
        cases v with
        | ninf => simp [B64.sqrt, B64.lt, num_neg] at h
        | pinf => simp [B64.lt, num_lt]
        | val b =>
          by_cases ha : a < 0
          · simp [B64.sqrt, B64.lt, num_neg, ha] at h
          · by_cases hb : b < 0
            · simp [B64.sqrt, B64.lt, num_neg, ha, hb] at h
            · simp only [B64.sqrt, num_neg, ha, hb, decide_False, Bool.false_eq_true, if_false,
                sqrt64, B64.lt, num_lt, decide_eq_true_eq] at h ⊢
              by_contra hle
              exact absurd h (not_lt.mpr (sqrt_round_mono b a (not_lt.mp hle)))

/-- A computed square root is not smaller than zero. -/
theorem sqrt_not_lt_zero (x : F64) : B64.lt (B64.sqrt sqrt64 x) (fin (Num64.val 0)) = false := by
  cases x with
  | nan => rfl
  | fin u =>
    cases u with
    | ninf => simp [B64.sqrt, B64.lt, num_neg]
    | pinf => simp [B64.sqrt, B64.lt, num_neg, sqrt64, num_lt]
    | val a =>
      by_cases ha : a < 0
      · simp [B64.sqrt, B64.lt, num_neg, ha]
      · simp [B64.sqrt, B64.lt, num_neg, ha, sqrt64, num_lt, sqrt_round_nonneg]

/-- Nothing is smaller than NaN. -/
theorem not_lt_nan (x : F64) : B64.lt x nan = false := by
  cases x <;> rfl

end B64

/-! ## Distances in binary64 -/

/-- A loop that reads two arrays of length `n` index by index visits the pairs
of their entries. -/
theorem range_map_rd {β : Type} (h : F64 → F64 → β) (v1 v2 : List F64) (n : Nat)
    (h1 : v1.length = n) (h2 : v2.length = n) :
    (List.range n).map (fun i => h (rd v1 i) (rd v2 i)) = List.zipWith h v1 v2 := by
  apply List.ext_getElem
  · simp [h1, h2]
  · intro i hi1 hi2
    simp only [List.length_map, List.length_range] at hi1
    simp [rd, List.getD_eq_getElem?_getD, List.getElem?_eq_getElem, h1, h2, hi1]

/-- The loop of `euclidean_distance` computes the sum of the squared
differences, and the function their square root. -/
theorem euclidean_distance_eq (sqrt : Num64 → Num64) (v1 v2 : List F64) (n : Nat)
    (h1 : v1.length = n) (h2 : v2.length = n) :
    B64.euclidean_distance sqrt v1 v2 n = fl_dist sqrt v1 v2 := by
  simp only [B64.euclidean_distance, Int.toNat_ofNat, fl_dist, fl_sumsq, fl_sum]
  rw [← range_map_rd fl_sqdiff v1 v2 n h1 h2, List.foldl_map]
  rfl

/-- In binary64 arithmetic `classify_packet` compares the two computed
distances. -/
theorem classify_packet_eq (sqrt : Num64 → Num64) (n : Nat)
    (features safe_mean bad_mean : List F64)
    (hf : features.length = n) (hs : safe_mean.length = n) (hb : bad_mean.length = n) :
    B64.classify_packet sqrt ⟨n, safe_mean, bad_mean⟩ features
      = (if B64.lt (fl_dist sqrt features safe_mean) (fl_dist sqrt features bad_mean)
          then 1 else 0) := by
  simp only [B64.classify_packet, euclidean_distance_eq sqrt features safe_mean n hf hs,
    euclidean_distance_eq sqrt features bad_mean n hf hb]

/-- Pairing a list with itself. -/
theorem zipWith_same {β γ : Type} (f : β → β → γ) (l : List β) :
    List.zipWith f l l = l.map fun x => f x x := by
  induction l with
  | nil => rfl
  | cons x l ih => simp [ih]

/-- The computed squared difference of a double and itself is zero, or NaN
when the double is not finite. -/
theorem fl_sqdiff_self (x : F64) : fl_sqdiff x x = dbl 0 ∨ fl_sqdiff x x = nan := by
  cases x with
  | nan => exact Or.inr rfl
  | fin u =>
    cases u with
    | ninf => exact Or.inr rfl
    | pinf => exact Or.inr rfl
    | val a =>
      left
      simp [fl_sqdiff, B64.sub, B64.mul, B64.round64, dbl]

/-- A running sum of zeros and NaNs is zero or NaN. -/
theorem fl_sum_zero_or_nan (xs : List F64) (h : ∀ x ∈ xs, x = dbl 0 ∨ x = nan) :
    ∀ a : F64, (a = dbl 0 ∨ a = nan) → (xs.foldl B64.add a = dbl 0 ∨ xs.foldl B64.add a = nan) := by
  induction xs with
  | nil => intro a ha; simpa using ha
  | cons x xs ih =>
    intro a ha
    rw [List.foldl_cons]
    refine ih (fun y hy => h y (by simp [hy])) _ ?_
    rcases ha with ha | ha <;> rcases h x (by simp) with hx | hx <;> subst ha <;> subst hx
    · left; simp [B64.add, B64.round64, dbl]
    · right; rfl
    · right; rfl
    · right; rfl

/-- The computed distance of a vector to itself is zero, or NaN. -/
theorem fl_dist_self (v : List F64) :
    fl_dist B64.sqrt64 v v = dbl 0 ∨ fl_dist B64.sqrt64 v v = nan := by
  have h := fl_sum_zero_or_nan (List.zipWith fl_sqdiff v v) (fun x hx => by
    rw [zipWith_same] at hx
    obtain ⟨y, _, rfl⟩ := List.mem_map.mp hx
    exact fl_sqdiff_self y) (dbl 0) (Or.inl rfl)
  unfold fl_dist fl_sumsq fl_sum
  rcases h with h | h
  · left
    rw [show (fin (Num64.val 0) : F64) = dbl 0 from rfl, h]
    simp [dbl, B64.sqrt, B64.num_neg, B64.sqrt64, B64.sqrt_round_zero]
  · right
    rw [show (fin (Num64.val 0) : F64) = dbl 0 from rfl, h]
    rfl

/-- The computed distance of a vector of finite doubles to itself is zero. -/
theorem fl_dist_self_finite (v : List F64) (hv : ∀ x ∈ v, ∃ q, x = dbl q) :
    fl_dist B64.sqrt64 v v = dbl 0 := by
  have hsum : ∀ (xs : List F64), (∀ x ∈ xs, x = dbl 0) → xs.foldl B64.add (dbl 0) = dbl 0 := by
    intro xs
    induction xs with
    | nil => intro _; rfl
    | cons x xs ih =>
      intro h
      rw [List.foldl_cons, h x (by simp)]
      have e : B64.add (dbl 0) (dbl 0) = dbl 0 := by simp [B64.add, B64.round64, dbl]
      rw [e]
      exact ih fun y hy => h y (by simp [hy])
  have h := hsum (List.zipWith fl_sqdiff v v) (fun x hx => by
    rw [zipWith_same] at hx
    obtain ⟨y, hy, rfl⟩ := List.mem_map.mp hx
    obtain ⟨q, rfl⟩ := hv y hy
    simp [fl_sqdiff, B64.sub, B64.mul, B64.round64, dbl])
  unfold fl_dist fl_sumsq fl_sum
  rw [show (fin (Num64.val 0) : F64) = dbl 0 from rfl, h]
  simp [dbl, B64.sqrt, B64.num_neg, B64.sqrt64, B64.sqrt_round_zero]

/-- In binary64 arithmetic the value of `classify_packet` is 0 or 1. -/
theorem b64_classify_packet_zero_or_one (sqrt : Num64 → Num64) (model : Model Num64)
    (features : List F64) :
    B64.classify_packet sqrt model features = 1 ∨ B64.classify_packet sqrt model features = 0 := by
  unfold B64.classify_packet
  simp only []
  split
  · exact Or.inl rfl
  · exact Or.inr rfl

/-! ## Sums of squares that are not zero -/

namespace B64

theorem floor_le_rne (t : ℚ) : ⌊t⌋ ≤ rne t := by
  unfold rne
  split
  · exact le_refl _
  · split
    · omega
    · split <;> omega

/-- The exponent of the last place is at least -1074. -/
theorem ulp_exp_ge (a : ℚ) : -1074 ≤ ulp_exp a := by
  unfold ulp_exp
  omega

/-- A positive number is at least the unit of its last place. -/
theorem pow2_ulp_exp_le (q : ℚ) (hq : pow2 (-1074) ≤ q) : pow2 (ulp_exp q) ≤ q := by
  have hpos : 0 < q := lt_of_lt_of_le (pow2_pos _) hq
  unfold ulp_exp
  rcases le_total (ilog2 q) (-1022) with h | h
  · rw [max_eq_right h]
    exact hq
  · rw [max_eq_left h]
    exact le_trans (pow2_le _ _ (by omega)) (ilog2_spec q hpos).1

/-- The rounding of a number that is not negative is 0, a number that is at
least `2 ^ -1074`, or the positive infinity. -/
theorem round64_nonneg (q : ℚ) (hq : 0 ≤ q) :
    round64 q = Num64.val 0 ∨ round64 q = Num64.pinf ∨
      ∃ r : ℚ, round64 q = Num64.val r ∧ pow2 (-1074) ≤ r := by
  unfold round64
  by_cases h0 : q = 0
  · left
    simp [h0]
  · have hpos : 0 < q := lt_of_le_of_ne hq (Ne.symm h0)
    have hneg : ¬ q < 0 := not_lt.mpr hq
    simp only [h0, if_false, hneg, abs_of_pos hpos]
    split
    · right; left; rfl
    · have hm : 0 ≤ rne (q / pow2 (ulp_exp q)) :=
        le_trans (Int.floor_nonneg.mpr (div_nonneg hq (pow2_pos _).le)) (floor_le_rne _)
      rcases lt_or_ge 0 (rne (q / pow2 (ulp_exp q))) with h1 | h1
      · right; right
        refine ⟨_, rfl, ?_⟩
        have h2 : (1 : ℚ) ≤ (rne (q / pow2 (ulp_exp q)) : ℚ) := by exact_mod_cast h1
        calc pow2 (-1074) ≤ pow2 (ulp_exp q) := pow2_le _ _ (ulp_exp_ge q)
          _ = 1 * pow2 (ulp_exp q) := (one_mul _).symm
          _ ≤ (rne (q / pow2 (ulp_exp q)) : ℚ) * pow2 (ulp_exp q) :=
            mul_le_mul_of_nonneg_right h2 (pow2_pos _).le
      · left
        have : rne (q / pow2 (ulp_exp q)) = 0 := le_antisymm h1 hm
        rw [this]
        simp

/-- The rounding of a number that is at least `2 ^ -1074` is at least
`2 ^ -1074`, or the positive infinity. -/
theorem round64_pos (q : ℚ) (hq : pow2 (-1074) ≤ q) :
    round64 q = Num64.pinf ∨ ∃ r : ℚ, round64 q = Num64.val r ∧ pow2 (-1074) ≤ r := by
  have hpos : 0 < q := lt_of_lt_of_le (pow2_pos _) hq
  rcases round64_nonneg q hpos.le with h | h | h
  · exfalso
    unfold round64 at h
    have h0 : q ≠ 0 := ne_of_gt hpos
    have hneg : ¬ q < 0 := not_lt.mpr hpos.le
    simp only [h0, if_false, hneg, abs_of_pos hpos] at h
    split at h
    · cases h
    · have h1 : (1 : ℚ) ≤ q / pow2 (ulp_exp q) := by
        rw [le_div_iff₀ (pow2_pos _), one_mul]
        exact pow2_ulp_exp_le q hq
      have h2 : 1 ≤ rne (q / pow2 (ulp_exp q)) :=
        le_trans (Int.le_floor.mpr (by exact_mod_cast h1)) (floor_le_rne _)
      have h3 : (0 : ℚ) < (rne (q / pow2 (ulp_exp q)) : ℚ) * pow2 (ulp_exp q) :=
        mul_pos (by exact_mod_cast h2) (pow2_pos _)
      simp only [Num64.val.injEq] at h
      linarith
  · exact Or.inl h
  · exact Or.inr h

/-- From `2 ^ -1022` on, rounding does not go below a power of two. -/
theorem round64_ge_pow2 (q : ℚ) (k : Int) (hk : -1022 ≤ k) (hq : pow2 k ≤ q) :
    round64 q = Num64.pinf ∨ ∃ r : ℚ, round64 q = Num64.val r ∧ pow2 k ≤ r := by
  have hpos : 0 < q := lt_of_lt_of_le (pow2_pos _) hq
  have h0 : q ≠ 0 := ne_of_gt hpos
  have hneg : ¬ q < 0 := not_lt.mpr hpos.le
  have hlog : k ≤ ilog2 q := by
    by_contra h
    have h1 := (ilog2_spec q hpos).2
    have h2 := pow2_le (ilog2 q + 1) k (by omega)
    linarith
  have he : ulp_exp q = ilog2 q - 52 := by
    unfold ulp_exp
    omega
  have h1 : pow2 52 ≤ q / pow2 (ulp_exp q) := by
    rw [le_div_iff₀ (pow2_pos _), ← pow2_add, he]
    have : (52 : Int) + (ilog2 q - 52) = ilog2 q := by ring
    rw [this]
    exact (ilog2_spec q hpos).1
  have h2 : ((2 ^ 52 : Nat) : Int) ≤ rne (q / pow2 (ulp_exp q)) := by
    refine le_trans (Int.le_floor.mpr ?_) (floor_le_rne _)
    rw [show (52 : Int) = ((52 : Nat) : Int) from rfl, pow2_nat] at h1
    exact_mod_cast h1
  have h3 : pow2 k ≤ (rne (q / pow2 (ulp_exp q)) : ℚ) * pow2 (ulp_exp q) := by
    have h4 : pow2 52 ≤ (rne (q / pow2 (ulp_exp q)) : ℚ) := by
      rw [show (52 : Int) = ((52 : Nat) : Int) from rfl, pow2_nat]
      exact_mod_cast h2
    calc pow2 k ≤ pow2 (ilog2 q) := pow2_le _ _ hlog
      _ = pow2 52 * pow2 (ulp_exp q) := by
        rw [← pow2_add, he]
        congr 1
        ring
      _ ≤ (rne (q / pow2 (ulp_exp q)) : ℚ) * pow2 (ulp_exp q) :=
        mul_le_mul_of_nonneg_right h4 (pow2_pos _).le
  unfold round64
  simp only [h0, if_false, hneg, abs_of_pos hpos]
  split
  · exact Or.inl rfl
  · exact Or.inr ⟨_, rfl, h3⟩

/-- Rounding commutes with the change of sign. -/
theorem round64_neg (q : ℚ) :
    round64 (-q) = match round64 q with
      | Num64.ninf => Num64.pinf
      | Num64.val r => Num64.val (-r)
      | Num64.pinf => Num64.ninf := by
  unfold round64
  by_cases h0 : q = 0
  · simp [h0]
  · have h0' : -q ≠ 0 := neg_ne_zero.mpr h0
    simp only [h0, h0', if_false, abs_neg]
    rcases lt_or_gt_of_ne h0 with hlt | hgt
    · have h1 : ¬ -q < 0 := by linarith
      simp only [hlt, h1, if_true, if_false]
      split <;> simp
    · have h1 : -q < 0 := by linarith
      have h2 : ¬ q < 0 := by linarith
      simp only [h1, h2, if_true, if_false]
      split <;> simp

/-- The rounded square root of a number that is at least `2 ^ -1074` is
positive. -/
theorem sqrt_round_pos (a : ℚ) (ha : pow2 (-1074) ≤ a) : 0 < sqrt_round a := by
  have hpos : 0 < a := lt_of_lt_of_le (pow2_pos _) ha
  have hle : ¬ a ≤ 0 := not_le.mpr hpos
  have hlog : -1074 ≤ ilog2 a := by
    by_contra h
    have h1 := (ilog2_spec a hpos).2
    have h2 := pow2_le (ilog2 a + 1) (-1074) (by omega)
    linarith
  have hexp : -1074 < sqrt_exp a := by
    unfold sqrt_exp
    omega
  have hm := le_sqrt_rne _ (le_sqrt_arg a hpos hexp)
  simp only [sqrt_round, hle, if_false]
  refine mul_pos ?_ (pow2_pos _)
  have : 0 < sqrt_rne (a / pow2 (2 * sqrt_exp a)) := lt_of_lt_of_le (by positivity) hm
  exact_mod_cast this

end B64

/-- The computed square of the difference of two finite doubles is zero or
positive. -/
theorem fl_sqdiff_finite (a b : ℚ) :
    fl_sqdiff (dbl a) (dbl b) = dbl 0 ∨ positive64 (fl_sqdiff (dbl a) (dbl b)) := by
  unfold fl_sqdiff
  have hsub : B64.sub (dbl a) (dbl b) = fin (B64.round64 (a - b)) := rfl
  rw [hsub]
  cases hd : B64.round64 (a - b) with
  | ninf => right; left; rfl
  | pinf => right; left; rfl
  | val d =>
    have hmul : B64.mul (fin (Num64.val d)) (fin (Num64.val d)) = fin (B64.round64 (d * d)) := rfl
    rw [hmul]
    rcases B64.round64_nonneg (d * d) (mul_self_nonneg d) with h | h | ⟨r, h, hr⟩
    · left; rw [h]; rfl
    · right; left; rw [h]
    · right; right; exact ⟨r, by rw [h]; rfl, hr⟩

/-- Adding a double that is zero or positive to a positive double gives a
positive double. -/
theorem add_positive_left (x y : F64) (hx : positive64 x) (hy : y = dbl 0 ∨ positive64 y) :
    positive64 (B64.add x y) := by
  have hpos : (0 : ℚ) < B64.pow2 (-1074) := B64.pow2_pos _
  rcases hx with rfl | ⟨s, rfl, hs⟩
  · rcases hy with rfl | rfl | ⟨t, rfl, _⟩ <;> exact Or.inl rfl
  · rcases hy with rfl | rfl | ⟨t, rfl, ht⟩
    · have e : B64.add (dbl s) (dbl 0) = fin (B64.round64 (s + 0)) := rfl
      rw [e]
      rcases B64.round64_pos (s + 0) (by linarith) with h | ⟨r, h, hr⟩
      · left; rw [h]
      · right; exact ⟨r, by rw [h]; rfl, hr⟩
    · exact Or.inl rfl
    · have e : B64.add (dbl s) (dbl t) = fin (B64.round64 (s + t)) := rfl
      rw [e]
      rcases B64.round64_pos (s + t) (by linarith) with h | ⟨r, h, hr⟩
      · left; rw [h]
      · right; exact ⟨r, by rw [h]; rfl, hr⟩

/-- Adding a positive double to zero gives a positive double. -/
theorem add_zero_positive (y : F64) (hy : positive64 y) : positive64 (B64.add (dbl 0) y) := by
  rcases hy with rfl | ⟨t, rfl, ht⟩
  · exact Or.inl rfl
  · have e : B64.add (dbl 0) (dbl t) = fin (B64.round64 (0 + t)) := rfl
    rw [e]
    rcases B64.round64_pos (0 + t) (by linarith) with h | ⟨r, h, hr⟩
    · left; rw [h]
    · right; exact ⟨r, by rw [h]; rfl, hr⟩

/-- A running sum of doubles that are zero or positive, from a positive double,
is positive. -/
theorem foldl_add_positive (xs : List F64) (h : ∀ x ∈ xs, x = dbl 0 ∨ positive64 x) :
    ∀ a : F64, positive64 a → positive64 (xs.foldl B64.add a) := by
  induction xs with
  | nil => intro a ha; exact ha
  | cons x xs ih =>
    intro a ha
    rw [List.foldl_cons]
    exact ih (fun y hy => h y (by simp [hy])) _ (add_positive_left a x ha (h x (by simp)))

/-- A running sum from 0.0 of doubles that are zero or positive is zero when
all of them are zero, and positive when one of them is not zero. -/
theorem fl_sum_zero_or_positive (xs : List F64) (h : ∀ x ∈ xs, x = dbl 0 ∨ positive64 x) :
    ((∀ x ∈ xs, x = dbl 0) → fl_sum xs = dbl 0) ∧
    ((∃ x ∈ xs, x ≠ dbl 0) → positive64 (fl_sum xs)) := by
  unfold fl_sum
  rw [show (fin (Num64.val 0) : F64) = dbl 0 from rfl]
  induction xs with
  | nil => exact ⟨fun _ => rfl, fun ⟨x, hx, _⟩ => by simp at hx⟩
  | cons x xs ih =>
    have ih' := ih fun y hy => h y (by simp [hy])
    rw [List.foldl_cons]
    constructor
    · intro hall
      rw [hall x (by simp)]
      have e : B64.add (dbl 0) (dbl 0) = dbl 0 := by simp [B64.add, B64.round64, dbl]
      rw [e]
      exact ih'.1 fun y hy => hall y (by simp [hy])
    · rintro ⟨y, hy, hne⟩
      rcases h x (by simp) with hx | hx
      · rw [hx]
        have e : B64.add (dbl 0) (dbl 0) = dbl 0 := by simp [B64.add, B64.round64, dbl]
        rw [e]
        refine ih'.2 ⟨y, ?_, hne⟩
        rcases List.mem_cons.mp hy with rfl | hy
        · exact absurd hx hne
        · exact hy
      · exact foldl_add_positive xs (fun z hz => h z (by simp [hz])) _ (add_zero_positive x hx)

/-- The computed square root of a positive double is greater than zero. -/
theorem zero_lt_sqrt_positive (x : F64) (hx : positive64 x) :
    B64.lt (dbl 0) (B64.sqrt B64.sqrt64 x) = true := by
  rcases hx with rfl | ⟨t, rfl, ht⟩
  · rfl
  · have hpos : (0 : ℚ) < t := lt_of_lt_of_le (B64.pow2_pos _) ht
    have hneg : ¬ t < 0 := not_lt.mpr hpos.le
    simp [dbl, B64.sqrt, B64.num_neg, hneg, B64.sqrt64, B64.lt, B64.num_lt,
      B64.sqrt_round_pos t ht]

/-- The computed distance of two vectors of `n` finite doubles is greater than
zero exactly when the computed square of the difference of one of their
coordinates is not zero. -/
theorem fl_dist_pos_iff (n : Nat) (x y : List F64) (hx : x.length = n) (hy : y.length = n)
    (hxf : ∀ a ∈ x, ∃ q, a = dbl q) (hyf : ∀ a ∈ y, ∃ q, a = dbl q) :
    B64.lt (dbl 0) (fl_dist B64.sqrt64 x y) = true ↔
      ∃ i, i < n ∧ fl_sqdiff (rd x i) (rd y i) ≠ dbl 0 := by
  have hterms : ∀ t ∈ List.zipWith fl_sqdiff x y, t = dbl 0 ∨ positive64 t := by
    intro t ht
    rw [← range_map_rd fl_sqdiff x y n hx hy] at ht
    obtain ⟨i, hi, rfl⟩ := List.mem_map.mp ht
    have hi' : i < n := List.mem_range.mp hi
    have h1 : rd x i ∈ x := by
      rw [rd, List.getD_eq_getElem?_getD, List.getElem?_eq_getElem (by omega)]
      exact List.getElem_mem _
    have h2 : rd y i ∈ y := by
      rw [rd, List.getD_eq_getElem?_getD, List.getElem?_eq_getElem (by omega)]
      exact List.getElem_mem _
    obtain ⟨a, ha⟩ := hxf _ h1
    obtain ⟨b, hb⟩ := hyf _ h2
    rw [ha, hb]
    exact fl_sqdiff_finite a b
  have hsum := fl_sum_zero_or_positive _ hterms
  have hmem : (∃ t ∈ List.zipWith fl_sqdiff x y, t ≠ dbl 0) ↔
      ∃ i, i < n ∧ fl_sqdiff (rd x i) (rd y i) ≠ dbl 0 := by
    rw [← range_map_rd fl_sqdiff x y n hx hy]
    constructor
    · rintro ⟨t, ht, hne⟩
      obtain ⟨i, hi, rfl⟩ := List.mem_map.mp ht
      exact ⟨i, List.mem_range.mp hi, hne⟩
    · rintro ⟨i, hi, hne⟩
      exact ⟨_, List.mem_map.mpr ⟨i, List.mem_range.mpr hi, rfl⟩, hne⟩
  rw [← hmem]
  unfold fl_dist fl_sumsq
  constructor
  · intro hlt
    by_contra hnone
    have hall : ∀ t ∈ List.zipWith fl_sqdiff x y, t = dbl 0 := by
      intro t ht
      by_contra hne
      exact hnone ⟨t, ht, hne⟩
    rw [hsum.1 hall] at hlt
    revert hlt
    simp [dbl, B64.sqrt, B64.num_neg, B64.sqrt64, B64.sqrt_round_zero, B64.lt, B64.num_lt]
  · intro hex
    exact zero_lt_sqrt_positive _ (hsum.2 hex)

/-- The computed square of a difference of at least `2 ^ -537` is not zero. -/
theorem fl_sqdiff_ne_zero (a b : ℚ) (h : B64.pow2 (-537) ≤ |a - b|) :
    fl_sqdiff (dbl a) (dbl b) ≠ dbl 0 := by
  have hkey : ∀ q : ℚ, B64.pow2 (-537) ≤ q →
      B64.mul (fin (B64.round64 q)) (fin (B64.round64 q)) ≠ dbl 0 ∧
      B64.mul (fin (B64.round64 (-q))) (fin (B64.round64 (-q))) ≠ dbl 0 := by
    intro q hq
    have hsq : ∀ r : ℚ, B64.pow2 (-537) ≤ r → B64.round64 (r * r) ≠ Num64.val 0 := by
      intro r hr
      have h1 : B64.pow2 (-1074) ≤ r * r := by
        have e : B64.pow2 (-1074) = B64.pow2 (-537) * B64.pow2 (-537) := by
          rw [← B64.pow2_add]
          rfl
        rw [e]
        exact mul_le_mul hr hr (B64.pow2_pos _).le (le_trans (B64.pow2_pos _).le hr)
      have hp := B64.pow2_pos (-1074)
      rcases B64.round64_pos (r * r) h1 with h2 | ⟨t, h2, ht⟩
      · rw [h2]
        simp
      · rw [h2]
        simp only [ne_eq, Num64.val.injEq]
        linarith
    rw [B64.round64_neg]
    rcases B64.round64_ge_pow2 q (-537) (by decide) hq with h1 | ⟨r, h1, hr⟩
    · rw [h1]
      exact ⟨by simp [B64.mul, dbl, B64.inf_of_sign, B64.num_neg],
        by simp [B64.mul, dbl, B64.inf_of_sign, B64.num_neg]⟩
    · rw [h1]
      constructor
      · have e : B64.mul (fin (Num64.val r)) (fin (Num64.val r)) = fin (B64.round64 (r * r)) :=
          rfl
        rw [e]
        intro hc
        exact hsq r hr (by simpa [dbl] using hc)
      · have e : B64.mul (fin (Num64.val (-r))) (fin (Num64.val (-r)))
            = fin (B64.round64 (r * r)) := by
          simp [B64.mul]
        rw [e]
        intro hc
        exact hsq r hr (by simpa [dbl] using hc)
  unfold fl_sqdiff
  have hsub : B64.sub (dbl a) (dbl b) = fin (B64.round64 (a - b)) := rfl
  rw [hsub]
  rcases le_total 0 (a - b) with hnn | hnp
  · rw [abs_of_nonneg hnn] at h
    exact (hkey (a - b) h).1
  · rw [abs_of_nonpos hnp] at h
    have := (hkey (-(a - b)) h).2
    rwa [neg_neg] at this

/-- C14, amended. In binary64 arithmetic, with the correctly rounded square
root, for a model with `n` features: `classify_packet` returns 0 (malicious) on
`bad_mean`, whatever the centroids are. When the entries of `safe_mean` are
finite it returns 1 (safe) on `safe_mean` exactly when the distance that
`euclidean_distance` computes between the two centroids is greater than zero;
when the entries of both centroids are finite, this is the case exactly when,
for some coordinate, the computed square of the difference of the two
centroids is not zero, and so it is when the centroids differ by `2 ^ -537` or
more in some coordinate. -/
theorem classify_packet_own_centroid (n : Nat) (safe_mean bad_mean : List F64)
    (hs : safe_mean.length = n) (hb : bad_mean.length = n) :
    B64.classify_packet B64.sqrt64 ⟨n, safe_mean, bad_mean⟩ bad_mean = 0 ∧
    ((∀ x ∈ safe_mean, ∃ q, x = dbl q) →
      (B64.classify_packet B64.sqrt64 ⟨n, safe_mean, bad_mean⟩ safe_mean = 1 ↔
        B64.lt (dbl 0) (fl_dist B64.sqrt64 safe_mean bad_mean) = true)) ∧
    ((∀ x ∈ safe_mean, ∃ q, x = dbl q) → (∀ x ∈ bad_mean, ∃ q, x = dbl q) →
      (B64.classify_packet B64.sqrt64 ⟨n, safe_mean, bad_mean⟩ safe_mean = 1 ↔
        ∃ i, i < n ∧ fl_sqdiff (rd safe_mean i) (rd bad_mean i) ≠ dbl 0) ∧
      ((∃ (i : Nat) (a b : ℚ), i < n ∧ rd safe_mean i = dbl a ∧ rd bad_mean i = dbl b ∧
          B64.pow2 (-537) ≤ |a - b|) →
        B64.classify_packet B64.sqrt64 ⟨n, safe_mean, bad_mean⟩ safe_mean = 1)) := by
  have hsafe : (∀ x ∈ safe_mean, ∃ q, x = dbl q) →
      (B64.classify_packet B64.sqrt64 ⟨n, safe_mean, bad_mean⟩ safe_mean = 1 ↔
        B64.lt (dbl 0) (fl_dist B64.sqrt64 safe_mean bad_mean) = true) := by
    intro hfin
    rw [classify_packet_eq B64.sqrt64 n safe_mean safe_mean bad_mean hs hs hb,
      fl_dist_self_finite safe_mean hfin]
    by_cases h : B64.lt (dbl 0) (fl_dist B64.sqrt64 safe_mean bad_mean) = true
    · simp [h]
    · simp [h]
  refine ⟨?_, hsafe, fun hfs hfb => ?_⟩
  · rw [classify_packet_eq B64.sqrt64 n bad_mean safe_mean bad_mean hb hs hb]
    rcases fl_dist_self bad_mean with h | h
    · rw [h]
      unfold fl_dist
      rw [show dbl 0 = fin (Num64.val 0) from rfl, B64.sqrt_not_lt_zero]
      rfl
    · rw [h, B64.not_lt_nan]
      rfl
  · have hiff := (hsafe hfs).trans (fl_dist_pos_iff n safe_mean bad_mean hs hb hfs hfb)
    refine ⟨hiff, ?_⟩
    rintro ⟨i, a, b, hi, ha, hb', hgap⟩
    refine hiff.mpr ⟨i, hi, ?_⟩
    rw [ha, hb']
    exact fl_sqdiff_ne_zero a b hgap

/-! ## Integers: arithmetic without rounding -/

namespace B64

/-- An integer is rounded to itself. -/
theorem rne_intCast (m : Int) : rne (m : ℚ) = m := by
  unfold rne
  simp

/-- The natural numbers below `2 ^ 53` are binary64 numbers. -/
theorem round64_natCast (n : Nat) (h : n < 2 ^ 53) : round64 (n : ℚ) = Num64.val (n : ℚ) := by
  by_cases h0 : n = 0
  · simp [h0, round64]
  · have hn : 1 ≤ n := by omega
    have hq : (0 : ℚ) < (n : ℚ) := by exact_mod_cast hn
    have hq0 : (n : ℚ) ≠ 0 := ne_of_gt hq
    have hneg : ¬ (n : ℚ) < 0 := not_lt.mpr hq.le
    obtain ⟨k1, k2⟩ := ilog2_spec (n : ℚ) hq
    have hk0 : 0 ≤ ilog2 (n : ℚ) := by
      by_contra hlt
      have h1 : pow2 (ilog2 (n : ℚ) + 1) ≤ pow2 0 := pow2_le _ _ (by omega)
      have h2 : pow2 0 = 1 := by simp [pow2]
      have h3 : (1 : ℚ) ≤ (n : ℚ) := by exact_mod_cast hn
      linarith
    have hk52 : ilog2 (n : ℚ) ≤ 52 := by
      by_contra hlt
      have h1 : pow2 53 ≤ pow2 (ilog2 (n : ℚ)) := pow2_le _ _ (by omega)
      have h2 : (n : ℚ) < pow2 53 := by
        rw [show (53 : Int) = ((53 : Nat) : Int) from rfl, pow2_nat]
        exact_mod_cast h
      linarith
    obtain ⟨j, hj⟩ : ∃ j : Nat, ulp_exp (n : ℚ) = -(j : Int) :=
      ⟨(52 - ilog2 (n : ℚ)).toNat, by unfold ulp_exp; omega⟩
    have hpow : pow2 (-(j : Int)) = 1 / ((2 ^ j : Nat) : ℚ) := by
      rw [pow2_eq, zpow_neg, zpow_natCast]
      simp
    have hscaled : (n : ℚ) / pow2 (-(j : Int)) = (((n * 2 ^ j : Nat) : Int) : ℚ) := by
      rw [hpow]
      push_cast
      field_simp
    have hover : ¬ pow2 1024 ≤ (n : ℚ) := by
      rw [not_le]
      have h1 : (n : ℚ) < ((2 ^ 53 : Nat) : ℚ) := by exact_mod_cast h
      have h2 : pow2 53 ≤ pow2 1024 := pow2_le _ _ (by decide)
      rw [show (53 : Int) = ((53 : Nat) : Int) from rfl, pow2_nat] at h2
      linarith
    unfold round64
    simp only [hq0, if_false, hneg, abs_of_pos hq, hj, hscaled, rne_intCast]
    have hr : ((((n * 2 ^ j : Nat) : Int) : ℚ)) * pow2 (-(j : Int)) = (n : ℚ) := by
      rw [hpow]
      push_cast
      field_simp
    rw [hr]
    simp [hover]

/-- The integers of magnitude below `2 ^ 53` are binary64 numbers. -/
theorem round64_intCast (z : Int) (h : z.natAbs < 2 ^ 53) :
    round64 (z : ℚ) = Num64.val (z : ℚ) := by
  obtain ⟨m, rfl | rfl⟩ := Int.eq_nat_or_neg z
  · simp only [Int.natAbs_ofNat] at h
    exact_mod_cast round64_natCast m h
  · simp only [Int.natAbs_neg, Int.natAbs_ofNat] at h
    have e : ((-(m : Int) : Int) : ℚ) = -(m : ℚ) := by push_cast; rfl
    rw [e, round64_neg, round64_natCast m h]

end B64

/-- The running sum of integers is not rounded as long as the magnitudes of the
partial sums stay below `2 ^ 53`. -/
theorem fl_sum_integers (M : Nat) : ∀ (zs : List Int) (acc : Int),
    (∀ z ∈ zs, z.natAbs ≤ M) → acc.natAbs + zs.length * M < 2 ^ 53 →
    (zs.map dbz).foldl B64.add (dbz acc) = dbz (acc + zs.sum) := by
  intro zs
  induction zs with
  | nil => intro acc _ _; simp
  | cons z zs ih =>
    intro acc hz hbound
    have hzM := hz z (by simp)
    simp only [List.length_cons, Nat.add_mul, Nat.one_mul] at hbound
    have h3 : B64.add (dbz acc) (dbz z) = dbz (acc + z) := by
      have e : (acc : ℚ) + (z : ℚ) = ((acc + z : Int) : ℚ) := by push_cast; rfl
      simp only [dbz, dbl, B64.add, e]
      rw [B64.round64_intCast (acc + z) (by omega)]
    simp only [List.map_cons, List.foldl_cons, List.sum_cons]
    rw [h3, ih (acc + z) (fun w hw => hz w (by simp [hw])) (by omega)]
    congr 1
    ring

/-! ## compute_statistics in binary64 -/

/-- The two nested loops that add a term per row to every column: entry `j`
becomes the running sum of the terms of column `j`, in row order. -/
theorem accumulate_rows (d : Nat → Nat → F64) (init : Nat → F64) (tail : List F64)
    (cols : Nat) : ∀ r : Nat,
    (List.range r).foldl
      (fun m i => (List.range cols).foldl (fun m j => m.set j (B64.add (rd m j) (d i j))) m)
      ((List.range cols).map init ++ tail)
    = (List.range cols).map
        (fun j => ((List.range r).map fun i => d i j).foldl B64.add (init j)) ++ tail := by
  intro r
  induction r with
  | zero => simp
  | succ r ih =>
    rw [List.range_succ, List.foldl_append, ih]
    simp only [List.foldl_cons, List.foldl_nil]
    have h := tab_loop_full (fun j x => B64.add x (d r j))
      (fun j => ((List.range r).map fun i => d i j).foldl B64.add (init j)) tail cols
    simp only [] at h
    rw [h]
    congr 1
    refine List.map_congr_left fun j _ => ?_
    simp [List.foldl_append]

/-- Reading a dataset row by row at column `j` gives column `j`. -/
theorem range_map_rd2 (data : List (List F64)) (j : Nat) :
    (List.range data.length).map (fun i => rd2 data i j) = column data j := by
  apply List.ext_getElem
  · simp [column]
  · intro i hi1 hi2
    simp only [List.length_map, List.length_range] at hi1
    simp [column, rd2, List.getD_eq_getElem?_getD, List.getElem?_eq_getElem, hi1]

/-- In binary64 arithmetic compute_statistics stores in `mean[j]`, for
`j < cols`, the quotient by `rows` of the running sum of column `j`, and in
`stddev[j]` the square root of the quotient by `rows` of the running sum of the
computed squared deviations of column `j` from `mean[j]`; it leaves the rest of
the two buffers as they were. -/
theorem compute_statistics_columns (sqrt : Num64 → Num64) (data : List (List F64))
    (cols : Nat) (mean stddev : List F64)
    (hmean : cols ≤ mean.length) (hstd : cols ≤ stddev.length) :
    B64.compute_statistics sqrt data data.length cols mean stddev
      = ((List.range cols).map
            (fun j => B64.divInt (fl_sum (column data j)) data.length) ++ mean.drop cols,
         (List.range cols).map
            (fun j => B64.sqrt sqrt (B64.divInt
              (fl_sum ((column data j).map fun x =>
                fl_sqdiff x (B64.divInt (fl_sum (column data j)) data.length)))
              data.length)) ++ stddev.drop cols) := by
  have hsum := accumulate_rows (fun i j => rd2 data i j) (fun _ => fin (Num64.val 0))
    (mean.drop cols) cols data.length
  have hdiv := tab_loop_full (fun _ x => B64.divInt x (data.length : Int))
    (fun j => fl_sum (column data j)) (mean.drop cols) cols
  have hsq := accumulate_rows
    (fun i j => B64.mul
      (B64.sub (rd2 data i j)
        (rd ((List.range cols).map
          (fun j => B64.divInt (fl_sum (column data j)) data.length) ++ mean.drop cols) j))
      (B64.sub (rd2 data i j)
        (rd ((List.range cols).map
          (fun j => B64.divInt (fl_sum (column data j)) data.length) ++ mean.drop cols) j)))
    (fun _ => fin (Num64.val 0)) (stddev.drop cols) cols data.length
  have hroot := tab_loop_full (fun _ x => B64.sqrt sqrt (B64.divInt x (data.length : Int)))
    (fun j => fl_sum ((column data j).map fun x =>
      fl_sqdiff x (B64.divInt (fl_sum (column data j)) data.length))) (stddev.drop cols) cols
  have hcols : (List.range cols).map
      (fun j => ((List.range data.length).map fun i => rd2 data i j).foldl B64.add
        (fin (Num64.val 0)))
      = (List.range cols).map (fun j => fl_sum (column data j)) := by
    refine List.map_congr_left fun j _ => ?_
    rw [range_map_rd2]
    rfl
  have hdev : (List.range cols).map
      (fun j => ((List.range data.length).map fun i => B64.mul
        (B64.sub (rd2 data i j)
          (rd ((List.range cols).map
            (fun j => B64.divInt (fl_sum (column data j)) data.length) ++ mean.drop cols) j))
        (B64.sub (rd2 data i j)
          (rd ((List.range cols).map
            (fun j => B64.divInt (fl_sum (column data j)) data.length) ++ mean.drop cols) j))).foldl
        B64.add (fin (Num64.val 0)))
      = (List.range cols).map (fun j => fl_sum ((column data j).map fun x =>
          fl_sqdiff x (B64.divInt (fl_sum (column data j)) data.length))) := by
    refine List.map_congr_left fun j hj => ?_
    rw [rd_tab _ _ cols j (List.mem_range.mp hj), ← range_map_rd2, List.map_map]
    rfl
  simp only [] at hsum hdiv hsq hroot
  simp only [B64.compute_statistics, Int.toNat_ofNat, init_loop]
  rw [cleared_eq_tab _ mean cols hmean, cleared_eq_tab _ stddev cols hstd, hsum, hcols, hdiv,
    hsq, hdev, hroot]

/-- C11, amended. In binary64 arithmetic, for a dataset of `rows` rows,
compute_statistics sets `mean[j]`, for every `j < cols`, to the quotient by
`rows` of the sum of column `j` as the loop computes it: from 0.0, in row
order, every addition and the division rounded to binary64. It writes exactly
these `cols` entries of `mean`. When the dataset has at least one row and its
entries are integers of magnitude at most `M` with `rows * M < 2 ^ 53`, no
addition is rounded and `mean[j]` is the double nearest to the arithmetic
average of column `j`. -/
theorem compute_statistics_mean_rounded (sqrt : Num64 → Num64) (data : List (List F64))
    (rows cols : Nat) (mean stddev : List F64)
    (hrows : data.length = rows)
    (hmean : cols ≤ mean.length) (hstd : cols ≤ stddev.length) :
    (B64.compute_statistics sqrt data rows cols mean stddev).1
      = (List.range cols).map (fun j => B64.divInt (fl_sum (column data j)) rows)
          ++ mean.drop cols ∧
    (∀ (M : Nat) (a : List (List Int)), data = a.map (fun row => row.map dbz) →
      (∀ row ∈ a, row.length = cols ∧ ∀ z ∈ row, z.natAbs ≤ M) →
      1 ≤ rows → rows * M < 2 ^ 53 → ∀ j, j < cols →
      rd (B64.compute_statistics sqrt data rows cols mean stddev).1 j
        = nearest (((a.map fun row => row.getD j 0).sum : Int) / (rows : ℚ))) := by
  subst hrows
  have hfst : (B64.compute_statistics sqrt data data.length cols mean stddev).1
      = (List.range cols).map (fun j => B64.divInt (fl_sum (column data j)) data.length)
          ++ mean.drop cols := by
    rw [compute_statistics_columns sqrt data cols mean stddev hmean hstd]
  refine ⟨hfst, ?_⟩
  intro M a hdata hrect hpos hbound j hj
  rw [hfst, rd_tab _ _ cols j hj]
  have hlen : data.length = a.length := by rw [hdata, List.length_map]
  have hcol : column data j = (a.map fun row => row.getD j 0).map dbz := by
    rw [hdata, column, List.map_map, List.map_map]
    refine List.map_congr_left fun row hrow => ?_
    have hjr : j < row.length := by rw [(hrect row hrow).1]; exact hj
    simp [rd, List.getD_eq_getElem?_getD, List.getElem?_eq_getElem, hjr]
  have hsum := fl_sum_integers M (a.map fun row => row.getD j 0) 0
    (fun z hz => by
      obtain ⟨row, hrow, rfl⟩ := List.mem_map.mp hz
      have hjr : j < row.length := by rw [(hrect row hrow).1]; exact hj
      rw [List.getD_eq_getElem?_getD, List.getElem?_eq_getElem hjr, Option.getD_some]
      exact (hrect row hrow).2 _ (List.getElem_mem _))
    (by
      rw [List.length_map, ← hlen]
      simpa using hbound)
  rw [zero_add] at hsum
  have hr0 : ((data.length : Nat) : Int) ≠ 0 := by omega
  unfold fl_sum
  rw [hcol, show (fin (Num64.val 0) : F64) = dbz 0 by simp [dbz, dbl], hsum]
  simp [dbz, dbl, B64.divInt, hr0, nearest]

/-- C12, amended. In binary64 arithmetic, for a dataset of `rows` rows,
compute_statistics sets `stddev[j]`, for every `j < cols`, to the square root
of the quotient by `rows` (not by `rows - 1`) of the sum, as the loop computes
it, of the computed squares of the differences between the entries of column
`j` and the computed mean of the column: every subtraction, multiplication,
addition, the division and the square root rounded to binary64. It writes no
other entry of `stddev`. -/
theorem compute_statistics_stddev_rounded (sqrt : Num64 → Num64) (data : List (List F64))
    (rows cols : Nat) (mean stddev : List F64)
    (hrows : data.length = rows)
    (hmean : cols ≤ mean.length) (hstd : cols ≤ stddev.length) :
    (B64.compute_statistics sqrt data rows cols mean stddev).2
      = (List.range cols).map
          (fun j => B64.sqrt sqrt (B64.divInt
            (fl_sum ((column data j).map fun x =>
              fl_sqdiff x (B64.divInt (fl_sum (column data j)) rows)))
            rows)) ++ stddev.drop cols := by
  subst hrows
  rw [compute_statistics_columns sqrt data cols mean stddev hmean hstd]

/-! ## Constant columns -/

/-- The running sum of `m` copies of `x`, when no partial sum is rounded. -/
theorem fl_sum_replicate (x : ℚ) (n : Nat)
    (h : ∀ k : Nat, 1 ≤ k → k ≤ n → B64.round64 (k * x) = Num64.val (k * x)) :
    ∀ m : Nat, m ≤ n → fl_sum (List.replicate m (dbl x)) = dbl (m * x) := by
  intro m
  induction m with
  | zero => intro _; simp [fl_sum, dbl]
  | succ m ih =>
    intro hm
    have ih' := ih (by omega)
    unfold fl_sum at ih' ⊢
    rw [List.replicate_succ', List.foldl_append, ih']
    have e : (m : ℚ) * x + x = ((m + 1 : Nat) : ℚ) * x := by push_cast; ring
    simp only [List.foldl_cons, List.foldl_nil, dbl, B64.add, e]
    rw [h (m + 1) (by omega) hm]

/-- A column of a dataset whose rows are all equal. -/
theorem column_replicate (row : List F64) (rows j : Nat) :
    column (List.replicate rows row) j = List.replicate rows (rd row j) := by
  simp [column]

/-- C13, amended. In binary64 arithmetic, on a dataset of `rows ≥ 1` rows that
are all equal to the vector `v` of finite doubles, compute_statistics returns
`v` as the mean and the zero vector as the standard deviation (the square root
of 0 being 0), in the first `v.length` entries of the two buffers, provided no
partial sum of a column is rounded: the multiples `k * x` of every entry `x` of
`v`, for `k` from 1 to `rows`, are binary64 numbers. -/
theorem compute_statistics_constant_exact (sqrt : Num64 → Num64) (v : List ℚ) (rows : Nat)
    (mean stddev : List F64)
    (hsqrt : sqrt (Num64.val 0) = Num64.val 0) (hrows : 1 ≤ rows)
    (hexact : ∀ x ∈ v, ∀ k : Nat, 1 ≤ k → k ≤ rows →
      B64.round64 (k * x) = Num64.val (k * x))
    (hmean : v.length ≤ mean.length) (hstd : v.length ≤ stddev.length) :
    B64.compute_statistics sqrt (List.replicate rows (v.map dbl)) rows v.length mean stddev
      = (v.map dbl ++ mean.drop v.length,
         List.replicate v.length (dbl 0) ++ stddev.drop v.length) := by
  have h := compute_statistics_columns sqrt (List.replicate rows (v.map dbl)) v.length
    mean stddev hmean hstd
  rw [List.length_replicate] at h
  rw [h]
  have hr0 : (rows : Int) ≠ 0 := by omega
  have hrq : (rows : ℚ) ≠ 0 := by
    have : (0 : ℚ) < (rows : ℚ) := by exact_mod_cast hrows
    exact ne_of_gt this
  have hzero : ∀ k : Nat, 1 ≤ k → k ≤ rows → B64.round64 ((k : ℚ) * 0) = Num64.val ((k : ℚ) * 0) := by
    intro k _ _
    simp [B64.round64]
  have hcol : ∀ j, j < v.length →
      B64.divInt (fl_sum (column (List.replicate rows (v.map dbl)) j)) (rows : Int)
        = dbl (v.getD j 0) := by
    intro j hj
    have hx : v.getD j 0 ∈ v := by
      rw [List.getD_eq_getElem?_getD, List.getElem?_eq_getElem hj]
      exact List.getElem_mem _
    have hrd : rd (v.map dbl) j = dbl (v.getD j 0) := by
      simp [rd, List.getD_eq_getElem?_getD, List.getElem?_eq_getElem, hj]
    rw [column_replicate, hrd, fl_sum_replicate _ rows (hexact _ hx) rows le_rfl]
    have e : (rows : ℚ) * v.getD j 0 / (rows : ℚ) = ((1 : Nat) : ℚ) * v.getD j 0 := by
      field_simp
    simp only [dbl, B64.divInt, hr0, if_false, Int.cast_natCast, e]
    rw [hexact _ hx 1 le_rfl hrows]
    simp
  have hdev : ∀ j, j < v.length →
      B64.sqrt sqrt (B64.divInt
        (fl_sum ((column (List.replicate rows (v.map dbl)) j).map fun x =>
          fl_sqdiff x (B64.divInt (fl_sum (column (List.replicate rows (v.map dbl)) j))
            (rows : Int)))) (rows : Int)) = dbl 0 := by
    intro j hj
    have hrd : rd (v.map dbl) j = dbl (v.getD j 0) := by
      simp [rd, List.getD_eq_getElem?_getD, List.getElem?_eq_getElem, hj]
    have hsq : fl_sqdiff (dbl (v.getD j 0)) (dbl (v.getD j 0)) = dbl 0 := by
      simp [fl_sqdiff, B64.sub, B64.mul, B64.round64, dbl]
    rw [hcol j hj, column_replicate, hrd, List.map_replicate, hsq]
    have hs := fl_sum_replicate 0 rows hzero rows le_rfl
    rw [hs]
    simp [dbl, B64.divInt, hr0, B64.round64, B64.sqrt, B64.num_neg, hsqrt]
  congr 1
  · congr 1
    apply List.ext_getElem
    · simp
    · intro i h1 h2
      simp only [List.length_map, List.length_range] at h1
      simp only [List.getElem_map, List.getElem_range]
      rw [hcol i h1, List.getD_eq_getElem?_getD, List.getElem?_eq_getElem h1]
      rfl
  · congr 1
    apply List.ext_getElem
    · simp
    · intro i h1 h2
      simp only [List.length_map, List.length_range] at h1
      simp only [List.getElem_map, List.getElem_range, List.getElem_replicate]
      exact hdev i h1

namespace B64

/-- The rounded root `m` of `x ≥ 1` is within a half of the root:
`(m - 1/2) ^ 2 ≤ x ≤ (m + 1/2) ^ 2`. -/
theorem sqrt_rne_sq (x : ℚ) (hx : 1 ≤ x) :
    1 ≤ sqrt_rne x ∧ ((sqrt_rne x : ℚ) - 1 / 2) ^ 2 ≤ x ∧ x ≤ ((sqrt_rne x : ℚ) + 1 / 2) ^ 2 := by
  have hfl : (1 : Int) ≤ ⌊x⌋ := Int.le_floor.mpr (by exact_mod_cast hx)
  obtain ⟨s1, s2⟩ := isqrt_spec ⌊x⌋.toNat
  have hf1 : 1 ≤ isqrt ⌊x⌋.toNat := le_isqrt _ 1 (by omega)
  have hcast : ((⌊x⌋.toNat : Nat) : ℚ) = (⌊x⌋ : ℚ) := by
    have : ((⌊x⌋.toNat : Nat) : Int) = ⌊x⌋ := Int.toNat_of_nonneg (by omega)
    exact_mod_cast this
  have hlow : ((isqrt ⌊x⌋.toNat : ℚ)) ^ 2 ≤ x := by
    have h1 : ((isqrt ⌊x⌋.toNat : ℚ)) ^ 2 ≤ ((⌊x⌋.toNat : Nat) : ℚ) := by exact_mod_cast s1
    rw [hcast] at h1
    exact le_trans h1 (Int.floor_le x)
  have hhigh : x < ((isqrt ⌊x⌋.toNat : ℚ) + 1) ^ 2 := by
    have h1 : ((⌊x⌋.toNat : Nat) : ℚ) + 1 ≤ ((isqrt ⌊x⌋.toNat : ℚ) + 1) ^ 2 := by
      exact_mod_cast s2
    rw [hcast] at h1
    exact lt_of_lt_of_le (Int.lt_floor_add_one x) h1
  have hfq : (1 : ℚ) ≤ (isqrt ⌊x⌋.toNat : ℚ) := by exact_mod_cast hf1
  unfold sqrt_rne
  split
  · rename_i h
    refine ⟨hf1, ?_, h.le⟩
    nlinarith
  · rename_i h
    have h' : ((isqrt ⌊x⌋.toNat : ℚ) + 1 / 2) ^ 2 ≤ x := not_lt.mp h
    split
    · refine ⟨by omega, ?_, ?_⟩
      · push_cast
        nlinarith
      · push_cast
        nlinarith
    · rename_i h2
      have h2' : x ≤ ((isqrt ⌊x⌋.toNat : ℚ) + 1 / 2) ^ 2 := not_lt.mp h2
      split
      · refine ⟨hf1, ?_, h2'⟩
        nlinarith
      · refine ⟨by omega, ?_, ?_⟩
        · push_cast
          nlinarith
        · push_cast
          nlinarith

/-- On numbers from 1 to `2 ^ 50` that differ by 1 or more, the correctly
rounded square root is strictly monotone. -/
theorem sqrt_round_lt (a b : ℚ) (ha : 1 ≤ a) (hab : a + 1 ≤ b) (hb : b < pow2 50) :
    sqrt_round a < sqrt_round b := by
  have hapos : 0 < a := by linarith
  have hbpos : 0 < b := by linarith
  have hmono := sqrt_round_mono a b (by linarith)
  by_contra hnot
  have heq : sqrt_round a = sqrt_round b := le_antisymm hmono (not_lt.mp hnot)
  have hna : ¬ a ≤ 0 := not_le.mpr hapos
  have hnb : ¬ b ≤ 0 := not_le.mpr hbpos
  simp only [sqrt_round, hna, hnb, if_false] at heq
  have hloga : 0 ≤ ilog2 a := by
    by_contra hlt
    have h1 : pow2 (ilog2 a + 1) ≤ pow2 0 := pow2_le _ _ (by omega)
    have h2 : pow2 0 = 1 := by simp [pow2]
    have h3 := (ilog2_spec a hapos).2
    linarith
  have hlogb : ilog2 b ≤ 49 := by
    by_contra hlt
    have h1 : pow2 50 ≤ pow2 (ilog2 b) := pow2_le _ _ (by omega)
    have h3 := (ilog2_spec b hbpos).1
    linarith
  have hlogab := ilog2_mono a b hapos (by linarith)
  have hea : -1074 < sqrt_exp a := by unfold sqrt_exp; omega
  have heb : -1074 < sqrt_exp b := by unfold sqrt_exp; omega
  have heab : sqrt_exp a ≤ sqrt_exp b := sqrt_exp_mono a b hapos (by linarith)
  have heb28 : sqrt_exp b ≤ -28 := by unfold sqrt_exp; omega
  have hone : (1 : ℚ) ≤ pow2 104 := by
    have h1 : pow2 0 ≤ pow2 104 := pow2_le _ _ (by decide)
    have h2 : pow2 0 = 1 := by simp [pow2]
    linarith
  have hxa := le_sqrt_arg a hapos hea
  have hxb := le_sqrt_arg b hbpos heb
  obtain ⟨_, la, _⟩ := sqrt_rne_sq _ (le_trans hone hxa)
  obtain ⟨mb1, _, ub⟩ := sqrt_rne_sq _ (le_trans hone hxb)
  have hmb : (sqrt_rne (b / pow2 (2 * sqrt_exp b)) : ℚ) ≤ pow2 53 := by
    have := sqrt_rne_le _ (sqrt_arg_lt b hbpos)
    rw [show (53 : Int) = ((53 : Nat) : Int) from rfl, pow2_nat]
    exact_mod_cast this
  have hmb1 : (1 : ℚ) ≤ (sqrt_rne (b / pow2 (2 * sqrt_exp b)) : ℚ) := by exact_mod_cast mb1
  have hsqa : pow2 (2 * sqrt_exp a) = pow2 (sqrt_exp a) * pow2 (sqrt_exp a) := by
    rw [← pow2_add]
    congr 1
    ring
  have hsqb : pow2 (2 * sqrt_exp b) = pow2 (sqrt_exp b) * pow2 (sqrt_exp b) := by
    rw [← pow2_add]
    congr 1
    ring
  have hua := pow2_pos (sqrt_exp a)
  have hub := pow2_pos (sqrt_exp b)
  have huab : pow2 (sqrt_exp a) ≤ pow2 (sqrt_exp b) := pow2_le _ _ heab
  have hub28 : pow2 (sqrt_exp b) * pow2 (sqrt_exp b) ≤ pow2 (-56) := by
    rw [← pow2_add]
    exact pow2_le _ _ (by omega)
  have h56 : pow2 53 * pow2 (-56) = 1 / 8 := by
    rw [← pow2_add]
    decide!
  generalize (sqrt_rne (a / pow2 (2 * sqrt_exp a)) : ℚ) = ma at heq la
  generalize (sqrt_rne (b / pow2 (2 * sqrt_exp b)) : ℚ) = mb at heq ub hmb hmb1
  rw [hsqa, le_div_iff₀ (mul_pos hua hua)] at la
  rw [hsqb, div_le_iff₀ (mul_pos hub hub)] at ub
  generalize pow2 (sqrt_exp a) = u at heq la hua huab
  generalize pow2 (sqrt_exp b) = v at heq ub hub huab hub28
  -- `a ≥ (s - u/2)^2 ≥ (s - v/2)^2` and `b ≤ (s + v/2)^2` for the common root `s = mb * v`
  have h1 : (mb * v - v / 2) ^ 2 ≤ a := by
    have h2 : (mb * v - v / 2) ^ 2 ≤ (mb * v - u / 2) ^ 2 := by
      apply pow_le_pow_left₀
      · nlinarith
      · linarith
    have h3 : (mb * v - u / 2) ^ 2 = (ma - 1 / 2) ^ 2 * (u * u) := by
      rw [← heq]
      ring
    linarith
  have h4 : b ≤ (mb * v + v / 2) ^ 2 := by
    have h5 : (mb + 1 / 2) ^ 2 * (v * v) = (mb * v + v / 2) ^ 2 := by ring
    linarith
  have h6 : (mb * v + v / 2) ^ 2 - (mb * v - v / 2) ^ 2 = 2 * (mb * (v * v)) := by ring
  have h7 : mb * (v * v) ≤ pow2 53 * pow2 (-56) :=
    mul_le_mul hmb hub28 (mul_pos hub hub).le (pow2_pos 53).le
  linarith

end B64

/-- The square of the Euclidean distance is not negative. -/
theorem sq_dist_nonneg : ∀ x y : List Int, 0 ≤ sq_dist x y := by
  intro x
  induction x with
  | nil => intro y; simp [sq_dist]
  | cons a x ih =>
    intro y
    cases y with
    | nil => simp [sq_dist]
    | cons b y =>
      have h := ih y
      unfold sq_dist at h ⊢
      simp only [List.zipWith_cons_cons, List.sum_cons]
      positivity

/-- The square of the Euclidean distance of two vectors with entries of
magnitude at most `M`. -/
theorem sq_dist_le (M : Nat) : ∀ x y : List Int, (∀ z ∈ x, z.natAbs ≤ M) →
    (∀ z ∈ y, z.natAbs ≤ M) → sq_dist x y ≤ (x.length : Int) * (2 * (M : Int)) ^ 2 := by
  intro x
  induction x with
  | nil => intro y _ _; simp [sq_dist]
  | cons a x ih =>
    intro y hx hy
    cases y with
    | nil =>
      simp only [sq_dist, List.zipWith_nil_right, List.sum_nil]
      positivity
    | cons b y =>
      have h := ih y (fun z hz => hx z (by simp [hz])) (fun z hz => hy z (by simp [hz]))
      have ha := hx a (by simp)
      have hb := hy b (by simp)
      have hab : (a - b) ^ 2 ≤ (2 * (M : Int)) ^ 2 := by
        have h1 : |a - b| ≤ 2 * (M : Int) := by
          rw [abs_le]
          constructor <;> omega
        have h2 := pow_le_pow_left₀ (abs_nonneg (a - b)) h1 2
        rwa [sq_abs] at h2
      unfold sq_dist at h ⊢
      simp only [List.zipWith_cons_cons, List.sum_cons, List.length_cons]
      push_cast
      linarith

/-- On vectors of integers the sum of the squared differences is computed
without rounding, as long as the differences stay below `2 ^ 26` and the sum
below `2 ^ 53`. -/
theorem fl_sum_sqdiff_integers : ∀ (x y : List Int) (acc : Int), 0 ≤ acc →
    (∀ z ∈ List.zipWith (fun a b => a - b) x y, z.natAbs < 2 ^ 26) →
    acc + sq_dist x y < 2 ^ 53 →
    (List.zipWith fl_sqdiff (x.map dbz) (y.map dbz)).foldl B64.add (dbz acc)
      = dbz (acc + sq_dist x y) := by
  intro x
  induction x with
  | nil => intro y acc _ _ _; simp [sq_dist]
  | cons a x ih =>
    intro y acc hacc hdiff hsum
    cases y with
    | nil => simp [sq_dist]
    | cons b y =>
      have hd : (a - b).natAbs < 2 ^ 26 := hdiff (a - b) (by simp)
      have hnn := sq_dist_nonneg x y
      have hsq : sq_dist (a :: x) (b :: y) = (a - b) ^ 2 + sq_dist x y := by
        simp [sq_dist]
      rw [hsq] at hsum
      have hsqnn : 0 ≤ (a - b) ^ 2 := by positivity
      have h1 : B64.sub (dbz a) (dbz b) = dbz (a - b) := by
        have e : (a : ℚ) - (b : ℚ) = ((a - b : Int) : ℚ) := by push_cast; rfl
        simp only [dbz, dbl, B64.sub, e]
        rw [B64.round64_intCast (a - b) (by omega)]
      have h2 : fl_sqdiff (dbz a) (dbz b) = dbz ((a - b) ^ 2) := by
        unfold fl_sqdiff
        rw [h1]
        have e : ((a - b : Int) : ℚ) * ((a - b : Int) : ℚ) = (((a - b) ^ 2 : Int) : ℚ) := by
          push_cast
          ring
        simp only [dbz, dbl, B64.mul, e]
        rw [B64.round64_intCast ((a - b) ^ 2) (by omega)]
      have h3 : B64.add (dbz acc) (dbz ((a - b) ^ 2)) = dbz (acc + (a - b) ^ 2) := by
        have e : (acc : ℚ) + (((a - b) ^ 2 : Int) : ℚ) = ((acc + (a - b) ^ 2 : Int) : ℚ) := by
          push_cast
          rfl
        simp only [dbz, dbl, B64.add, e]
        rw [B64.round64_intCast (acc + (a - b) ^ 2) (by omega)]
      simp only [List.map_cons, List.zipWith_cons_cons, List.foldl_cons]
      rw [h2, h3, ih y (acc + (a - b) ^ 2) (by omega)
        (fun z hz => hdiff z (by simp [hz])) (by omega), hsq]
      congr 1
      ring

/-- The rounded square roots of two natural numbers below `2 ^ 50` compare as
the numbers do. -/
theorem sqrt_lt_sqrt_integers (A B : Int) (hA : 0 ≤ A) (hB : B < 2 ^ 50) :
    B64.lt (B64.sqrt B64.sqrt64 (dbz A)) (B64.sqrt B64.sqrt64 (dbz B)) = true ↔ A < B := by
  constructor
  · intro h
    have := B64.lt_of_sqrt_lt_sqrt _ _ h
    simpa [dbz, dbl, B64.lt, B64.num_lt] using this
  · intro hlt
    have hAq : ¬ ((A : ℚ) < 0) := not_lt.mpr (by exact_mod_cast hA)
    have hBq : ¬ ((B : ℚ) < 0) := not_lt.mpr (by exact_mod_cast (by omega : (0 : Int) ≤ B))
    simp only [dbz, dbl, B64.sqrt, B64.num_neg, hAq, hBq, decide_False, Bool.false_eq_true,
      if_false, B64.sqrt64, B64.lt, B64.num_lt, decide_eq_true_eq]
    have hB1 : (1 : ℚ) ≤ (B : ℚ) := by exact_mod_cast (by omega : (1 : Int) ≤ B)
    by_cases h0 : A = 0
    · rw [h0, Int.cast_zero, B64.sqrt_round_zero]
      apply B64.sqrt_round_pos
      have h1 : B64.pow2 (-1074) ≤ B64.pow2 0 := B64.pow2_le _ _ (by decide)
      have h2 : B64.pow2 0 = 1 := by simp [B64.pow2]
      linarith
    · apply B64.sqrt_round_lt
      · exact_mod_cast (by omega : (1 : Int) ≤ A)
      · exact_mod_cast (by omega : A + 1 ≤ B)
      · rw [show (50 : Int) = ((50 : Nat) : Int) from rfl, B64.pow2_nat]
        exact_mod_cast hB

/-- On vectors of `n` integers of magnitude at most `M`, with
`n * (2 * M) ^ 2 < 2 ^ 50`, nothing is rounded before the square roots and the
two square roots compare as the sums do: `classify_packet` returns 1 exactly
when the squared Euclidean distance to `safe_mean` is the smaller one. -/
theorem classify_packet_integers (n M : Nat) (f s b : List Int)
    (hf : f.length = n) (hs : s.length = n) (hb : b.length = n)
    (hfM : ∀ z ∈ f, z.natAbs ≤ M) (hsM : ∀ z ∈ s, z.natAbs ≤ M) (hbM : ∀ z ∈ b, z.natAbs ≤ M)
    (hbound : n * (2 * M) ^ 2 < 2 ^ 50) :
    B64.classify_packet B64.sqrt64 ⟨n, s.map dbz, b.map dbz⟩ (f.map dbz)
      = if sq_dist f s < sq_dist f b then 1 else 0 := by
  have hsum : ∀ y : List Int, y.length = n → (∀ z ∈ y, z.natAbs ≤ M) →
      fl_sumsq (f.map dbz) (y.map dbz) = dbz (sq_dist f y) ∧ sq_dist f y < 2 ^ 50 := by
    intro y hy hyM
    have hle := sq_dist_le M f y hfM hyM
    rw [hf] at hle
    have hb50 : ((n : Int)) * (2 * (M : Int)) ^ 2 < 2 ^ 50 := by exact_mod_cast hbound
    have hlt : sq_dist f y < 2 ^ 50 := lt_of_le_of_lt hle hb50
    have hdiff : ∀ z ∈ List.zipWith (fun a b => a - b) f y, z.natAbs < 2 ^ 26 := by
      intro z hz
      obtain ⟨i, hi, rfl⟩ := List.mem_iff_getElem.mp hz
      simp only [List.length_zipWith] at hi
      have hi1 : i < f.length := by omega
      have hi2 : i < y.length := by omega
      simp only [List.getElem_zipWith]
      have h1 := hfM f[i] (List.mem_iff_getElem.mpr ⟨i, hi1, rfl⟩)
      have h2 := hyM y[i] (List.mem_iff_getElem.mpr ⟨i, hi2, rfl⟩)
      have hn1 : 1 ≤ n := by omega
      have hM25 : 2 * M < 2 ^ 25 := by
        by_contra hge
        have h3 : (2 ^ 25) ^ 2 ≤ (2 * M) ^ 2 := Nat.pow_le_pow_left (by omega) 2
        have h4 : (2 * M) ^ 2 ≤ n * (2 * M) ^ 2 := Nat.le_mul_of_pos_left _ hn1
        have h5 : ((2 : Nat) ^ 25) ^ 2 = 2 ^ 50 := by norm_num
        omega
      omega
    have h := fl_sum_sqdiff_integers f y 0 le_rfl hdiff (by omega)
    refine ⟨?_, hlt⟩
    unfold fl_sumsq fl_sum
    rw [show (fin (Num64.val 0) : F64) = dbz 0 by simp [dbz, dbl], h, zero_add]
  obtain ⟨es, hs50⟩ := hsum s hs hsM
  obtain ⟨eb, hb50⟩ := hsum b hb hbM
  rw [classify_packet_eq B64.sqrt64 n (f.map dbz) (s.map dbz) (b.map dbz) (by simpa using hf)
    (by simpa using hs) (by simpa using hb)]
  unfold fl_dist
  rw [es, eb]
  by_cases h : sq_dist f s < sq_dist f b
  · rw [(sqrt_lt_sqrt_integers _ _ (sq_dist_nonneg f s) hb50).mpr h]
    simp [h]
  · have hn : ¬ B64.lt (B64.sqrt B64.sqrt64 (dbz (sq_dist f s)))
        (B64.sqrt B64.sqrt64 (dbz (sq_dist f b))) = true := fun hc =>
      h ((sqrt_lt_sqrt_integers _ _ (sq_dist_nonneg f s) hb50).mp hc)
    simp [h, hn]

/-- The difference of the squared distances from `f` to `b` and to `s` is
`|b|^2 - |s|^2 - 2 * <f, b - s>`. -/
theorem sq_dist_sub_sq_dist : ∀ (f s b : List Int), s.length = f.length → b.length = f.length →
    sq_dist f b - sq_dist f s
      = dot b b - dot s s - 2 * dot f (List.zipWith (fun p q => p - q) b s) := by
  intro f
  induction f with
  | nil =>
    intro s b hs hb
    simp only [List.length_nil, List.length_eq_zero] at hs hb
    subst hs
    subst hb
    simp [sq_dist, dot]
  | cons x f ih =>
    intro s b hs hb
    cases s with
    | nil => simp at hs
    | cons y s =>
      cases b with
      | nil => simp at hb
      | cons z b =>
        simp only [List.length_cons, Nat.add_right_cancel_iff] at hs hb
        have h := ih s b hs hb
        unfold sq_dist dot at h ⊢
        simp only [List.zipWith_cons_cons, List.sum_cons]
        linear_combination h

/-- On vectors of `n` integers of magnitude at most `M`, with
`n * (2 * M) ^ 2 < 2 ^ 50`, `classify_packet` returns 1 exactly when the
Euclidean distance to `safe_mean` is strictly smaller than the one to
`bad_mean`, that is, exactly when `2 * <f, b - s> < |b|^2 - |s|^2`. -/
theorem classify_packet_integers_iff (n M : Nat) (f s b : List Int)
    (hf : f.length = n) (hs : s.length = n) (hb : b.length = n)
    (hfM : ∀ z ∈ f, z.natAbs ≤ M) (hsM : ∀ z ∈ s, z.natAbs ≤ M) (hbM : ∀ z ∈ b, z.natAbs ≤ M)
    (hbound : n * (2 * M) ^ 2 < 2 ^ 50) :
    (B64.classify_packet B64.sqrt64 ⟨n, s.map dbz, b.map dbz⟩ (f.map dbz) = 1 ↔
      sq_dist f s < sq_dist f b) ∧
    (B64.classify_packet B64.sqrt64 ⟨n, s.map dbz, b.map dbz⟩ (f.map dbz) = 1 ↔
      Real.sqrt (sq_dist f s) < Real.sqrt (sq_dist f b)) ∧
    (B64.classify_packet B64.sqrt64 ⟨n, s.map dbz, b.map dbz⟩ (f.map dbz) = 1 ↔
      2 * dot f (List.zipWith (fun p q => p - q) b s) < dot b b - dot s s) := by
  have h := classify_packet_integers n M f s b hf hs hb hfM hsM hbM hbound
  have h1 : B64.classify_packet B64.sqrt64 ⟨n, s.map dbz, b.map dbz⟩ (f.map dbz) = 1 ↔
      sq_dist f s < sq_dist f b := by
    rw [h]
    by_cases hlt : sq_dist f s < sq_dist f b <;> simp [hlt]
  have hsub := sq_dist_sub_sq_dist f s b (by omega) (by omega)
  have hnn : (0 : ℝ) ≤ ((sq_dist f s : Int) : ℝ) := by exact_mod_cast sq_dist_nonneg f s
  refine ⟨h1, ?_, ?_⟩
  · rw [h1, Real.sqrt_lt_sqrt_iff hnn]
    exact Int.cast_lt.symm
  · rw [h1]
    constructor <;> intro hlt <;> linarith

/-! ## The decision of classify_packet -/

/-- C1, amended. For a model with `n` features and a feature vector of length
`n`, in binary64 arithmetic, `classify_packet` returns 1 (safe) exactly when
the distance that `euclidean_distance` computes from the features to
`safe_mean` (every difference, square and partial sum rounded, then the sum's
square root rounded) is strictly smaller than the one it computes to
`bad_mean`, and 0 (malicious) otherwise: in particular when the two computed
distances are equal, and when one of them is NaN. When the features and the
centroids are integers of magnitude at most `M` with `n * (2 * M) ^ 2 < 2 ^ 50`,
and the square root is correctly rounded, it returns 1 exactly when the
Euclidean distance from the features to `safe_mean` is strictly smaller than
their Euclidean distance to `bad_mean`, and 0 otherwise. -/
theorem classify_packet_computed (sqrt : Num64 → Num64) (n : Nat)
    (features safe_mean bad_mean : List F64)
    (hf : features.length = n) (hs : safe_mean.length = n) (hb : bad_mean.length = n) :
    B64.classify_packet sqrt ⟨n, safe_mean, bad_mean⟩ features
      = (if B64.lt (fl_dist sqrt features safe_mean) (fl_dist sqrt features bad_mean)
          then 1 else 0) ∧
    (fl_dist sqrt features safe_mean = fl_dist sqrt features bad_mean →
      B64.classify_packet sqrt ⟨n, safe_mean, bad_mean⟩ features = 0) ∧
    (fl_dist sqrt features safe_mean = nan ∨ fl_dist sqrt features bad_mean = nan →
      B64.classify_packet sqrt ⟨n, safe_mean, bad_mean⟩ features = 0) ∧
    (∀ (M : Nat) (f s b : List Int), f.length = n → s.length = n → b.length = n →
      (∀ z ∈ f, z.natAbs ≤ M) → (∀ z ∈ s, z.natAbs ≤ M) → (∀ z ∈ b, z.natAbs ≤ M) →
      n * (2 * M) ^ 2 < 2 ^ 50 →
      (B64.classify_packet B64.sqrt64 ⟨n, s.map dbz, b.map dbz⟩ (f.map dbz) = 1 ↔
        Real.sqrt (sq_dist f s) < Real.sqrt (sq_dist f b)) ∧
      (B64.classify_packet B64.sqrt64 ⟨n, s.map dbz, b.map dbz⟩ (f.map dbz) = 0 ↔
        Real.sqrt (sq_dist f b) ≤ Real.sqrt (sq_dist f s))) := by
  have h := classify_packet_eq sqrt n features safe_mean bad_mean hf hs hb
  refine ⟨h, fun heq => ?_, fun hnan => ?_, ?_⟩
  · rw [h, heq, B64.lt_self]
    rfl
  · rw [h]
    rcases hnan with hnan | hnan
    · rw [hnan]
      rfl
    · rw [hnan, B64.not_lt_nan]
      rfl
  · intro M f s b hfl hsl hbl hfM hsM hbM hbound
    have hiff := (classify_packet_integers_iff n M f s b hfl hsl hbl hfM hsM hbM hbound).2.1
    refine ⟨hiff, ?_⟩
    rw [← not_lt, ← hiff]
    rcases b64_classify_packet_zero_or_one B64.sqrt64 ⟨n, s.map dbz, b.map dbz⟩ (f.map dbz)
      with h1 | h0
    · simp [h1]
    · simp [h0]

/-- C19, amended. In binary64 arithmetic, with the correctly rounded square
root, `classify_packet` returns 1 (safe) only when the computed sum of the
squared differences between the features and `safe_mean` is strictly smaller
than the one between the features and `bad_mean`: when it is not, the result
is 0 (malicious). When the features `f` and the centroids `s` and `b` are
integers of magnitude at most `M` with `n * (2 * M) ^ 2 < 2 ^ 50`, it returns 1
exactly when the sum of the squared differences to `s` is strictly smaller
than the one to `b`, that is, exactly when `2 * <f, b - s> < |b|^2 - |s|^2`,
and 0 otherwise, so also on the bisector hyperplane. -/
theorem classify_packet_safe_sums (n : Nat) (features safe_mean bad_mean : List F64)
    (hf : features.length = n) (hs : safe_mean.length = n) (hb : bad_mean.length = n) :
    (B64.classify_packet B64.sqrt64 ⟨n, safe_mean, bad_mean⟩ features = 1 →
      B64.lt (fl_sumsq features safe_mean) (fl_sumsq features bad_mean) = true) ∧
    (∀ (M : Nat) (f s b : List Int), f.length = n → s.length = n → b.length = n →
      (∀ z ∈ f, z.natAbs ≤ M) → (∀ z ∈ s, z.natAbs ≤ M) → (∀ z ∈ b, z.natAbs ≤ M) →
      n * (2 * M) ^ 2 < 2 ^ 50 →
      (B64.classify_packet B64.sqrt64 ⟨n, s.map dbz, b.map dbz⟩ (f.map dbz) = 1 ↔
        sq_dist f s < sq_dist f b) ∧
      (B64.classify_packet B64.sqrt64 ⟨n, s.map dbz, b.map dbz⟩ (f.map dbz) = 1 ↔
        2 * dot f (List.zipWith (fun p q => p - q) b s) < dot b b - dot s s) ∧
      (B64.classify_packet B64.sqrt64 ⟨n, s.map dbz, b.map dbz⟩ (f.map dbz) = 0 ↔
        dot b b - dot s s ≤ 2 * dot f (List.zipWith (fun p q => p - q) b s))) := by
  constructor
  · intro hsafe
    simp only [B64.classify_packet, euclidean_distance_eq B64.sqrt64 features safe_mean n hf hs,
      euclidean_distance_eq B64.sqrt64 features bad_mean n hf hb] at hsafe
    by_cases h : B64.lt (fl_dist B64.sqrt64 features safe_mean)
        (fl_dist B64.sqrt64 features bad_mean) = true
    · exact B64.lt_of_sqrt_lt_sqrt _ _ h
    · simp [h] at hsafe
  · intro M f s b hfl hsl hbl hfM hsM hbM hbound
    obtain ⟨h1, _, h3⟩ := classify_packet_integers_iff n M f s b hfl hsl hbl hfM hsM hbM hbound
    refine ⟨h1, h3, ?_⟩
    rw [← not_lt, ← h3]
    rcases b64_classify_packet_zero_or_one B64.sqrt64 ⟨n, s.map dbz, b.map dbz⟩ (f.map dbz)
      with h1 | h0
    · simp [h1]
    · simp [h0]

/-! ## Concrete inputs in binary64 -/

/-- Counterexample to C1. With `safe_mean = (0, 0)`, `bad_mean = (0, 2^-26)` and
the features `(1, 0)`, the distance to `safe_mean` is 1 and the distance to
`bad_mean` is the square root of `1 + 2^-52`, which is greater; the two
computed distances are both 1.0 and `classify_packet` returns 0. With one
feature, `safe_mean = 0`, `bad_mean = 3 * 2^600` and the feature `2^600`, the
distances are `2^600` and `2^601`; both squares overflow and `classify_packet`
returns 0. -/
theorem classify_packet_euclidean_counterexample :
    (B64.classify_packet B64.sqrt64 ⟨2, [dbl 0, dbl 0], [dbl 0, dbl (1 / 2 ^ 26)]⟩
        [dbl 1, dbl 0] = 0 ∧
      dist (vec2 1 0) (vec2 0 0) < dist (vec2 1 0) (vec2 0 (1 / 2 ^ 26))) ∧
    (B64.classify_packet B64.sqrt64 ⟨1, [dbl 0], [dbl (3 * 2 ^ 600)]⟩ [dbl (2 ^ 600)] = 0 ∧
      |(2 ^ 600 : ℚ) - 0| < |(2 ^ 600 : ℚ) - 3 * 2 ^ 600|) := by
  refine ⟨⟨by decide!, ?_⟩, by decide!, by decide!⟩
  rw [dist_vec2, dist_vec2]
  exact Real.sqrt_lt_sqrt (by positivity) (by norm_num)

/-- Witness of C1, amended: the centroids (0, 0) and (10, 10) and the features
(1, 1). -/
theorem classify_packet_computed_witness :
    B64.classify_packet B64.sqrt64 ⟨(2 : Nat), [dbl 0, dbl 0], [dbl 10, dbl 10]⟩
      [dbl 1, dbl 1] = 1 :=
  (classify_packet_computed B64.sqrt64 2 [dbl 1, dbl 1] [dbl 0, dbl 0] [dbl 10, dbl 10]
    rfl rfl rfl).1.trans (by decide!)

/-- Counterexample to C19. With `safe_mean = (0, 0)`, `bad_mean = (0, 2^-25)` and
the features `(2, 0)`, the sums of the squared differences are 4 and
`4 + 2^-50`, in exact arithmetic and as computed, and the features satisfy
`2 * <f, b - s> < |b|^2 - |s|^2`; the square roots of the two sums both round
to 2.0 and `classify_packet` returns 0. -/
theorem classify_packet_squares_counterexample :
    B64.classify_packet B64.sqrt64 ⟨2, [dbl 0, dbl 0], [dbl 0, dbl (1 / 2 ^ 25)]⟩
      [dbl 2, dbl 0] = 0 ∧
    fl_sumsq [dbl 2, dbl 0] [dbl 0, dbl 0] = dbl 4 ∧
    fl_sumsq [dbl 2, dbl 0] [dbl 0, dbl (1 / 2 ^ 25)] = dbl (4 + 1 / 2 ^ 50) ∧
    ((2 - 0) ^ 2 + (0 - 0) ^ 2 : ℚ) < (2 - 0) ^ 2 + (0 - 1 / 2 ^ 25) ^ 2 ∧
    (2 * (2 * (0 - 0) + 0 * (1 / 2 ^ 25 - 0)) : ℚ) < (0 ^ 2 + (1 / 2 ^ 25) ^ 2) - (0 ^ 2 + 0 ^ 2) := by
  decide!

/-- Witness of C19, amended: the centroids (0, 0) and (10, 10) and the features
(1, 1), which are classified safe. -/
theorem classify_packet_safe_sums_witness :
    B64.lt (fl_sumsq [dbl 1, dbl 1] [dbl 0, dbl 0]) (fl_sumsq [dbl 1, dbl 1] [dbl 10, dbl 10])
      = true :=
  (classify_packet_safe_sums 2 [dbl 1, dbl 1] [dbl 0, dbl 0] [dbl 10, dbl 10] rfl rfl rfl).1
    (by decide!)

/-- Counterexample to C14. The centroids `safe_mean = 0` and `bad_mean = 2^-600`
differ; the square of their difference underflows to 0, the two computed
distances from `safe_mean` are both 0 and `classify_packet` returns 0 on
`safe_mean`. -/
theorem classify_packet_centroids_counterexample :
    ([dbl 0] : List F64) ≠ [dbl (1 / 2 ^ 600)] ∧
    fl_dist B64.sqrt64 [dbl 0] [dbl (1 / 2 ^ 600)] = dbl 0 ∧
    B64.classify_packet B64.sqrt64 ⟨1, [dbl 0], [dbl (1 / 2 ^ 600)]⟩ [dbl 0] = 0 := by
  decide!

/-- Witness of C14, amended: the centroids (0, 0) and (10, 10). -/
theorem classify_packet_own_centroid_witness :
    B64.classify_packet B64.sqrt64 ⟨(2 : Nat), [dbl 0, dbl 0], [dbl 10, dbl 10]⟩
      [dbl 10, dbl 10] = 0 ∧
    B64.classify_packet B64.sqrt64 ⟨(2 : Nat), [dbl 0, dbl 0], [dbl 10, dbl 10]⟩
      [dbl 0, dbl 0] = 1 :=
  ⟨(classify_packet_own_centroid 2 [dbl 0, dbl 0] [dbl 10, dbl 10] rfl rfl).1,
   ((classify_packet_own_centroid 2 [dbl 0, dbl 0] [dbl 10, dbl 10] rfl rfl).2.2
      (fun x hx => by
        simp at hx
        exact ⟨0, hx⟩)
      (fun x hx => by
        simp at hx
        exact ⟨10, hx⟩)).2
      ⟨0, 0, 10, by decide, rfl, rfl, by decide!⟩⟩

/-- Counterexample to C11. The column of three doubles 0.1 has the average 0.1;
compute_statistics returns the next double, `0x1.999999999999bp-4`: the sum
of the first two is rounded when the third is added. The column of two doubles
1e308 has the average 1e308; the sum overflows and compute_statistics returns
infinity. -/
theorem compute_statistics_mean_counterexample :
    (nearest (1 / 10) = dbl (3602879701896397 / 2 ^ 55) ∧
      (B64.compute_statistics B64.sqrt64
        [[nearest (1 / 10)], [nearest (1 / 10)], [nearest (1 / 10)]] 3 1 [nan] [nan]).1
        = [dbl (7205759403792795 / 2 ^ 56)] ∧
      col_mean (entries [[3602879701896397 / 2 ^ 55], [3602879701896397 / 2 ^ 55],
        [3602879701896397 / 2 ^ 55]]) 3 0 = (3602879701896397 / 2 ^ 55 : ℚ) ∧
      (3602879701896397 / 2 ^ 55 : ℚ) ≠ 7205759403792795 / 2 ^ 56) ∧
    (nearest (10 ^ 308) = dbl (156575653125701 * 2 ^ 976) ∧
      (B64.compute_statistics B64.sqrt64
        [[nearest (10 ^ 308)], [nearest (10 ^ 308)]] 2 1 [nan] [nan]).1 = [fin Num64.pinf] ∧
      col_mean (entries [[156575653125701 * 2 ^ 976], [156575653125701 * 2 ^ 976]]) 2 0
        = (156575653125701 * 2 ^ 976 : ℚ)) := by
  decide!

/-- Witness of C11, amended: the mean of the rows 1,2 and 3,4 is 2,3; the third
entry of the buffer is left alone. -/
theorem compute_statistics_mean_rounded_witness :
    (B64.compute_statistics B64.sqrt64 [[dbl 1, dbl 2], [dbl 3, dbl 4]] (2 : Nat) (2 : Nat)
      [nan, nan, dbl 9] [nan, nan, dbl 9]).1 = [dbl 2, dbl 3, dbl 9] :=
  (compute_statistics_mean_rounded B64.sqrt64 [[dbl 1, dbl 2], [dbl 3, dbl 4]] 2 2
    [nan, nan, dbl 9] [nan, nan, dbl 9] rfl (by decide) (by decide)).1.trans (by decide!)

/-- Counterexample to C12. The column of three doubles 0.7 has the population
standard deviation 0; compute_statistics returns `2^-53`, since the computed
mean is not 0.7. The column of the doubles 1e200 and -1e200 has the population
standard deviation 1e200; the squares overflow and compute_statistics returns
infinity. -/
theorem compute_statistics_stddev_counterexample :
    (nearest (7 / 10) = dbl (3152519739159347 / 2 ^ 52) ∧
      (B64.compute_statistics B64.sqrt64
        [[nearest (7 / 10)], [nearest (7 / 10)], [nearest (7 / 10)]] 3 1 [nan] [nan]).2
        = [dbl (1 / 2 ^ 53)] ∧
      col_var (entries [[3152519739159347 / 2 ^ 52], [3152519739159347 / 2 ^ 52],
        [3152519739159347 / 2 ^ 52]]) 3 0 = (0 : ℚ)) ∧
    (nearest (10 ^ 200) = dbl (2941796710330669 * 2 ^ 613) ∧
      (B64.compute_statistics B64.sqrt64
        [[nearest (10 ^ 200)], [nearest (-10 ^ 200)]] 2 1 [nan] [nan]).2 = [fin Num64.pinf] ∧
      col_var (entries [[2941796710330669 * 2 ^ 613], [-(2941796710330669 * 2 ^ 613)]]) 2 0
        = ((2941796710330669 * 2 ^ 613) ^ 2 : ℚ)) := by
  decide!

/-- Witness of C12, amended: the column 0, 2 has the computed mean 1 and the
computed standard deviation 1 (a division by `rows - 1` would give the square
root of 2). -/
theorem compute_statistics_stddev_rounded_witness :
    (B64.compute_statistics B64.sqrt64 [[dbl 0], [dbl 2]] (2 : Nat) (1 : Nat) [nan] [nan]).2
      = [dbl 1] :=
  (compute_statistics_stddev_rounded B64.sqrt64 [[dbl 0], [dbl 2]] 2 1 [nan] [nan] rfl
    (by decide) (by decide)).trans (by decide!)

/-- Counterexample to C13. On three rows equal to the doubles 0.1, 0.2,
compute_statistics returns the means `0x1.999999999999bp-4` and
`0x1.999999999999bp-3`, which are not 0.1 and 0.2, and the standard deviations
`2^-56` and `2^-55`, which are not 0. -/
theorem compute_statistics_constant_rows_counterexample :
    [nearest (1 / 10), nearest (2 / 10)]
      = [dbl (3602879701896397 / 2 ^ 55), dbl (3602879701896397 / 2 ^ 54)] ∧
    B64.compute_statistics B64.sqrt64
      (List.replicate 3 [nearest (1 / 10), nearest (2 / 10)]) 3 2 [nan, nan] [nan, nan]
      = ([dbl (7205759403792795 / 2 ^ 56), dbl (7205759403792795 / 2 ^ 55)],
         [dbl (1 / 2 ^ 56), dbl (1 / 2 ^ 55)]) := by
  decide!

/-- Witness of C13, amended: three rows equal to 1, 2.5. -/
theorem compute_statistics_constant_exact_witness :
    B64.compute_statistics B64.sqrt64 (List.replicate 3 ([1, 5 / 2].map dbl)) (3 : Nat)
      ([1, 5 / 2] : List ℚ).length [nan, nan] [nan, nan]
      = ([1, 5 / 2].map dbl ++ ([nan, nan] : List F64).drop ([1, 5 / 2] : List ℚ).length,
         List.replicate ([1, 5 / 2] : List ℚ).length (dbl 0)
          ++ ([nan, nan] : List F64).drop ([1, 5 / 2] : List ℚ).length) :=
  compute_statistics_constant_exact B64.sqrt64 [1, 5 / 2] 3 [nan, nan] [nan, nan]
    (by decide!) (by decide)
    (fun x hx k h1 h2 => by
      have hk : k = 1 ∨ k = 2 ∨ k = 3 := by omega
      simp only [List.mem_cons, List.mem_singleton, List.not_mem_nil, or_false] at hx
      rcases hx with rfl | rfl <;> rcases hk with rfl | rfl | rfl <;> decide!)
    (by decide) (by decide)

/-! ## End to end in binary64 -/

/-- C16, amended. With a safe file of the two rows 0,0 and a bad file of the two
rows 10,10, and an `atof` that reads "0" as 0 and "10" as 10 (also before a
newline), in binary64 arithmetic: `classify_packet_c` on two features returns 1
exactly when the distance that `euclidean_distance` computes from the features
to (0, 0) is strictly smaller than the one it computes to (10, 10), and 0
otherwise, and writes nothing to `stderr`; with the correctly rounded square
root it returns 1 on the features 1, 1 and 0 on the features 9, 9, and on
features that are integers of magnitude at most `2 ^ 23` it returns 1 exactly
when the point is strictly closer to (0, 0) than to (10, 10). -/
theorem classify_packet_c_computed (E : Env Num64) (safe_csv bad_csv : String) (fx fy : F64)
    (hsafe : E.fopen safe_csv = some "0,0\n0,0\n".toList)
    (hbad : E.fopen bad_csv = some "10,10\n10,10\n".toList)
    (h0 : E.atof "0".toList = dbl 0) (h0n : E.atof "0\n".toList = dbl 0)
    (h10 : E.atof "10".toList = dbl 10) (h10n : E.atof "10\n".toList = dbl 10) :
    B64.classify_packet_c E safe_csv bad_csv [fx, fy] 2
      = (if B64.lt (fl_dist E.sqrt [fx, fy] [dbl 0, dbl 0])
            (fl_dist E.sqrt [fx, fy] [dbl 10, dbl 10]) then 1 else 0, []) ∧
    (E.sqrt = B64.sqrt64 →
      B64.classify_packet_c E safe_csv bad_csv [dbl 1, dbl 1] 2 = (1, []) ∧
      B64.classify_packet_c E safe_csv bad_csv [dbl 9, dbl 9] 2 = (0, []) ∧
      ∀ x y : Int, x.natAbs ≤ 2 ^ 23 → y.natAbs ≤ 2 ^ 23 →
        B64.classify_packet_c E safe_csv bad_csv [dbz x, dbz y] 2
          = (if dist (vec2 x y) (vec2 0 0) < dist (vec2 x y) (vec2 10 10) then 1 else 0, [])) := by
  have hs := read_csv_two_by_two E (E.garbage 0) safe_csv "0,0\n0,0\n".toList
    "0,0\n".toList "0,0\n".toList "0".toList "0\n".toList "0".toList "0\n".toList
    hsafe (by decide!) (by decide!) (by decide!)
  have hb := read_csv_two_by_two E (E.garbage 1) bad_csv "10,10\n10,10\n".toList
    "10,10\n".toList "10,10\n".toList "10".toList "10\n".toList "10".toList "10\n".toList
    hbad (by decide!) (by decide!) (by decide!)
  rw [h0, h0n] at hs
  rw [h10, h10n] at hb
  have hms : (B64.compute_statistics E.sqrt [[dbl 0, dbl 0], [dbl 0, dbl 0]] ((2 : Nat) : Int)
      ((2 : Nat) : Int) (fresh (E.garbage 2 0) ((2 : Nat) : Int))
      (fresh (E.garbage 4 0) ((2 : Nat) : Int))).1
      = (List.range 2).map
          (fun j => B64.divInt (fl_sum (column [[dbl 0, dbl 0], [dbl 0, dbl 0]] j))
            ((2 : Nat) : Int))
        ++ (fresh (E.garbage 2 0) ((2 : Nat) : Int)).drop 2 :=
    congrArg Prod.fst (compute_statistics_columns E.sqrt [[dbl 0, dbl 0], [dbl 0, dbl 0]] 2
      (fresh (E.garbage 2 0) ((2 : Nat) : Int)) (fresh (E.garbage 4 0) ((2 : Nat) : Int))
      (by simp [fresh]) (by simp [fresh]))
  have hmb : (B64.compute_statistics E.sqrt [[dbl 10, dbl 10], [dbl 10, dbl 10]]
      ((2 : Nat) : Int) ((2 : Nat) : Int) (fresh (E.garbage 3 0) ((2 : Nat) : Int))
      (fresh (E.garbage 5 0) ((2 : Nat) : Int))).1
      = (List.range 2).map
          (fun j => B64.divInt (fl_sum (column [[dbl 10, dbl 10], [dbl 10, dbl 10]] j))
            ((2 : Nat) : Int))
        ++ (fresh (E.garbage 3 0) ((2 : Nat) : Int)).drop 2 :=
    congrArg Prod.fst (compute_statistics_columns E.sqrt [[dbl 10, dbl 10], [dbl 10, dbl 10]] 2
      (fresh (E.garbage 3 0) ((2 : Nat) : Int)) (fresh (E.garbage 5 0) ((2 : Nat) : Int))
      (by simp [fresh]) (by simp [fresh]))
  have e0 : (List.range 2).map
      (fun j => B64.divInt (fl_sum (column [[dbl 0, dbl 0], [dbl 0, dbl 0]] j)) ((2 : Nat) : Int))
      = [dbl 0, dbl 0] := by decide!
  have e10 : (List.range 2).map
      (fun j => B64.divInt (fl_sum (column [[dbl 10, dbl 10], [dbl 10, dbl 10]] j))
        ((2 : Nat) : Int))
      = [dbl 10, dbl 10] := by decide!
  have hdrop : ∀ g : Nat → F64, (fresh g ((2 : Nat) : Int)).drop 2 = [] := by
    intro g
    simp [fresh]
  rw [e0, hdrop, List.append_nil] at hms
  rw [e10, hdrop, List.append_nil] at hmb
  have htrain : B64.train_model E safe_csv bad_csv
      = (Except.ok ⟨((2 : Nat) : Int), [dbl 0, dbl 0], [dbl 10, dbl 10]⟩, []) := by
    simp only [B64.train_model, hs, hb, ne_eq, not_true_eq_false, if_false, hms, hmb]
    norm_num
  have hgen : ∀ gx gy : F64, B64.classify_packet_c E safe_csv bad_csv [gx, gy] 2
      = (if B64.lt (fl_dist E.sqrt [gx, gy] [dbl 0, dbl 0])
            (fl_dist E.sqrt [gx, gy] [dbl 10, dbl 10]) then 1 else 0, []) := by
    intro gx gy
    have hclass := classify_packet_eq E.sqrt 2 [gx, gy] [dbl 0, dbl 0] [dbl 10, dbl 10]
      rfl rfl rfl
    simp only [B64.classify_packet_c, htrain, hclass]
    simp
  refine ⟨hgen fx fy, fun hsqrt => ⟨?_, ?_, ?_⟩⟩
  · rw [hgen, hsqrt]
    decide!
  · rw [hgen, hsqrt]
    decide!
  · intro x y hx hy
    have hint := (classify_packet_integers_iff 2 (2 ^ 23) [x, y] [0, 0] [10, 10] rfl rfl rfl
      (fun z hz => by
        simp only [List.mem_cons, List.mem_singleton, List.not_mem_nil, or_false] at hz
        rcases hz with rfl | rfl <;> assumption)
      (fun z hz => by
        simp only [List.mem_cons, List.mem_singleton, List.not_mem_nil, or_false, or_self] at hz
        subst hz
        decide)
      (fun z hz => by
        simp only [List.mem_cons, List.mem_singleton, List.not_mem_nil, or_false, or_self] at hz
        subst hz
        decide)
      (by norm_num)).2.1
    have hsq1 : ((sq_dist [x, y] [0, 0] : Int) : ℝ) = ((x : ℝ) - 0) ^ 2 + ((y : ℝ) - 0) ^ 2 := by
      simp [sq_dist]
    have hsq2 : ((sq_dist [x, y] [10, 10] : Int) : ℝ)
        = ((x : ℝ) - 10) ^ 2 + ((y : ℝ) - 10) ^ 2 := by
      simp [sq_dist]
    have hlists : ([0, 0].map dbz : List F64) = [dbl 0, dbl 0] ∧
        ([10, 10].map dbz : List F64) = [dbl 10, dbl 10] ∧
        ([x, y].map dbz : List F64) = [dbz x, dbz y] := by
      simp [dbz]
    rw [hlists.1, hlists.2.1, hlists.2.2, hsq1, hsq2, ← dist_vec2, ← dist_vec2] at hint
    rw [hgen, hsqrt, ← classify_packet_eq B64.sqrt64 2 [dbz x, dbz y] [dbl 0, dbl 0]
      [dbl 10, dbl 10] rfl rfl rfl]
    by_cases hlt : dist (vec2 x y) (vec2 0 0) < dist (vec2 x y) (vec2 10 10)
    · rw [if_pos hlt, hint.mpr hlt]
    · rw [if_neg hlt]
      rcases b64_classify_packet_zero_or_one B64.sqrt64
        ⟨(2 : Nat), [dbl 0, dbl 0], [dbl 10, dbl 10]⟩ [dbz x, dbz y] with h1 | h0
      · exact absurd (hint.mp h1) hlt
      · rw [h0]

/-- Witness of C16, amended: the two files and the `atof` of the sample
environment. -/
theorem classify_packet_c_computed_witness :
    B64.classify_packet_c b64_env "safe.csv" "bad.csv" [dbl 1, dbl 1] 2 = (1, []) ∧
    B64.classify_packet_c b64_env "safe.csv" "bad.csv" [dbl 9, dbl 9] 2 = (0, []) :=
  ⟨((classify_packet_c_computed b64_env "safe.csv" "bad.csv" (dbl 5) (dbl 5)
      (by decide!) (by decide!) (by decide!) (by decide!) (by decide!) (by decide!)).2 rfl).1,
   ((classify_packet_c_computed b64_env "safe.csv" "bad.csv" (dbl 5) (dbl 5)
      (by decide!) (by decide!) (by decide!) (by decide!) (by decide!) (by decide!)).2 rfl).2.1⟩

/-- Counterexample to C16. In the scenario, the features `(10^9, -10^9)` are
strictly closer to (0, 0) than to (10, 10): the squared distances are `2 * 10^18`
and `2 * 10^18 + 200`. The two computed distances are equal and
`classify_packet_c` returns 0. -/
theorem classify_packet_c_scenario_counterexample :
    B64.classify_packet_c b64_env "safe.csv" "bad.csv" [dbl (10 ^ 9), dbl (-10 ^ 9)] 2
      = (0, []) ∧
    fl_dist B64.sqrt64 [dbl (10 ^ 9), dbl (-10 ^ 9)] [dbl 0, dbl 0]
      = fl_dist B64.sqrt64 [dbl (10 ^ 9), dbl (-10 ^ 9)] [dbl 10, dbl 10] ∧
    dist (vec2 (10 ^ 9) (-10 ^ 9)) (vec2 0 0) < dist (vec2 (10 ^ 9) (-10 ^ 9)) (vec2 10 10) := by
  refine ⟨by decide!, by decide!, ?_⟩
  rw [dist_vec2, dist_vec2]
  exact Real.sqrt_lt_sqrt (by positivity) (by norm_num)

/-! ## Loading then averaging -/

/-- C17, amended. For a file that has a non-blank line, whose non-blank lines
each fit the line buffer and hold no NUL byte and split on commas into exactly
`c ≥ 1` non-empty fields: read_csv returns 0, and the mean that
compute_statistics computes in binary64 arithmetic on the matrix it returns is,
in each of the `c` columns, the quotient by the number of non-blank lines of
the sum of the `atof` values of the fields of the column as the loop computes
it, from 0.0, in file order, every addition and the division rounded. -/
theorem read_csv_mean_rounded (E : Env Num64) (uninit : Nat → Nat → F64) (filename : String)
    (content : List Char) (c : Nat) (mean stddev : List F64)
    (hopen : E.fopen filename = some content)
    (hdata : data_lines content ≠ [])
    (hfit : ∀ l ∈ data_lines content, l.length ≤ 1023 ∧ Char.ofNat 0 ∉ l)
    (hfields : ∀ l ∈ data_lines content,
      (l.splitOn ',').length = c ∧ ∀ f ∈ l.splitOn ',', f ≠ [])
    (hc : 1 ≤ c)
    (hmean : c ≤ mean.length) (hstd : c ≤ stddev.length) :
    ∃ r, (read_csv E uninit filename).1 = Except.ok r ∧
      (B64.compute_statistics E.sqrt r.data r.rows r.cols mean stddev).1
        = (List.range c).map
            (fun j => B64.divInt
              (fl_sum ((data_lines content).map fun l => E.atof ((l.splitOn ',').getD j [])))
              (data_lines content).length)
          ++ mean.drop c := by
  refine ⟨_, congrArg Prod.fst
    (read_csv_well_formed E uninit filename content c hopen hdata hfit hfields hc), ?_⟩
  simp only []
  have hcols := compute_statistics_columns E.sqrt
    ((data_lines content).map fun l => (l.splitOn ',').map E.atof) c mean stddev hmean hstd
  rw [List.length_map] at hcols
  rw [hcols]
  simp only []
  congr 1
  refine List.map_congr_left fun j hj => ?_
  congr 2
  rw [column, List.map_map]
  refine List.map_congr_left fun l hl => ?_
  have hlen : j < (l.splitOn ',').length := by
    rw [(hfields l hl).1]
    exact List.mem_range.mp hj
  simp [rd, List.getD_eq_getElem?_getD, List.getElem?_eq_getElem, hlen]

/-- Witness of C17, amended: the file with the rows 1,2 and 3,4 yields the mean
2, 3. -/
theorem read_csv_mean_rounded_witness :
    ∃ r, (read_csv b64_env (b64_env.garbage 0) "pairs.csv").1 = Except.ok r ∧
      (B64.compute_statistics b64_env.sqrt r.data r.rows r.cols [nan, nan] [nan, nan]).1
        = [dbl 2, dbl 3] := by
  obtain ⟨r, h1, h2⟩ := read_csv_mean_rounded b64_env (b64_env.garbage 0) "pairs.csv"
    "1,2\n3,4\n".toList 2 [nan, nan] [nan, nan]
    (by decide!) (by decide!) (by decide!) (by decide!) (by decide) (by decide) (by decide)
  exact ⟨r, h1, h2.trans (by decide!)⟩

/-- Counterexample to C17. The file "tenths.csv" has three lines, each with the
number 0.1; the average of the numbers written is 0.1, and the double nearest
to it is `0x1.999999999999ap-4`. read_csv returns three rows with this double,
and the mean that compute_statistics computes is the next double,
`0x1.999999999999bp-4`. -/
theorem read_csv_mean_counterexample :
    (data_lines "0.1\n0.1\n0.1\n".toList).map (fun l => (atof_dec l : Dbl ℚ))
      = [fin (1 / 10), fin (1 / 10), fin (1 / 10)] ∧
    col_mean (entries [[1 / 10], [1 / 10], [1 / 10]]) 3 0 = (1 / 10 : ℚ) ∧
    nearest (1 / 10) = dbl (7205759403792794 / 2 ^ 56) ∧
    (read_csv b64_env (b64_env.garbage 0) "tenths.csv").1.map
        (fun r => (B64.compute_statistics B64.sqrt64 r.data r.rows r.cols [nan] [nan]).1)
      = Except.ok [dbl (7205759403792795 / 2 ^ 56)] := by
  decide!

/-! ## Lines longer than the line buffer -/

/-- C5 at the failing input "wide.csv": two lines of 300 fields `1.5` each, 1200
characters a line. Every non-blank line has exactly 300 non-empty fields, and
read_csv reports 4 rows and 256 columns: the first 1023 characters of a line
make a row of 256 values, the rest of the line makes a row of its own, in which
44 values are stored and the other cells keep what the fresh memory held. -/
theorem read_csv_wide_file :
    (data_lines (wide_line ++ wide_line)).length = 2 ∧
    (∀ l ∈ data_lines (wide_line ++ wide_line),
      (l.splitOn ',').length = 300 ∧ ∀ f ∈ l.splitOn ',', f ≠ []) ∧
    (read_csv b64_env (b64_env.garbage 0) "wide.csv").1.map (fun r => (r.rows, r.cols))
      = Except.ok (4, 256) ∧
    (read_csv b64_env (b64_env.garbage 0) "wide.csv").1.map
        (fun r => [rd2 r.data 0 255, rd2 r.data 1 0, rd2 r.data 1 43, rd2 r.data 1 44,
          rd2 r.data 1 255])
      = Except.ok [dbl (3 / 2), dbl (3 / 2), dbl (3 / 2), b64_env.garbage 0 1 44,
          b64_env.garbage 0 1 255] := by
  decide!

/-- C6 at the failing input "header.csv": a line of 300 fields `1.5`, 1200
characters, followed by the line `1,2`. The first non-blank line has 300
tokens, and read_csv reports 256 columns, the number of tokens in the first
1023 characters of that line. -/
theorem read_csv_wide_header :
    (file_lines (wide_line ++ "1,2\n".toList)).find? (fun l => !blank l) = some wide_line ∧
    (line_tokens wide_line).length = 300 ∧
    (read_csv b64_env (b64_env.garbage 0) "header.csv").1.map (fun r => r.cols)
      = Except.ok 256 := by
  decide!

/-- C18 at the failing input "overlong.csv": the first line has one token, the
second line has three tokens and 1026 characters. read_csv stores three rows:
2, the first token of the second line, in the second row, and 4, its third
token, in a third row. -/
theorem read_csv_overlong_line :
    data_lines ("1\n".toList ++ overlong_line) = ["1\n".toList, overlong_line] ∧
    (line_tokens "1\n".toList).length = 1 ∧
    (line_tokens overlong_line).length = 3 ∧
    read_csv b64_env (b64_env.garbage 0) "overlong.csv"
      = (Except.ok ⟨[[dbl 1], [dbl 2], [dbl 4]], 3, 1⟩, []) := by
  decide!

/-! ## The control flow in binary64 -/

/-- The statement of C2 holds of the program in binary64 arithmetic as well:
`classify_packet_c` returns 1 exactly when training succeeds, `feature_count`
equals the `num_features` of the trained model and `classify_packet` returns 1
on that model; in every other case it returns 0. -/
theorem b64_classify_packet_c_safe_iff (E : Env Num64) (safe_csv bad_csv : String)
    (features : List F64) (feature_count : Int) :
    ((B64.classify_packet_c E safe_csv bad_csv features feature_count).1 = 1 ↔
      ∃ model, (B64.train_model E safe_csv bad_csv).1 = Except.ok model ∧
        model.num_features = feature_count ∧
        B64.classify_packet E.sqrt model features = 1) ∧
    ((B64.classify_packet_c E safe_csv bad_csv features feature_count).1 = 1 ∨
      (B64.classify_packet_c E safe_csv bad_csv features feature_count).1 = 0) := by
  unfold B64.classify_packet_c
  rcases h : B64.train_model E safe_csv bad_csv with ⟨r, log⟩
  cases r with
  | error e => simp
  | ok model =>
    by_cases hn : model.num_features = feature_count
    · simp [hn, b64_classify_packet_zero_or_one]
    · simp [hn]

/-- The statement of C3 holds of the program in binary64 arithmetic as well. -/
theorem b64_train_model_cols_differ (E : Env Num64) (safe_csv bad_csv : String)
    (safe bad : Csv Num64) (log1 log2 : List Msg)
    (hsafe : read_csv E (E.garbage 0) safe_csv = (Except.ok safe, log1))
    (hbad : read_csv E (E.garbage 1) bad_csv = (Except.ok bad, log2))
    (hcols : safe.cols ≠ bad.cols) :
    B64.train_model E safe_csv bad_csv
      = (Except.error (-1), log1 ++ log2 ++ [Msg.different_features]) := by
  simp [B64.train_model, hsafe, hbad, hcols]

/-- The statement of C4 holds of the program in binary64 arithmetic as well. -/
theorem b64_classify_packet_c_mismatch (E : Env Num64) (safe_csv bad_csv : String)
    (model : Model Num64) (log : List Msg) (features : List F64)
    (htrain : B64.train_model E safe_csv bad_csv = (Except.ok model, log))
    (hlen : (features.length : Int) ≠ model.num_features) :
    B64.classify_packet_c E safe_csv bad_csv features features.length
      = (0, log ++ [Msg.feature_mismatch model.num_features features.length]) := by
  simp [B64.classify_packet_c, htrain, Ne.symm hlen]

/-- The statement of C10 holds of the program in binary64 arithmetic as well:
with a row count of 0, compute_statistics stores NaN in the first `cols`
entries of the two buffers. -/
theorem b64_compute_statistics_zero_rows (sqrt : Num64 → Num64) (cols : Nat)
    (mean stddev : List F64) (hmean : cols ≤ mean.length) (hstd : cols ≤ stddev.length) :
    B64.compute_statistics sqrt [] 0 cols mean stddev
      = (List.replicate cols nan ++ mean.drop cols, List.replicate cols nan ++ stddev.drop cols) := by
  have h := compute_statistics_columns sqrt [] cols mean stddev hmean hstd
  simp only [List.length_nil, Nat.cast_zero] at h
  rw [h]
  have e1 : (List.range cols).map (fun j => B64.divInt (fl_sum (column [] j)) 0)
      = List.replicate cols nan := by
    apply List.ext_getElem
    · simp
    · intro i h1 h2
      simp [column, fl_sum, B64.divInt]
  have e2 : (List.range cols).map (fun j => B64.sqrt sqrt (B64.divInt
      (fl_sum ((column [] j).map fun x => fl_sqdiff x (B64.divInt (fl_sum (column [] j)) 0))) 0))
      = List.replicate cols nan := by
    apply List.ext_getElem
    · simp
    · intro i h1 h2
      simp [column, fl_sum, B64.divInt, B64.sqrt]
  rw [e1, e2]

/-- The instance of C15 in binary64 arithmetic: with the centroids (0, 0) and
(10, 10), the features (5, 5) are classified malicious. -/
theorem b64_classify_packet_midpoint :
    B64.classify_packet B64.sqrt64 ⟨2, [dbl 0, dbl 0], [dbl 10, dbl 10]⟩ [dbl 5, dbl 5] = 0 := by
  decide!

end NetScan
